import Mathlib

/-!
# Configuration parser of the web server (`src/Config/main.cpp`)

A shallow embedding of `ConfigParser` and a verification of its behaviour.

* `std::string` is a list of characters (`Str`).
* The opened `std::ifstream` is the list of lines that successive calls of
  `std::getline` return; a file that cannot be opened is `none`.
* `std::istringstream` is modelled with its buffer and its `eofbit` and
  `failbit`, and `operator>>` follows the behaviour of the C++ standard
  library (sentry, whitespace skipping, `num_get` for `int`).
* C++ exceptions are the `Error` values of `Except`.
-/

namespace Webserv

/-- A `std::string`. -/
abbrev Str := List Char

/-- Modelled from the spec: `Route.hpp` is not part of the sources; the fields
are those of the Route entity of the data model. -/
structure Route where
  path : Str
  autoindex : Str
  redirectStatus : Int
  redirectUrl : Str
  rootDir : Str
  indexFile : Str
  allowedMethods : List Str
deriving DecidableEq, Repr

/-- Modelled from the spec: `Config.hpp` is not part of the sources; the fields
are those of the ServerBlock entity of the data model. `errorPages` is the
mapping from status code to path, kept as an association list with unique
keys. -/
structure Config where
  port : Int
  name : Str
  rootDir : Str
  maxBodySize : Int
  defaultFile : Str
  errorPages : List (Int × Str)
  allowedMethods : List Str
  routes : List Route
deriving DecidableEq, Repr

namespace Route

/-- Modelled from the spec: `Route::setPath` (declared in `Route.hpp`). -/
def setPath (r : Route) (v : Str) : Route := { r with path := v }

/-- Modelled from the spec: `Route::setAutoindex` (declared in `Route.hpp`). -/
def setAutoindex (r : Route) (v : Str) : Route := { r with autoindex := v }

/-- Modelled from the spec: `Route::setRedirectStatus` (declared in `Route.hpp`). -/
def setRedirectStatus (r : Route) (v : Int) : Route := { r with redirectStatus := v }

/-- Modelled from the spec: `Route::setRedirectUrl` (declared in `Route.hpp`). -/
def setRedirectUrl (r : Route) (v : Str) : Route := { r with redirectUrl := v }

/-- Modelled from the spec: `Route::setRootDirRoute` (declared in `Route.hpp`). -/
def setRootDirRoute (r : Route) (v : Str) : Route := { r with rootDir := v }

/-- Modelled from the spec: `Route::setIndexFile` (declared in `Route.hpp`). -/
def setIndexFile (r : Route) (v : Str) : Route := { r with indexFile := v }

/-- Modelled from the spec: `Route::setAllowedMethods` (declared in `Route.hpp`). -/
def setAllowedMethods (r : Route) (v : List Str) : Route := { r with allowedMethods := v }

end Route

namespace Config

/-- Modelled from the spec: `Config::setPort` (declared in `Config.hpp`). -/
def setPort (c : Config) (v : Int) : Config := { c with port := v }

/-- Modelled from the spec: `Config::setName` (declared in `Config.hpp`). -/
def setName (c : Config) (v : Str) : Config := { c with name := v }

/-- Modelled from the spec: `Config::setRootDirConfig` (declared in `Config.hpp`). -/
def setRootDirConfig (c : Config) (v : Str) : Config := { c with rootDir := v }

/-- Modelled from the spec: `Config::setMaxBodySize` (declared in `Config.hpp`). -/
def setMaxBodySize (c : Config) (v : Int) : Config := { c with maxBodySize := v }

/-- Modelled from the spec: `Config::setDefaultFile` (declared in `Config.hpp`). -/
def setDefaultFile (c : Config) (v : Str) : Config := { c with defaultFile := v }

/-- Modelled from the spec: `Config::setErrorPage` (declared in `Config.hpp`):
inserts or overwrites `errorPages[code] = page`, so that a key occurs once. -/
def setErrorPage (c : Config) (code : Int) (page : Str) : Config :=
  { c with errorPages := (code, page) :: c.errorPages.filter (fun e => e.1 ≠ code) }

/-- Modelled from the spec: `Config::setAllowedMethods` (declared in `Config.hpp`). -/
def setAllowedMethods (c : Config) (v : List Str) : Config := { c with allowedMethods := v }

/-- Modelled from the spec: `Config::addRoute` (declared in `Config.hpp`):
appends the route at the end of the route sequence. -/
def addRoute (c : Config) (r : Route) : Config := { c with routes := c.routes ++ [r] }

/-- The path recorded for a status code (`errorPages[code]`), if any. -/
def errorPage (c : Config) (code : Int) : Option Str :=
  (c.errorPages.find? (fun e => e.1 = code)).map Prod.snd

end Config

/-- What the sources leave open: the values of a default-constructed `Config`
and `Route` (their constructors are in the missing headers) and the value read
from an `int` local that was never written. The language fixes no such value:
`indeterminate` stands for what a run reads there, and two runs, or two reads
of one run, need not read the same value. `Env.sameDefaults` relates the
environments of two runs, and `numericWithoutValue` tells the lines on which
the parser reads such a local. -/
structure Env where
  newConfig : Config
  newRoute : Route
  indeterminate : Int

/-- The exceptions the parser can raise. -/
inductive Error where
  /-- `std::runtime_error("Could not open configuration file.")` -/
  | openError
  /-- `std::out_of_range`, thrown by `std::string::substr` -/
  | outOfRange
  /-- Use of a `Config*` that does not point into the vector. -/
  | danglingPointer
  /-- The model ran out of fuel (never happens, see `parseConfigFile`). -/
  | outOfFuel
deriving DecidableEq, Repr

/-! ## The C++ standard library -/

/-- `std::isspace` in the "C" locale. -/
def isspace (c : Char) : Bool :=
  c = ' ' || c = '\t' || c = '\n' || c = '\x0b' || c = '\x0c' || c = '\r'

/-- `std::string::npos` for a 64-bit `size_t`. -/
def npos : Nat := 2 ^ 64 - 1

/-- The `size_t` value of a search result (`none` is `npos`). -/
def sizeT : Option Nat → Nat
  | none => npos
  | some i => i

/-- `s.find(pat)`: the first position at which `pat` occurs in `s`. -/
def find : Str → Str → Option Nat
  | [], pat => if pat = [] then some 0 else none
  | c :: s, pat =>
    if pat.isPrefixOf (c :: s) then some 0
    else (find s pat).map (· + 1)

/-- `s.find_first_not_of(set)`. -/
def find_first_not_of : Str → Str → Option Nat
  | [], _ => none
  | c :: s, set =>
    if set.contains c then (find_first_not_of s set).map (· + 1) else some 0

/-- `s.find_last_not_of(set)`. -/
def find_last_not_of : Str → Str → Option Nat
  | [], _ => none
  | c :: s, set =>
    match find_last_not_of s set with
    | some i => some (i + 1)
    | none => if set.contains c then none else some 0

/-- `s.substr(pos, n)` for `pos ≤ s.size()`. -/
def substr (s : Str) (pos n : Nat) : Str := (s.drop pos).take n

/-- `s.substr(pos, n)`, which throws `std::out_of_range` when `pos > s.size()`. -/
def substrChecked (s : Str) (pos n : Nat) : Except Error Str :=
  if pos > s.length then .error .outOfRange else .ok (substr s pos n)

/-- A `std::istringstream`: the characters not yet read and the state bits. -/
structure IStringStream where
  buf : Str
  eofbit : Bool
  failbit : Bool
deriving DecidableEq, Repr

namespace IStringStream

/-- `std::istringstream iss(line)`. -/
def new (line : Str) : IStringStream := { buf := line, eofbit := false, failbit := false }

/-- `good()`. -/
def good (s : IStringStream) : Bool := !s.eofbit && !s.failbit

/-- The `sentry` of a formatted input function: fails on a stream that is not
good, otherwise skips whitespace and fails at the end of the buffer. -/
def sentry (s : IStringStream) : Bool × IStringStream :=
  if s.good then
    let rest := s.buf.dropWhile isspace
    if rest.isEmpty then (false, { buf := rest, eofbit := true, failbit := true })
    else (true, { s with buf := rest })
  else (false, { s with failbit := true })

/-- `iss >> value` for a `std::string`: `value` is left untouched when the
sentry fails. -/
def extractString (s : IStringStream) (value : Str) : IStringStream × Str :=
  match sentry s with
  | (false, s1) => (s1, value)
  | (true, s1) =>
    let rest := s1.buf.dropWhile (fun c => !isspace c)
    ({ s1 with buf := rest, eofbit := s1.eofbit || rest.isEmpty },
      s1.buf.takeWhile (fun c => !isspace c))

/-- `INT_MAX`. -/
def intMax : Int := 2 ^ 31 - 1

/-- `INT_MIN`. -/
def intMin : Int := -(2 ^ 31)

/-- The value of a sequence of decimal digits. -/
def digitsValue (ds : Str) : Nat := ds.foldl (fun a d => 10 * a + (d.toNat - 48)) 0

/-- The optional sign that `num_get` reads before the digits: whether the
number is negative, and the characters after the sign. -/
def readSign : Str → Bool × Str
  | '-' :: t => (true, t)
  | '+' :: t => (false, t)
  | b => (false, b)

/-- `iss >> value` for an `int`: `value` is left untouched when the sentry
fails; otherwise an optional sign and the longest run of digits are read, and
`value` becomes 0 (no digit), `INT_MIN`/`INT_MAX` (out of range), both with
`failbit`, or the number read. -/
def extractInt (s : IStringStream) (value : Int) : IStringStream × Int :=
  match sentry s with
  | (false, s1) => (s1, value)
  | (true, s1) =>
    let signed := readSign s1.buf
    let ds := signed.2.takeWhile Char.isDigit
    let rest := signed.2.dropWhile Char.isDigit
    let eof := s1.eofbit || rest.isEmpty
    let v : Int := if signed.1 then -(digitsValue ds : Int) else (digitsValue ds : Int)
    if ds.isEmpty then ({ buf := rest, eofbit := eof, failbit := true }, 0)
    else if v < intMin then ({ buf := rest, eofbit := eof, failbit := true }, intMin)
    else if v > intMax then ({ buf := rest, eofbit := eof, failbit := true }, intMax)
    else ({ buf := rest, eofbit := eof, failbit := s1.failbit }, v)

end IStringStream

/-! ## `ConfigParser` -/

namespace ConfigParser

open IStringStream

/-- `ConfigParser::trim` (lines 104-109). `first` is an index of `str`, so
`substr` cannot throw here (`trimChecked_eq`). -/
def trim (str : Str) : Str :=
  match find_first_not_of str " \t".toList with
  | none => []
  | some first =>
    let last := sizeT (find_last_not_of str " \t".toList)
    substr str first (last - first + 1)

/-- `ConfigParser::trim` (lines 104-109) with the range check of `substr`, which
never fails there (`trimChecked_eq`). -/
def trimChecked (str : Str) : Except Error Str :=
  match find_first_not_of str " \t".toList with
  | none => pure []
  | some first =>
    let last := sizeT (find_last_not_of str " \t".toList)
    substrChecked str first (last - first + 1)

/-- `ConfigParser::parseValue<std::string>` (lines 111-118): `value` starts as
the empty string. -/
def parseValueString (line : Str) : Str :=
  let iss := IStringStream.new line
  let r1 := extractString iss []
  let r2 := extractString r1.1 []
  r2.2

/-- `ConfigParser::parseValue<int>` (lines 111-118): `value` starts
uninitialised. -/
def parseValueInt (env : Env) (line : Str) : Int :=
  let iss := IStringStream.new line
  let r1 := extractString iss []
  let r2 := extractInt r1.1 env.indeterminate
  r2.2

/-- The loop `while (iss >> method) methods.push_back(method);` of
`parseMethods`; every successful extraction consumes a character, so the
length of the buffer is enough fuel. -/
def parseMethodsLoop : Nat → IStringStream → Str → List Str → List Str
  | 0, _, _, methods => methods
  | fuel + 1, iss, method, methods =>
    let r := extractString iss method
    if r.1.failbit then methods
    else parseMethodsLoop fuel r.1 r.2 (methods ++ [r.2])

/-- `ConfigParser::parseMethods` (lines 120-129). -/
def parseMethods (line : Str) : List Str :=
  let iss := IStringStream.new line
  let r1 := extractString iss []
  parseMethodsLoop (line.length + 1) r1.1 [] []

/-- `ConfigParser::parseLocationPath` (lines 131-135), in `size_t` arithmetic. -/
def parseLocationPath (line : Str) : Except Error Str :=
  let start := (sizeT (find line "location".toList) + 8) % 2 ^ 64
  let endPos := sizeT (find line "\x7b".toList)
  (substrChecked line start ((endPos + 2 ^ 64 - start) % 2 ^ 64)).map trim

/-- The body of the loop of `ConfigParser::parseLocation` (lines 82-97) on the
line just read: the route after the line, or `none` for `break`.
`currentRoute` comes from `std::make_unique` and is never null, so
`&& currentRoute` is `&& true`. -/
def parseLocationLine (env : Env) (currentRoute : Route) (raw : Str) : Option Route :=
  let line := trim raw
  if find line "autoindex".toList = some 0 then
    some (currentRoute.setAutoindex (parseValueString line))
  else if find line "return".toList = some 0 then
    let iss := IStringStream.new line
    let r1 := extractString iss []
    let r2 := extractInt r1.1 env.indeterminate
    let r3 := extractString r2.1 []
    some ((currentRoute.setRedirectStatus r2.2).setRedirectUrl r3.2)
  else if find line "root".toList = some 0 ∧ true then
    some (currentRoute.setRootDirRoute (parseValueString line))
  else if find line "index".toList = some 0 ∧ true then
    some (currentRoute.setIndexFile (parseValueString line))
  else if line = "\x7d".toList then none
  else some currentRoute

/-- The loop `while (std::getline(file, line))` of `ConfigParser::parseLocation`
(lines 81-98): returns the route and the lines left in the file when the loop
ends. -/
def parseLocationLoop (env : Env) : Route → List Str → Route × List Str
  | currentRoute, [] => (currentRoute, [])
  | currentRoute, raw :: file =>
    match parseLocationLine env currentRoute raw with
    | some route => parseLocationLoop env route file
    | none => (currentRoute, file)

/-- `ConfigParser::parseLocation` (lines 76-102): returns the configuration
and the lines left in the file. -/
def parseLocation (env : Env) (config : Config) (file : List Str) (oldLine : Str) :
    Except Error (Config × List Str) := do
  let currentRoute := env.newRoute
  let path ← parseLocationPath oldLine
  let r := parseLocationLoop env (currentRoute.setPath path) file
  pure (config.addRoute r.1, r.2)

/-- `ConfigParser::parseServerDirective` (lines 45-74): returns the
configuration and the lines left in the file. -/
def parseServerDirective (env : Env) (config : Config) (file : List Str) (line : Str) :
    Except Error (Config × List Str) :=
  let currentRoute : Option Route := none
  if find line "listen".toList = some 0 then
    pure (config.setPort (parseValueInt env line), file)
  else if find line "server_name".toList = some 0 then
    pure (config.setName (parseValueString line), file)
  else if find line "root".toList = some 0 ∧ currentRoute.isNone then
    pure (config.setRootDirConfig (parseValueString line), file)
  else if find line "client_max_body_size".toList = some 0 then
    pure (config.setMaxBodySize (parseValueInt env line), file)
  else if find line "index".toList = some 0 ∧ currentRoute.isNone then
    pure (config.setDefaultFile (parseValueString line), file)
  else if find line "error_page".toList = some 0 then
    let iss := IStringStream.new line
    let r1 := extractString iss []
    let r2 := extractInt r1.1 env.indeterminate
    let r3 := extractString r2.1 []
    pure (config.setErrorPage r2.2 r3.2, file)
  else if find line "allow_methods".toList = some 0 then
    let methods := parseMethods line
    match currentRoute with
    | some _ => pure (config, file)
    | none => pure (config.setAllowedMethods methods, file)
  else if find line "location".toList = some 0 then
    parseLocation env config file line
  else pure (config, file)

/-- The loop of `ConfigParser::parseConfigFile` (lines 24-39), with the
vector `configs` and the pointer `currentConfig` as an index into it; returns
both as they are when the loop ends. Every iteration reads a line, so the
number of lines is enough fuel. -/
def parseConfigLoop (env : Env) :
    Nat → List Config → Option Nat → List Str → Except Error (List Config × Option Nat)
  | 0, configs, currentConfig, [] => pure (configs, currentConfig)
  | 0, _, _, _ :: _ => throw .outOfFuel
  | _ + 1, configs, currentConfig, [] => pure (configs, currentConfig)
  | fuel + 1, configs, currentConfig, raw :: file =>
    let line := trim raw
    if line.isEmpty || line.head? = some '#' then
      parseConfigLoop env fuel configs currentConfig file
    else if line = "server \x7b".toList then
      parseConfigLoop env fuel (configs ++ [env.newConfig]) (some configs.length) file
    else if line = "\x7d".toList then
      parseConfigLoop env fuel configs none file
    else
      match currentConfig with
      | some i =>
        match configs[i]? with
        | some config => do
          let r ← parseServerDirective env config file line
          parseConfigLoop env fuel (configs.set i r.1) currentConfig r.2
        | none => throw .danglingPointer
      | none => parseConfigLoop env fuel configs currentConfig file

/-- `ConfigParser::parseConfigFile` (lines 14-42); `file` is `none` when the
file cannot be opened. -/
def parseConfigFile (env : Env) (file : Option (List Str)) : Except Error (List Config) :=
  match file with
  | none => throw .openError
  | some lines => (parseConfigLoop env lines.length [] none lines).map Prod.fst

end ConfigParser

/-! ## The parser as a machine that reads one line at a time

`PState` holds the locals of the parser between two calls of `std::getline`:
`currentRoute` is `some r` while the loop of `parseLocation` is running. The
machine is proved to compute what `parseConfigLoop` computes
(`parseConfigLoop_eq_run`); it names the scope in which a line is read. -/

/-- The locals of the parser between two calls of `std::getline`. -/
structure PState where
  configs : List Config
  currentConfig : Option Nat
  currentRoute : Option Route
deriving DecidableEq, Repr

namespace PState

/-- The state in which `parseConfigFile` enters its loop. -/
def init : PState := { configs := [], currentConfig := none, currentRoute := none }

/-- The parser is outside every block. -/
def outside (st : PState) : Prop := st.currentConfig = none ∧ st.currentRoute = none

/-- The parser is at server scope in the block with index `i`. -/
def inServer (st : PState) (i : Nat) : Prop :=
  st.currentConfig = some i ∧ st.currentRoute = none ∧ i < st.configs.length

/-- The parser is inside a location block of the server block with index `i`,
with the route `r` under construction. -/
def inLocation (st : PState) (i : Nat) (r : Route) : Prop :=
  st.currentConfig = some i ∧ st.currentRoute = some r ∧ i < st.configs.length

end PState

/-- The appending of the finished route (line 100) to the configuration that
`currentConfig` points to. -/
def closeLocation (st : PState) (route : Route) : Except Error PState :=
  match st.currentConfig with
  | some i =>
    match st.configs[i]? with
    | some config =>
      pure { st with configs := st.configs.set i (config.addRoute route), currentRoute := none }
    | none => throw .danglingPointer
  | none => throw .danglingPointer

/-- One line read by the parser: by the loop of `parseLocation` when a route
is under construction, by the loop of `parseConfigFile` otherwise. -/
def step (env : Env) (st : PState) (raw : Str) : Except Error PState :=
  match st.currentRoute with
  | some route =>
    match ConfigParser.parseLocationLine env route raw with
    | some route1 => pure { st with currentRoute := some route1 }
    | none => closeLocation st route
  | none =>
    let line := ConfigParser.trim raw
    if line.isEmpty || line.head? = some '#' then pure st
    else if line = "server \x7b".toList then
      pure { st with configs := st.configs ++ [env.newConfig],
                     currentConfig := some st.configs.length }
    else if line = "\x7d".toList then pure { st with currentConfig := none }
    else
      match st.currentConfig with
      | some i =>
        match st.configs[i]? with
        | some config =>
          if find line "location".toList = some 0 then do
            let path ← ConfigParser.parseLocationPath line
            pure { st with currentRoute := some (env.newRoute.setPath path) }
          else do
            let r ← ConfigParser.parseServerDirective env config [] line
            pure { st with configs := st.configs.set i r.1 }
        | none => throw .danglingPointer
      | none => pure st

/-- The lines of a list read one after the other. -/
def run (env : Env) : PState → List Str → Except Error PState
  | st, [] => pure st
  | st, raw :: file => do
    let st1 ← step env st raw
    run env st1 file

/-- End of file: a route under construction is appended (lines 99-101). -/
def finish (st : PState) : Except Error PState :=
  match st.currentRoute with
  | some route => closeLocation st route
  | none => pure st

/-- The pointer `currentConfig` points into `configs`, and a route is under
construction only inside a server block. -/
def PState.wf (st : PState) : Prop :=
  (∀ i, st.currentConfig = some i → i < st.configs.length) ∧
  (∀ route, st.currentRoute = some route → ∃ i, st.currentConfig = some i)

/-- The locals that `parseConfigLoop` returns. -/
def PState.locals (st : PState) : List Config × Option Nat := (st.configs, st.currentConfig)

/-- The rest of a run of `parseConfigFile` from a state of the machine: the
loop of `parseConfigFile`, after the rest of the loop of `parseLocation` and
the appending of the route when a route is under construction. -/
def resume (env : Env) (fuel : Nat) (st : PState) (lines : List Str) :
    Except Error (List Config × Option Nat) :=
  match st.currentRoute with
  | none => ConfigParser.parseConfigLoop env fuel st.configs st.currentConfig lines
  | some route =>
    match st.currentConfig with
    | some i =>
      match st.configs[i]? with
      | some config =>
        let r := ConfigParser.parseLocationLoop env route lines
        ConfigParser.parseConfigLoop env fuel (st.configs.set i (config.addRoute r.1)) (some i) r.2
      | none => throw .danglingPointer
    | none => throw .danglingPointer

/-- The line that follows the lines `pre` of a file is read at server scope, in
the server block with index `i`: after `pre` the parser is in the loop of
`parseConfigFile` and `currentConfig` points to the configuration `i`. -/
def serverScopeAfter (env : Env) (pre : List Str) (i : Nat) : Bool :=
  match run env PState.init pre with
  | .ok st => decide (st.currentConfig = some i) && st.currentRoute.isNone
  | .error _ => false

/-- The route after the lines of a location block none of which closes it. -/
def routeAfter (env : Env) (route : Route) (body : List Str) : Route :=
  body.foldl (fun r l => (ConfigParser.parseLocationLine env r l).getD r) route

/-! ## Notions of the specification -/

/-- A space or a tab, the characters that `trim` removes. -/
def blank (c : Char) : Bool := " \t".toList.contains c

/-- The whitespace-delimited tokens of a line. -/
def tokens (s : Str) : List Str := (s.splitOnP isspace).filter (fun t => !t.isEmpty)

/-- A token is a sequence of decimal digits. -/
def isDigits (tok : Str) : Bool := !tok.isEmpty && tok.all Char.isDigit

/-- The integer a token denotes in decimal notation, with an optional sign. -/
def decimalInt (tok : Str) : Option Int :=
  match tok with
  | '-' :: ds => if isDigits ds then some (-(IStringStream.digitsValue ds : Int)) else none
  | '+' :: ds => if isDigits ds then some (IStringStream.digitsValue ds : Int) else none
  | ds => if isDigits ds then some (IStringStream.digitsValue ds : Int) else none

/-- The value fits an `int`. -/
def fitsInt (v : Int) : Prop := IStringStream.intMin ≤ v ∧ v ≤ IStringStream.intMax

/-- A line is blank or a comment: empty once spaces and tabs are trimmed, or
its first character that is neither a space nor a tab is `#`. -/
def isBlankOrComment (raw : Str) : Prop :=
  ConfigParser.trim raw = [] ∨ (ConfigParser.trim raw).head? = some '#'

/-- A `listen` line with a valid value: the trimmed line begins with `listen`
and its second token is the decimal integer `v`, within the range of `int`. -/
def listenLine (raw : Str) (v : Int) : Prop :=
  find (ConfigParser.trim raw) "listen".toList = some 0 ∧
  ∃ k t ts, tokens raw = k :: t :: ts ∧ decimalInt t = some v ∧ fitsInt v

/-- An `error_page` line for the status code `c` and the path `p`: the trimmed
line begins with `error_page`, its second token is the decimal integer `c`,
within the range of `int`, and its third token is `p`. -/
def errorPageLine (raw : Str) (c : Int) (p : Str) : Prop :=
  find (ConfigParser.trim raw) "error_page".toList = some 0 ∧
  ∃ k t ts, tokens raw = k :: t :: p :: ts ∧ decimalInt t = some c ∧ fitsInt c

/-- A trimmed line begins with one of the eight directives of server scope. -/
def isServerDirective (line : Str) : Prop :=
  find line "listen".toList = some 0 ∨ find line "server_name".toList = some 0 ∨
  find line "root".toList = some 0 ∨ find line "client_max_body_size".toList = some 0 ∨
  find line "index".toList = some 0 ∨ find line "error_page".toList = some 0 ∨
  find line "allow_methods".toList = some 0 ∨ find line "location".toList = some 0

instance (line : Str) : Decidable (isServerDirective line) := by
  unfold isServerDirective
  infer_instance

/-- The input of section 8 of the specification. -/
def exampleInput : List Str :=
  [ "server \x7b".toList,
    "    listen 8080".toList,
    "    server_name example.com".toList,
    "    root /var/www".toList,
    "    location /static \x7b".toList,
    "        index static.html".toList,
    "        allow_methods GET HEAD".toList,
    "    \x7d".toList,
    "\x7d".toList ]

/-- An environment for examples. -/
def Env.zero : Env :=
  { newConfig := ⟨0, [], [], 0, [], [], [], []⟩,
    newRoute := ⟨[], [], 0, [], [], [], []⟩,
    indeterminate := 0 }

/-- A trimmed line begins with one of the four directives of route scope. -/
def isRouteDirective (line : Str) : Prop :=
  find line "autoindex".toList = some 0 ∨ find line "return".toList = some 0 ∨
  find line "root".toList = some 0 ∨ find line "index".toList = some 0

instance (line : Str) : Decidable (isRouteDirective line) := by
  unfold isRouteDirective
  infer_instance

/-- `ConfigParser::parseServerDirective` with the conditions `!currentRoute`
removed and the branch `if (currentRoute)` of `allow_methods` deleted. -/
def parseServerDirectiveNoRoute (env : Env) (config : Config) (file : List Str) (line : Str) :
    Except Error (Config × List Str) :=
  if find line "listen".toList = some 0 then
    pure (config.setPort (ConfigParser.parseValueInt env line), file)
  else if find line "server_name".toList = some 0 then
    pure (config.setName (ConfigParser.parseValueString line), file)
  else if find line "root".toList = some 0 then
    pure (config.setRootDirConfig (ConfigParser.parseValueString line), file)
  else if find line "client_max_body_size".toList = some 0 then
    pure (config.setMaxBodySize (ConfigParser.parseValueInt env line), file)
  else if find line "index".toList = some 0 then
    pure (config.setDefaultFile (ConfigParser.parseValueString line), file)
  else if find line "error_page".toList = some 0 then
    let iss := IStringStream.new line
    let r1 := IStringStream.extractString iss []
    let r2 := IStringStream.extractInt r1.1 env.indeterminate
    let r3 := IStringStream.extractString r2.1 []
    pure (config.setErrorPage r2.2 r3.2, file)
  else if find line "allow_methods".toList = some 0 then
    pure (config.setAllowedMethods (ConfigParser.parseMethods line), file)
  else if find line "location".toList = some 0 then
    ConfigParser.parseLocation env config file line
  else pure (config, file)

/-- The prefix test `line.find(kw) == 0`. -/
def beginsWith (kw : Str) (line : Str) : Bool := decide (find line kw = some 0)

/-- First match wins: the action of the first test of the table that the line
passes, `dflt` when it passes none. -/
def dispatch {α : Type} (table : List ((Str → Bool) × α)) (dflt : α) (line : Str) : α :=
  match table.find? (fun e => e.1 line) with
  | some e => e.2
  | none => dflt

/-- The eight keywords of server scope, in the order of the tests of
`parseServerDirective`. -/
def serverKeywords : List Str :=
  ["listen".toList, "server_name".toList, "root".toList, "client_max_body_size".toList,
    "index".toList, "error_page".toList, "allow_methods".toList, "location".toList]

/-- The four keywords of route scope, in the order of the tests of
`parseLocation`. -/
def routeKeywords : List Str :=
  ["autoindex".toList, "return".toList, "root".toList, "index".toList]

/-- The tests of `parseServerDirective` and what each branch returns, in the
order of the source. -/
def serverTable (env : Env) (config : Config) (file : List Str) (line : Str) :
    List ((Str → Bool) × Except Error (Config × List Str)) :=
  [ (beginsWith "listen".toList,
      pure (config.setPort (ConfigParser.parseValueInt env line), file)),
    (beginsWith "server_name".toList,
      pure (config.setName (ConfigParser.parseValueString line), file)),
    (beginsWith "root".toList,
      pure (config.setRootDirConfig (ConfigParser.parseValueString line), file)),
    (beginsWith "client_max_body_size".toList,
      pure (config.setMaxBodySize (ConfigParser.parseValueInt env line), file)),
    (beginsWith "index".toList,
      pure (config.setDefaultFile (ConfigParser.parseValueString line), file)),
    (beginsWith "error_page".toList,
      pure (config.setErrorPage
        (IStringStream.extractInt
          (IStringStream.extractString (IStringStream.new line) []).1 env.indeterminate).2
        (IStringStream.extractString
          (IStringStream.extractInt
            (IStringStream.extractString (IStringStream.new line) []).1 env.indeterminate).1
          []).2, file)),
    (beginsWith "allow_methods".toList,
      pure (config.setAllowedMethods (ConfigParser.parseMethods line), file)),
    (beginsWith "location".toList, ConfigParser.parseLocation env config file line) ]

/-- The tests of the loop of `parseLocation` on a trimmed line and what each
branch makes of the route (`none` for `break`), in the order of the source. -/
def routeTable (env : Env) (route : Route) (line : Str) : List ((Str → Bool) × Option Route) :=
  [ (beginsWith "autoindex".toList,
      some (route.setAutoindex (ConfigParser.parseValueString line))),
    (beginsWith "return".toList,
      some ((route.setRedirectStatus
        (IStringStream.extractInt
          (IStringStream.extractString (IStringStream.new line) []).1 env.indeterminate).2).setRedirectUrl
        (IStringStream.extractString
          (IStringStream.extractInt
            (IStringStream.extractString (IStringStream.new line) []).1 env.indeterminate).1
          []).2)),
    (beginsWith "root".toList,
      some (route.setRootDirRoute (ConfigParser.parseValueString line))),
    (beginsWith "index".toList,
      some (route.setIndexFile (ConfigParser.parseValueString line))),
    (fun l => decide (l = "\x7d".toList), none) ]

/-- The digits that `operator>>` reads for an `int` at the beginning of a
token, after the optional sign. -/
def intDigits (t : Str) : Str := (IStringStream.readSign t).2.takeWhile Char.isDigit

/-- What is left of a token after the optional sign and the digits. -/
def intTail (t : Str) : Str := (IStringStream.readSign t).2.dropWhile Char.isDigit

/-- The integer that the optional sign and the digits denote. -/
def intValue (t : Str) : Int :=
  if (IStringStream.readSign t).1 then -(IStringStream.digitsValue (intDigits t) : Int)
  else (IStringStream.digitsValue (intDigits t) : Int)

/-- What `iss >> key >> number >> text` stores in `number` and in `text` on a
line whose second token is `t` and whose third token is `next`: when `t` does
not begin with an integer (an optional sign and at least one digit), `number`
is 0 and `text` is left empty; when that integer is outside the range of
`int`, `number` is `INT_MIN` or `INT_MAX` and `text` is left empty; otherwise
`number` is the integer, and `text` is `next` when the integer is the whole
token, the rest of the token when it is not. -/
def intThenString (t next : Str) : Int × Str :=
  if (intDigits t).isEmpty then (0, [])
  else if intValue t < IStringStream.intMin then (IStringStream.intMin, [])
  else if intValue t > IStringStream.intMax then (IStringStream.intMax, [])
  else if (intTail t).isEmpty then (intValue t, next)
  else (intValue t, intTail t)

/-- The number of lines of a file that are `server {` once trimmed and are read
by the loop of `parseConfigFile`, not by the loop of `parseLocation`, when the
parser reads the file from the state `st`. -/
def serverLinesRead (env : Env) : PState → List Str → Nat
  | _, [] => 0
  | st, raw :: file =>
    (if st.currentRoute = none ∧ ConfigParser.trim raw = "server \x7b".toList then 1 else 0) +
      match step env st raw with
      | .ok st1 => serverLinesRead env st1 file
      | .error _ => 0

/-- The configuration `i` belongs to a server block that `currentConfig` has
left for good: it points to a later configuration, or to none. -/
def closedBlock (i : Nat) (st : PState) : Prop :=
  i < st.configs.length ∧ ∀ j, st.currentConfig = some j → i < j

/-- After the lines `pre` of a file the parser is outside every block: in the
loop of `parseConfigFile`, with `currentConfig` null. -/
def outsideAfter (env : Env) (pre : List Str) : Bool :=
  match run env PState.init pre with
  | .ok st => st.currentConfig.isNone && st.currentRoute.isNone
  | .error _ => false

/-- The state `st` with the configurations `cs` before its own: `currentConfig`
points to the same configuration as in `st`. -/
def PState.shift (cs : List Config) (st : PState) : PState :=
  { configs := cs ++ st.configs,
    currentConfig := st.currentConfig.map (fun i => i + cs.length),
    currentRoute := st.currentRoute }

/-- An item of a server block: a line of server scope that opens no location
block, or a location block with its closing line. -/
inductive BlockItem where
  | line (l : Str)
  | location (loc : Str) (body : List Str) (close : Str)

namespace BlockItem

/-- The lines of an item, in file order. -/
def lines : BlockItem → List Str
  | line l => [l]
  | location loc body close => loc :: body ++ [close]

/-- A line of server scope is neither `server {` nor `}` and does not begin
with `location`; a location block begins with a `location` line, has no `}`
line in its body, and ends with a `}` line. -/
def wellFormed : BlockItem → Prop
  | line l =>
    ConfigParser.trim l ≠ "server \x7b".toList ∧ ConfigParser.trim l ≠ "\x7d".toList ∧
      find (ConfigParser.trim l) "location".toList ≠ some 0
  | location loc body close =>
    find (ConfigParser.trim loc) "location".toList = some 0 ∧
      (∀ l ∈ body, ConfigParser.trim l ≠ "\x7d".toList) ∧
      ConfigParser.trim close = "\x7d".toList

instance (item : BlockItem) : Decidable item.wellFormed := by
  cases item <;> (unfold wellFormed; infer_instance)

/-- The path of the location block, for an item that is one. -/
def paths : BlockItem → List Str
  | line _ => []
  | location loc _ _ =>
    match ConfigParser.parseLocationPath (ConfigParser.trim loc) with
    | .ok path => [path]
    | .error _ => []

end BlockItem

/-- The lines of the items of a server block, in file order. -/
def blockLines (items : List BlockItem) : List Str := (items.map BlockItem.lines).flatten

/-- The paths of the location blocks among the items, in file order. -/
def blockPaths (items : List BlockItem) : List Str := (items.map BlockItem.paths).flatten

/-- Two environments with the same default-constructed `Config` and `Route`:
they differ at most in the value read from an `int` that was never written. -/
def Env.sameDefaults (e1 e2 : Env) : Prop :=
  e1.newConfig = e2.newConfig ∧ e1.newRoute = e2.newRoute

instance (e1 e2 : Env) : Decidable (e1.sameDefaults e2) := by
  unfold Env.sameDefaults
  infer_instance

/-- A numeric directive without a value: once trimmed the line begins with
`listen`, `client_max_body_size`, `error_page` or `return`, the keywords whose
branch extracts an `int`, and it has no second token, so that `operator>>`
leaves the `int` unwritten and the parser reads an indeterminate value. -/
def numericWithoutValue (raw : Str) : Bool :=
  (beginsWith "listen".toList (ConfigParser.trim raw) ||
    beginsWith "client_max_body_size".toList (ConfigParser.trim raw) ||
    beginsWith "error_page".toList (ConfigParser.trim raw) ||
    beginsWith "return".toList (ConfigParser.trim raw)) &&
  decide ((tokens raw).length < 2)

/-- The line may set the error page of the code `k`: once trimmed it begins
with `error_page` and the integer that `operator>>` stores for its second token
is `k`; a line without a second token leaves the `int` unwritten and may set
any code. -/
def setsErrorCode (raw : Str) (k : Int) : Prop :=
  find (ConfigParser.trim raw) "error_page".toList = some 0 ∧
    match tokens raw with
    | _ :: t :: ts => (intThenString t (ts.headD [])).1 = k
    | _ => True

instance (raw : Str) (k : Int) : Decidable (setsErrorCode raw k) := by
  unfold setsErrorCode
  split <;> infer_instance

/-- No line of `lines`, the lines that follow the lines `pre` of a file, sets
the error page of the code `k` when it is read at server scope of the server
block `i`. -/
def errorCodeKept (env : Env) (pre lines : List Str) (i : Nat) (k : Int) : Prop :=
  ∀ j (hj : j < lines.length), serverScopeAfter env (pre ++ lines.take j) i = true →
    ¬ setsErrorCode lines[j] k

instance (env : Env) (pre lines : List Str) (i : Nat) (k : Int) :
    Decidable (errorCodeKept env pre lines i k) := by
  unfold errorCodeKept
  infer_instance

/-! ## Basic facts -/

open ConfigParser

theorem find_eq_zero_iff (s pat : Str) : find s pat = some 0 ↔ pat <+: s := by
  cases s with
  | nil =>
    simp only [find]
    by_cases h : pat = []
    · simp [h]
    · simp [h]
  | cons c s =>
    simp only [find]
    by_cases h : pat.isPrefixOf (c :: s) = true
    · simp only [h, if_true, true_iff]
      exact List.isPrefixOf_iff_prefix.mp h
    · simp only [h]
      have h2 : ¬ pat <+: c :: s := fun hp => h (List.isPrefixOf_iff_prefix.mpr hp)
      simp [h2]

theorem find_eq_zero_append (s pat : Str) (h : find s pat = some 0) :
    s = pat ++ s.drop pat.length := by
  obtain ⟨t, rfl⟩ := (find_eq_zero_iff s pat).mp h
  simp

theorem find_first_not_of_lt (s set : Str) (i : Nat) (h : find_first_not_of s set = some i) :
    i < s.length := by
  induction s generalizing i with
  | nil => simp [find_first_not_of] at h
  | cons c s ih =>
    simp only [find_first_not_of] at h
    split at h
    · cases hf : find_first_not_of s set with
      | none => simp [hf] at h
      | some j =>
        simp [hf] at h
        have := ih j hf
        simp; omega
    · simp at h; simp; omega

theorem trimChecked_eq (s : Str) : trimChecked s = .ok (trim s) := by
  simp only [trimChecked, trim]
  cases h : find_first_not_of s " \t".toList with
  | none => rfl
  | some first =>
    have := find_first_not_of_lt s _ first h
    simp only [substrChecked]
    rw [if_neg (by omega)]

theorem parseLocationPath_ok (line : Str) (h : find line "location".toList = some 0) :
    parseLocationPath line =
      .ok (trim (substr line 8 ((sizeT (find line "\x7b".toList) + 2 ^ 64 - 8) % 2 ^ 64))) := by
  have hl := find_eq_zero_append line _ h
  have hlen : 8 ≤ line.length := by
    rw [hl]; simp
  simp only [parseLocationPath, h, sizeT, substrChecked]
  have : ¬ (0 + 8) % 2 ^ 64 > line.length := by norm_num; omega
  rw [if_neg this]
  rfl

theorem parseServerDirective_location (env : Env) (config : Config) (file : List Str)
    (line : Str) (h : find line "location".toList = some 0) :
    parseServerDirective env config file line = parseLocation env config file line := by
  obtain ⟨t, rfl⟩ := (find_eq_zero_iff _ _).mp h
  simp [parseServerDirective, find_eq_zero_iff]

theorem parseServerDirective_other (env : Env) (config : Config)
    (line : Str) (h : find line "location".toList ≠ some 0) :
    ∃ c, ∀ file, parseServerDirective env config file line = .ok (c, file) := by
  unfold parseServerDirective
  simp only [h]
  split_ifs <;> first | exact ⟨_, fun _ => rfl⟩ | contradiction


theorem parseConfigLoop_nil (env : Env) (fuel : Nat) (configs : List Config)
    (cur : Option Nat) :
    parseConfigLoop env fuel configs cur [] = .ok (configs, cur) := by
  cases fuel <;> rfl

theorem resume_nil (env : Env) (fuel : Nat) (st : PState) :
    resume env fuel st [] = (finish st).map PState.locals := by
  obtain ⟨configs, cur, croute⟩ := st
  cases croute with
  | none => simp [resume, parseConfigLoop_nil, finish, PState.locals, Except.map, pure, Except.pure]
  | some route =>
    cases cur with
    | none => simp [resume, finish, closeLocation, Except.map, throw, throwThe, MonadExceptOf.throw]
    | some i =>
      cases hg : configs[i]? with
      | none =>
        simp [resume, finish, closeLocation, hg, Except.map, throw, throwThe, MonadExceptOf.throw]
      | some config =>
        simp [resume, finish, closeLocation, hg, Except.map, parseLocationLoop,
          parseConfigLoop_nil, PState.locals, pure, Except.pure]

theorem resume_cons (env : Env) (fuel : Nat) (st : PState) (raw : Str) (file : List Str) :
    resume env (fuel + 1) st (raw :: file) =
      step env st raw >>= fun st1 =>
        resume env (if st.currentRoute = none then fuel else fuel + 1) st1 file := by
  obtain ⟨configs, cur, croute⟩ := st
  cases croute with
  | none =>
    simp only [resume, parseConfigLoop, step, if_true]
    by_cases h1 : ((trim raw).isEmpty || decide ((trim raw).head? = some '#')) = true
    · simp only [h1, if_true]; rfl
    simp only [h1, if_false]
    by_cases h2 : trim raw = "server \x7b".toList
    · simp only [h2, if_true]; rfl
    simp only [h2, if_false]
    by_cases h3 : trim raw = "\x7d".toList
    · simp only [h3, if_true]; rfl
    simp only [h3, if_false]
    cases cur with
    | none => rfl
    | some i =>
      simp only []
      cases hg : configs[i]? with
      | none => rfl
      | some config =>
        simp only []
        by_cases hl : find (trim raw) "location".toList = some 0
        · rw [parseServerDirective_location _ _ _ _ hl, if_pos hl]
          simp only [parseLocation, parseLocationPath_ok _ hl, bind, Except.bind, pure,
            Except.pure, resume]
          simp [hg]
        · obtain ⟨c, hcfg⟩ := parseServerDirective_other env config (trim raw) hl
          rw [hcfg file, if_neg hl, hcfg []]
          rfl
  | some route =>
    have hne : (some route = none) = False := by simp
    simp only [hne, if_false]
    cases cur with
    | none =>
      simp only [resume, step]
      cases parseLocationLine env route raw with
      | some r1 => rfl
      | none => rfl
    | some i =>
      simp only [resume, step]
      cases hg : configs[i]? with
      | none =>
        cases parseLocationLine env route raw with
        | some r1 => simp [bind, Except.bind, pure, Except.pure, hg]
        | none => simp [bind, Except.bind, closeLocation, hg, throw, throwThe, MonadExceptOf.throw]
      | some config =>
        simp only [parseLocationLoop]
        cases parseLocationLine env route raw with
        | some r1 => simp [bind, Except.bind, pure, Except.pure, hg]
        | none => simp [bind, Except.bind, closeLocation, hg, pure, Except.pure]

theorem resume_eq_run (env : Env) (lines : List Str) :
    ∀ (fuel : Nat) (st : PState), lines.length ≤ fuel →
      resume env fuel st lines = (run env st lines >>= finish).map PState.locals := by
  induction lines with
  | nil =>
    intro fuel st _
    rw [resume_nil]; rfl
  | cons raw file ih =>
    intro fuel st hfuel
    obtain ⟨f, rfl⟩ : ∃ f, fuel = f + 1 := ⟨fuel - 1, by simp at hfuel; omega⟩
    have hf : file.length ≤ f := by simp at hfuel; omega
    rw [resume_cons]
    simp only [run]
    cases hs : step env st raw with
    | error e => rfl
    | ok st1 =>
      simp only [bind, Except.bind]
      have := ih (if st.currentRoute = none then f else f + 1) st1 (by split_ifs <;> omega)
      simpa [bind, Except.bind] using this


theorem parseConfigFile_eq_run (env : Env) (lines : List Str) :
    parseConfigFile env (some lines) =
      (run env PState.init lines >>= finish).map PState.configs := by
  have h := resume_eq_run env lines lines.length PState.init (le_refl _)
  simp only [resume, PState.init] at h
  simp only [parseConfigFile, h, PState.init]
  cases run env ⟨[], none, none⟩ lines >>= finish <;> rfl

theorem run_append (env : Env) (a b : List Str) :
    ∀ st, run env st (a ++ b) = run env st a >>= fun s => run env s b := by
  induction a with
  | nil => intro st; rfl
  | cons x a ih =>
    intro st
    simp only [List.cons_append, run]
    cases step env st x with
    | error e => rfl
    | ok s => simpa [bind, Except.bind] using ih s

theorem parseServerDirective_ok (env : Env) (config : Config) (file : List Str) (line : Str) :
    ∃ c rest, parseServerDirective env config file line = .ok (c, rest) := by
  by_cases hl : find line "location".toList = some 0
  · rw [parseServerDirective_location _ _ _ _ hl]
    simp only [parseLocation, parseLocationPath_ok _ hl, bind, Except.bind, pure, Except.pure]
    exact ⟨_, _, rfl⟩
  · obtain ⟨c, hc⟩ := parseServerDirective_other env config line hl
    exact ⟨c, file, hc file⟩

theorem closeLocation_ok (st : PState) (route : Route) (h : st.wf) (i : Nat)
    (hi : st.currentConfig = some i) :
    ∃ config, st.configs[i]? = some config ∧
      closeLocation st route =
        .ok { st with configs := st.configs.set i (config.addRoute route), currentRoute := none } := by
  have hlt := h.1 i hi
  refine ⟨st.configs[i], by simp [hlt], ?_⟩
  simp [closeLocation, hi, hlt, pure, Except.pure]

theorem step_ok (env : Env) (st : PState) (raw : Str) (h : st.wf) :
    ∃ st1, step env st raw = .ok st1 ∧ st1.wf := by
  obtain ⟨configs, cur, croute⟩ := st
  cases croute with
  | some route =>
    obtain ⟨i, hi⟩ := h.2 route rfl
    simp only [step]
    cases parseLocationLine env route raw with
    | some r1 =>
      refine ⟨_, rfl, ?_⟩
      exact ⟨h.1, fun _ _ => ⟨i, hi⟩⟩
    | none =>
      obtain ⟨config, _, hc⟩ := closeLocation_ok _ route h i hi
      refine ⟨_, hc, ?_⟩
      refine ⟨fun j hj => ?_, fun r hr => by simp at hr⟩
      have := h.1 j hj
      simpa using this
  | none =>
    simp only [step]
    by_cases h1 : ((trim raw).isEmpty || decide ((trim raw).head? = some '#')) = true
    · exact ⟨_, by simp only [h1, if_true]; rfl, h⟩
    simp only [h1]
    by_cases h2 : trim raw = "server \x7b".toList
    · refine ⟨_, by simp only [h2, if_true]; rfl, ?_⟩
      refine ⟨fun j hj => ?_, fun r hr => by simp at hr⟩
      simp at hj
      simp [← hj]
    simp only [h2]
    by_cases h3 : trim raw = "\x7d".toList
    · refine ⟨_, by simp only [h3, if_true]; rfl, ?_⟩
      exact ⟨fun j hj => by simp at hj, fun r hr => by simp at hr⟩
    simp only [h3]
    cases cur with
    | none => exact ⟨_, rfl, h⟩
    | some i =>
      have hlt : i < configs.length := h.1 i rfl
      have hg : configs[i]? = some configs[i] := by simp [hlt]
      simp only [hg]
      by_cases hl : find (trim raw) "location".toList = some 0
      · refine ⟨_, by simp only [Bool.false_eq_true, if_false, hl, if_true, parseLocationPath_ok _ hl, bind, Except.bind, pure, Except.pure]; rfl, ?_⟩
        exact ⟨h.1, fun _ _ => ⟨i, rfl⟩⟩
      · obtain ⟨c, hc⟩ := parseServerDirective_other env configs[i] (trim raw) hl
        refine ⟨_, by simp only [Bool.false_eq_true, if_false, hl, hc [], bind, Except.bind, pure, Except.pure]; rfl, ?_⟩
        refine ⟨fun j hj => ?_, fun r hr => by simp at hr⟩
        have := h.1 j hj
        simpa using this

theorem wf_init : PState.init.wf := by
  refine ⟨fun i hi => ?_, fun r hr => ?_⟩ <;> simp [PState.init] at *

theorem run_ok (env : Env) (lines : List Str) :
    ∀ st, st.wf → ∃ st1, run env st lines = .ok st1 ∧ st1.wf := by
  induction lines with
  | nil => intro st h; exact ⟨st, rfl, h⟩
  | cons raw file ih =>
    intro st h
    obtain ⟨s1, hs1, hw1⟩ := step_ok env st raw h
    obtain ⟨s2, hs2, hw2⟩ := ih s1 hw1
    exact ⟨s2, by simp [run, hs1, bind, Except.bind, hs2], hw2⟩

theorem finish_ok (st : PState) (h : st.wf) : ∃ st1, finish st = .ok st1 ∧ st1.wf ∧
    st1.currentRoute = none := by
  obtain ⟨configs, cur, croute⟩ := st
  cases croute with
  | none => exact ⟨_, rfl, h, rfl⟩
  | some route =>
    obtain ⟨i, hi⟩ := h.2 route rfl
    obtain ⟨config, _, hc⟩ := closeLocation_ok _ route h i hi
    refine ⟨_, hc, ⟨fun j hj => ?_, fun r hr => by simp at hr⟩, rfl⟩
    have := h.1 j hj
    simpa using this

/-! ## Tokens and stream extraction -/

theorem tokens_nil : tokens [] = [] := rfl

theorem tokens_cons_space (c : Char) (s : Str) (h : isspace c = true) :
    tokens (c :: s) = tokens s := by
  simp [tokens, h]

theorem tokens_dropWhile (s : Str) : tokens (s.dropWhile isspace) = tokens s := by
  induction s with
  | nil => rfl
  | cons c s ih =>
    by_cases h : isspace c = true
    · rw [List.dropWhile_cons_of_pos h, ih, tokens_cons_space c s h]
    · rw [List.dropWhile_cons_of_neg h]

theorem tokens_word (w rest : Str) (hw : w ≠ []) (hns : ∀ x ∈ w, isspace x = false)
    (hrest : ∀ c ∈ rest.head?, isspace c = true) :
    tokens (w ++ rest) = w :: tokens rest := by
  have hns2 : ∀ x ∈ w, ¬ isspace x = true := fun x hx => by simp [hns x hx]
  cases rest with
  | nil =>
    rw [List.append_nil, tokens, List.splitOnP_eq_single _ _ hns2]
    cases w with
    | nil => exact absurd rfl hw
    | cons a w => rfl
  | cons c r =>
    have hc : isspace c = true := hrest c (by simp)
    rw [tokens, List.splitOnP_first _ _ hns2 c hc, tokens_cons_space c r hc]
    cases w with
    | nil => exact absurd rfl hw
    | cons a w => rfl

theorem head_dropWhile_not_space (s : Str) :
    ∀ c ∈ (s.dropWhile (fun c => !isspace c)).head?, isspace c = true := by
  intro c hc
  induction s with
  | nil => simp at hc
  | cons a s ih =>
    by_cases h : isspace a = true
    · simp [List.dropWhile_cons, h] at hc
      rw [← hc]; exact h
    · simp only [Bool.not_eq_true] at h
      simp only [List.dropWhile_cons, h, Bool.not_false, if_true] at hc
      exact ih hc

theorem takeWhile_not_space_ne_nil (s : Str) (h : s.dropWhile isspace ≠ []) :
    (s.dropWhile isspace).takeWhile (fun c => !isspace c) ≠ [] := by
  induction s with
  | nil => simp at h
  | cons a s ih =>
    by_cases ha : isspace a = true
    · rw [List.dropWhile_cons_of_pos ha] at h ⊢
      exact ih h
    · rw [List.dropWhile_cons_of_neg ha]
      simp only [Bool.not_eq_true] at ha
      simp [List.takeWhile_cons, ha]

/-- The first token is what `operator>>` reads after the whitespace it skips. -/
theorem tokens_unfold (s : Str) :
    tokens s =
      if s.dropWhile isspace = [] then []
      else (s.dropWhile isspace).takeWhile (fun c => !isspace c) ::
        tokens ((s.dropWhile isspace).dropWhile (fun c => !isspace c)) := by
  split_ifs with h
  · rw [← tokens_dropWhile, h]; rfl
  · rw [← tokens_dropWhile s]
    conv_lhs => rw [← List.takeWhile_append_dropWhile (fun c => !isspace c) (s.dropWhile isspace)]
    apply tokens_word _ _ (takeWhile_not_space_ne_nil s h)
    · intro x hx
      have := List.mem_takeWhile_imp hx
      simpa using this
    · exact head_dropWhile_not_space _


open IStringStream

theorem isEmpty_eq_false {α : Type} (l : List α) (h : l ≠ []) : l.isEmpty = false := by
  cases l with
  | nil => exact absurd rfl h
  | cons a l => rfl

theorem extractString_good (buf value : Str) :
    extractString ⟨buf, false, false⟩ value =
      if buf.dropWhile isspace = [] then (⟨[], true, true⟩, value)
      else
        (⟨(buf.dropWhile isspace).dropWhile (fun c => !isspace c),
          ((buf.dropWhile isspace).dropWhile (fun c => !isspace c)).isEmpty, false⟩,
          (buf.dropWhile isspace).takeWhile (fun c => !isspace c)) := by
  by_cases h : buf.dropWhile isspace = []
  · simp only [extractString, sentry, good, Bool.not_false, Bool.and_self, if_true, h,
      List.isEmpty_nil]
  · simp only [extractString, sentry, good, Bool.not_false, Bool.and_self, if_true, h,
      isEmpty_eq_false _ h, Bool.false_eq_true, if_false, Bool.false_or]

theorem extractString_not_good (st : IStringStream) (value : Str) (h : st.good = false) :
    extractString st value = ({ st with failbit := true }, value) := by
  simp [extractString, sentry, h]

theorem extractInt_not_good (st : IStringStream) (value : Int) (h : st.good = false) :
    extractInt st value = ({ st with failbit := true }, value) := by
  simp [extractInt, sentry, h]

/-- `parseValue<std::string>` returns the second token of the line, or the
empty string when the line has fewer than two tokens. -/
theorem parseValueString_eq (line : Str) :
    parseValueString line = (tokens line).getD 1 [] := by
  simp only [parseValueString, IStringStream.new]
  rw [extractString_good, tokens_unfold line]
  split_ifs with h
  · rw [extractString_not_good ⟨[], true, true⟩ [] rfl]; rfl
  · simp only [List.getD_cons_succ]
    generalize (line.dropWhile isspace).dropWhile (fun c => !isspace c) = rest
    cases rest with
    | nil => rw [List.isEmpty_nil, extractString_not_good ⟨[], true, false⟩ [] rfl]; rfl
    | cons c r =>
      simp only [List.isEmpty_cons]
      rw [extractString_good, tokens_unfold (c :: r)]
      split_ifs with h2
      · rfl
      · rfl


theorem isspace_not_digit (c : Char) (h : isspace c = true) : c.isDigit = false := by
  simp only [isspace, Bool.or_eq_true, decide_eq_true_eq] at h
  rcases h with ((((h | h) | h) | h) | h) | h <;> subst h <;> decide

theorem takeWhile_digits_append (ds rest : Str) (hd : ds.all Char.isDigit = true)
    (hr : ∀ c ∈ rest.head?, c.isDigit = false) :
    (ds ++ rest).takeWhile Char.isDigit = ds ∧ (ds ++ rest).dropWhile Char.isDigit = rest := by
  induction ds with
  | nil =>
    cases rest with
    | nil => exact ⟨rfl, rfl⟩
    | cons c r =>
      have := hr c (by simp)
      simp [List.takeWhile_cons, List.dropWhile_cons, this]
  | cons d ds ih =>
    simp only [List.all_cons, Bool.and_eq_true] at hd
    have := ih hd.2
    simp [List.takeWhile_cons, List.dropWhile_cons, hd.1, this.1, this.2]

/-- On a token that is a decimal integer within the range of `int`,
`operator>>` reads the whole token and returns its value. -/
theorem extractInt_valid (buf : Str) (value b : Int)
    (h : buf.dropWhile isspace ≠ [])
    (hdec : decimalInt ((buf.dropWhile isspace).takeWhile (fun c => !isspace c)) = some b)
    (hfit : fitsInt b) :
    extractInt ⟨buf, false, false⟩ value = ((extractString ⟨buf, false, false⟩ []).1, b) := by
  rw [extractString_good, if_neg h]
  simp only [extractInt, sentry, good, Bool.not_false, Bool.and_self, if_true,
    isEmpty_eq_false _ h, Bool.false_eq_true, if_false, Bool.false_or]
  have hs := (List.takeWhile_append_dropWhile (fun c => !isspace c) (buf.dropWhile isspace)).symm
  have hrest := head_dropWhile_not_space (buf.dropWhile isspace)
  generalize (buf.dropWhile isspace).takeWhile (fun c => !isspace c) = tok at hs hdec
  generalize (buf.dropWhile isspace).dropWhile (fun c => !isspace c) = rest at hs hrest
  generalize buf.dropWhile isspace = s1 at hs
  subst hs
  have hr : ∀ c ∈ rest.head?, c.isDigit = false := fun c hc => isspace_not_digit c (hrest c hc)
  obtain ⟨hlo, hhi⟩ := hfit
  unfold decimalInt at hdec
  split at hdec
  · rename_i ds
    split_ifs at hdec with hd
    simp only [isDigits, Bool.and_eq_true, Bool.not_eq_true'] at hd
    obtain ⟨htk, hdr⟩ := takeWhile_digits_append ds rest hd.2 hr
    simp only [Option.some.injEq] at hdec
    simp only [List.cons_append, readSign, htk, hdr, hd.1, Bool.false_eq_true, if_false, if_true, hdec,
      not_lt.mpr hlo, not_lt.mpr hhi]
  · rename_i ds
    split_ifs at hdec with hd
    simp only [isDigits, Bool.and_eq_true, Bool.not_eq_true'] at hd
    obtain ⟨htk, hdr⟩ := takeWhile_digits_append ds rest hd.2 hr
    simp only [Option.some.injEq] at hdec
    simp only [List.cons_append, readSign, htk, hdr, hd.1, Bool.false_eq_true, if_false, hdec,
      not_lt.mpr hlo, not_lt.mpr hhi]
  · rename_i hm hp
    split_ifs at hdec with hd
    simp only [isDigits, Bool.and_eq_true, Bool.not_eq_true'] at hd
    obtain ⟨htk, hdr⟩ := takeWhile_digits_append tok rest hd.2 hr
    simp only [Option.some.injEq] at hdec
    have hmatch : readSign (tok ++ rest) = (false, tok ++ rest) := by
      cases tok with
      | nil => simp at hd
      | cons c ds =>
        have hc : c.isDigit = true := by
          have := hd.2; simp only [List.all_cons, Bool.and_eq_true] at this; exact this.1
        unfold readSign
        split
        · rename_i t heq
          simp only [List.cons_append, List.cons.injEq] at heq
          rw [heq.1] at hc; exact absurd hc (by decide)
        · rename_i t heq
          simp only [List.cons_append, List.cons.injEq] at heq
          rw [heq.1] at hc; exact absurd hc (by decide)
        · rfl
    simp only [hmatch, htk, hdr, hd.1, Bool.false_eq_true, if_false, hdec,
      not_lt.mpr hlo, not_lt.mpr hhi]


theorem tokens_cons_inv (s t : Str) (ts : List Str) (h : tokens s = t :: ts) :
    s.dropWhile isspace ≠ [] ∧ (s.dropWhile isspace).takeWhile (fun c => !isspace c) = t ∧
      tokens ((s.dropWhile isspace).dropWhile (fun c => !isspace c)) = ts := by
  rw [tokens_unfold] at h
  split_ifs at h with h1
  simp only [List.cons.injEq] at h
  exact ⟨h1, h.1, h.2⟩

theorem extractString_tokens (buf value t : Str) (ts : List Str) (h : tokens buf = t :: ts) :
    ∃ rest, extractString ⟨buf, false, false⟩ value = (⟨rest, rest.isEmpty, false⟩, t) ∧
      tokens rest = ts := by
  obtain ⟨h1, h2, h3⟩ := tokens_cons_inv buf t ts h
  exact ⟨_, by rw [extractString_good, if_neg h1, h2], h3⟩

theorem extractInt_tokens (buf t : Str) (ts : List Str) (value b : Int)
    (h : tokens buf = t :: ts) (hdec : decimalInt t = some b) (hfit : fitsInt b) :
    ∃ rest, extractInt ⟨buf, false, false⟩ value = (⟨rest, rest.isEmpty, false⟩, b) ∧
      tokens rest = ts := by
  obtain ⟨h1, h2, h3⟩ := tokens_cons_inv buf t ts h
  refine ⟨_, ?_, h3⟩
  rw [extractInt_valid buf value b h1 (by rw [h2]; exact hdec) hfit, extractString_good,
    if_neg h1]

theorem extractString_after (rest value : Str) :
    (extractString ⟨rest, rest.isEmpty, false⟩ value).2 = (tokens rest).headD value := by
  cases rest with
  | nil => rw [List.isEmpty_nil, extractString_not_good ⟨[], true, false⟩ value rfl]; rfl
  | cons c r =>
    rw [List.isEmpty_cons, extractString_good, tokens_unfold]
    split_ifs <;> rfl

theorem extractInt_after (rest : Str) (ts : List Str) (t : Str) (value b : Int)
    (h : tokens rest = t :: ts) (hdec : decimalInt t = some b) (hfit : fitsInt b) :
    ∃ rest1, extractInt ⟨rest, rest.isEmpty, false⟩ value = (⟨rest1, rest1.isEmpty, false⟩, b) ∧
      tokens rest1 = ts := by
  cases rest with
  | nil => simp [tokens_nil] at h
  | cons c r => exact extractInt_tokens (c :: r) t ts value b h hdec hfit

/-- `parseValue<int>` returns the value of the second token of the line when
that token is a decimal integer within the range of `int`. -/
theorem parseValueInt_valid (env : Env) (line k t : Str) (ts : List Str) (b : Int)
    (h : tokens line = k :: t :: ts) (hdec : decimalInt t = some b) (hfit : fitsInt b) :
    parseValueInt env line = b := by
  simp only [parseValueInt, IStringStream.new]
  obtain ⟨rest, h1, h2⟩ := extractString_tokens line [] k (t :: ts) h
  rw [h1]
  obtain ⟨rest1, h3, _⟩ := extractInt_after rest ts t env.indeterminate b h2 hdec hfit
  rw [h3]

/-! ## Trimming -/

theorem find_first_not_of_none (s set : Str) (h : ∀ c ∈ s, set.contains c = true) :
    find_first_not_of s set = none := by
  induction s with
  | nil => rfl
  | cons c s ih =>
    simp only [find_first_not_of, h c (by simp), if_true, ih (fun x hx => h x (by simp [hx]))]
    rfl

theorem find_first_not_of_append (pre t set : Str) (c : Char)
    (h : ∀ x ∈ pre, set.contains x = true) (hc : set.contains c = false) :
    find_first_not_of (pre ++ c :: t) set = some pre.length := by
  induction pre with
  | nil =>
    rw [List.nil_append]
    simp only [find_first_not_of, hc, Bool.false_eq_true, if_false]
    rfl
  | cons a pre ih =>
    rw [List.cons_append]
    simp only [find_first_not_of, h a (by simp), if_true]
    rw [ih (fun x hx => h x (by simp [hx]))]
    rfl

theorem find_last_not_of_none (s set : Str) (h : ∀ c ∈ s, set.contains c = true) :
    find_last_not_of s set = none := by
  induction s with
  | nil => rfl
  | cons c s ih =>
    simp only [find_last_not_of, ih (fun x hx => h x (by simp [hx])), h c (by simp), if_true]

theorem find_last_not_of_append (a post set : Str) (c : Char)
    (hc : set.contains c = false) (h : ∀ x ∈ post, set.contains x = true) :
    find_last_not_of (a ++ c :: post) set = some a.length := by
  induction a with
  | nil =>
    rw [List.nil_append]
    simp only [find_last_not_of, find_last_not_of_none post set h, hc, Bool.false_eq_true,
      if_false]
    rfl
  | cons x a ih =>
    rw [List.cons_append]
    simp only [find_last_not_of]
    rw [ih]
    rfl

theorem trim_blank (s : Str) (h : ∀ c ∈ s, blank c = true) : trim s = [] := by
  simp only [trim]
  rw [find_first_not_of_none s _ h]

theorem trim_decomp (pre a post m : Str) (c d : Char)
    (hpre : ∀ x ∈ pre, blank x = true) (hpost : ∀ x ∈ post, blank x = true)
    (hc : blank c = false) (hd : blank d = false) (hmid : c :: m = a ++ [d]) :
    trim (pre ++ (c :: m) ++ post) = c :: m := by
  have h1 : find_first_not_of (pre ++ (c :: m) ++ post) " \t".toList = some pre.length := by
    rw [List.append_assoc, List.cons_append]
    exact find_first_not_of_append pre _ _ c hpre hc
  have h2 : find_last_not_of (pre ++ (c :: m) ++ post) " \t".toList =
      some (pre.length + a.length) := by
    rw [hmid]
    have : pre ++ (a ++ [d]) ++ post = (pre ++ a) ++ d :: post := by simp
    rw [this, find_last_not_of_append (pre ++ a) post _ d hd hpost, List.length_append]
  simp only [trim, h1, h2, sizeT, substr]
  rw [List.append_assoc, List.drop_left]
  have hlen : pre.length + a.length - pre.length + 1 = (c :: m).length := by
    rw [hmid]; simp
  rw [hlen, List.take_left]


theorem rdropWhile_append_rtakeWhile (p : Char → Bool) (l : Str) :
    l.rdropWhile p ++ l.rtakeWhile p = l := by
  rw [List.rdropWhile, List.rtakeWhile, ← List.reverse_append,
    List.takeWhile_append_dropWhile, List.reverse_reverse]

/-- `trim` removes the longest run of spaces and tabs at each end. -/
theorem trim_eq (s : Str) : trim s = (s.dropWhile blank).rdropWhile blank := by
  have hs := (List.takeWhile_append_dropWhile blank s).symm
  have hpre : ∀ x ∈ s.takeWhile blank, blank x = true := fun x hx => List.mem_takeWhile_imp hx
  cases hr : s.dropWhile blank with
  | nil =>
    rw [List.rdropWhile_nil]
    apply trim_blank
    rw [hr, List.append_nil] at hs
    rw [hs]; exact hpre
  | cons c r =>
    have hc : blank c = false := by
      have := List.head_dropWhile_not blank s (by rw [hr]; simp)
      simpa [hr] using this
    have hne : (c :: r).rdropWhile blank ≠ [] := by
      rw [Ne, List.rdropWhile_eq_nil_iff]
      intro hall
      have := hall c (by simp)
      rw [hc] at this
      exact absurd this (by decide)
    have hmid := (rdropWhile_append_rtakeWhile blank (c :: r)).symm
    have hpost : ∀ x ∈ (c :: r).rtakeWhile blank, blank x = true :=
      fun x hx => List.mem_rtakeWhile_imp hx
    have hlast := List.rdropWhile_last_not blank (c :: r) hne
    generalize (c :: r).rtakeWhile blank = post at hmid hpost
    generalize hm : (c :: r).rdropWhile blank = mid at hmid hne hlast
    cases mid with
    | nil => exact absurd rfl hne
    | cons c1 m =>
      have hc1 : c1 = c := by
        simp only [List.cons_append, List.cons.injEq] at hmid
        exact hmid.1.symm
      subst hc1
      obtain ⟨a, ha⟩ : ∃ a, c1 :: m = a ++ [(c1 :: m).getLast hne] :=
        ⟨(c1 :: m).dropLast, (List.dropLast_append_getLast hne).symm⟩
      have hd : blank ((c1 :: m).getLast hne) = false := by simpa using hlast
      have := trim_decomp (s.takeWhile blank) a post m c1 _ hpre hpost hc hd ha
      rw [hs, hr, hmid, ← List.append_assoc]
      exact this

theorem blank_isspace (c : Char) (h : blank c = true) : isspace c = true := by
  simp only [blank, List.contains_eq_any_beq, List.any_eq_true] at h
  obtain ⟨x, hx, hxc⟩ := h
  simp at hx hxc
  rcases hx with hx | hx <;> subst hx <;> subst hxc <;> rfl

theorem tokens_append_space (x : Str) (c : Char) (h : isspace c = true) :
    tokens (x ++ [c]) = tokens x := by
  have key : (x ++ [c]).splitOnP isspace = x.splitOnP isspace ++ [[]] := by
    induction x with
    | nil => simp [h]
    | cons a x ih =>
      rw [List.cons_append, List.splitOnP_cons, List.splitOnP_cons, ih]
      split_ifs
      · rfl
      · cases hx : x.splitOnP isspace with
        | nil => exact absurd hx (List.splitOnP_ne_nil _ _)
        | cons y ys => rfl
  simp [tokens, key]

theorem tokens_append_blank (x post : Str) (h : ∀ c ∈ post, blank c = true) :
    tokens (x ++ post) = tokens x := by
  induction post generalizing x with
  | nil => simp
  | cons c post ih =>
    have : x ++ c :: post = (x ++ [c]) ++ post := by simp
    rw [this, ih _ (fun y hy => h y (by simp [hy])),
      tokens_append_space x c (blank_isspace c (h c (by simp)))]

theorem tokens_blank_append (pre x : Str) (h : ∀ c ∈ pre, blank c = true) :
    tokens (pre ++ x) = tokens x := by
  induction pre with
  | nil => rfl
  | cons c pre ih =>
    rw [List.cons_append, tokens_cons_space _ _ (blank_isspace c (h c (by simp))),
      ih (fun y hy => h y (by simp [hy]))]

/-- Trimming a line does not change its tokens. -/
theorem tokens_trim (s : Str) : tokens (trim s) = tokens s := by
  rw [trim_eq]
  conv_rhs => rw [← List.takeWhile_append_dropWhile blank s,
    ← rdropWhile_append_rtakeWhile blank (s.dropWhile blank)]
  rw [tokens_blank_append _ _ (fun x hx => List.mem_takeWhile_imp hx),
    tokens_append_blank _ _ (fun x hx => List.mem_rtakeWhile_imp hx)]

/-! ## The effect of one line on the configurations -/

/-- A line read at server scope that is a directive: not blank, not a comment,
neither `server {` nor `}`. -/
theorem step_server_directive (env : Env) (st : PState) (raw : Str) (i : Nat) (config : Config)
    (hs : st.currentRoute = none) (hc : st.currentConfig = some i)
    (hg : st.configs[i]? = some config)
    (h1 : ((trim raw).isEmpty || decide ((trim raw).head? = some '#')) = false)
    (h2 : trim raw ≠ "server \x7b".toList) (h3 : trim raw ≠ "\x7d".toList)
    (hl : find (trim raw) "location".toList ≠ some 0) :
    ∃ c, (∀ file, parseServerDirective env config file (trim raw) = .ok (c, file)) ∧
      step env st raw = .ok { st with configs := st.configs.set i c } := by
  obtain ⟨c, hcfg⟩ := parseServerDirective_other env config (trim raw) hl
  refine ⟨c, hcfg, ?_⟩
  simp only [step, hs, h1, h2, h3, hc, hg, hl, hcfg [], Bool.false_eq_true, if_false, bind,
    Except.bind, pure, Except.pure]

/-- What one line does to the configuration with index `j`: nothing, or the
appending of the finished route, or a directive of server scope. -/
theorem step_config_cases (env : Env) (st st1 : PState) (raw : Str)
    (h : step env st raw = .ok st1) (j : Nat) (c : Config) (hj : st.configs[j]? = some c) :
    ∃ c1, st1.configs[j]? = some c1 ∧
      (c1 = c ∨
        (st.currentConfig = some j ∧
          ((∃ r, st.currentRoute = some r ∧ parseLocationLine env r raw = none ∧
              c1 = c.addRoute r) ∨
           (st.currentRoute = none ∧ find (trim raw) "location".toList ≠ some 0 ∧
              ∀ file, parseServerDirective env c file (trim raw) = .ok (c1, file))))) := by
  have hjlt : j < st.configs.length := by
    by_contra hcon
    rw [List.getElem?_eq_none (by omega)] at hj
    exact absurd hj (by simp)
  obtain ⟨configs, cur, croute⟩ := st
  simp only at hj hjlt
  cases croute with
  | some route =>
    simp only [step] at h
    cases hp : parseLocationLine env route raw with
    | some r1 =>
      simp only [hp, pure, Except.pure, Except.ok.injEq] at h
      subst h
      exact ⟨c, hj, Or.inl rfl⟩
    | none =>
      simp only [hp, closeLocation] at h
      cases cur with
      | none => simp [throw, throwThe, MonadExceptOf.throw] at h
      | some i =>
        simp only at h
        cases hg : configs[i]? with
        | none => simp [hg, throw, throwThe, MonadExceptOf.throw] at h
        | some config =>
          simp only [hg, pure, Except.pure, Except.ok.injEq] at h
          subst h
          by_cases hij : i = j
          · subst hij
            rw [hj] at hg
            simp only [Option.some.injEq] at hg
            subst hg
            exact ⟨c.addRoute route, by simp [hjlt], Or.inr ⟨rfl, Or.inl ⟨route, rfl, hp, rfl⟩⟩⟩
          · exact ⟨c, by simp [List.getElem?_set_ne hij, hj], Or.inl rfl⟩
  | none =>
    simp only [step] at h
    by_cases h1 : ((trim raw).isEmpty || decide ((trim raw).head? = some '#')) = true
    · simp only [h1, if_true, pure, Except.pure, Except.ok.injEq] at h
      subst h
      exact ⟨c, hj, Or.inl rfl⟩
    simp only [h1, Bool.false_eq_true, if_false] at h
    by_cases h2 : trim raw = "server \x7b".toList
    · simp only [h2, if_true, pure, Except.pure, Except.ok.injEq] at h
      subst h
      exact ⟨c, by simp [List.getElem?_append_left hjlt, hj], Or.inl rfl⟩
    simp only [h2, if_false] at h
    by_cases h3 : trim raw = "\x7d".toList
    · simp only [h3, if_true, pure, Except.pure, Except.ok.injEq] at h
      subst h
      exact ⟨c, hj, Or.inl rfl⟩
    simp only [h3, if_false] at h
    cases cur with
    | none =>
      simp only [pure, Except.pure, Except.ok.injEq] at h
      subst h
      exact ⟨c, hj, Or.inl rfl⟩
    | some i =>
      simp only at h
      cases hg : configs[i]? with
      | none => simp [hg, throw, throwThe, MonadExceptOf.throw] at h
      | some config =>
        simp only [hg] at h
        by_cases hl : find (trim raw) "location".toList = some 0
        · simp only [hl, if_true, parseLocationPath_ok _ hl, bind, Except.bind, pure,
            Except.pure, Except.ok.injEq] at h
          subst h
          exact ⟨c, hj, Or.inl rfl⟩
        · obtain ⟨c1, hcfg⟩ := parseServerDirective_other env config (trim raw) hl
          simp only [hl, if_false, hcfg [], bind, Except.bind, pure, Except.pure,
            Except.ok.injEq] at h
          subst h
          by_cases hij : i = j
          · subst hij
            rw [hj] at hg
            simp only [Option.some.injEq] at hg
            subst hg
            exact ⟨c1, by simp [hjlt], Or.inr ⟨rfl, Or.inr ⟨rfl, hl, hcfg⟩⟩⟩
          · exact ⟨c, by simp [List.getElem?_set_ne hij, hj], Or.inl rfl⟩

theorem finish_config_cases (st st1 : PState) (h : finish st = .ok st1) (j : Nat) (c : Config)
    (hj : st.configs[j]? = some c) :
    ∃ c1, st1.configs[j]? = some c1 ∧
      (c1 = c ∨ (st.currentConfig = some j ∧ ∃ r, st.currentRoute = some r ∧ c1 = c.addRoute r)) := by
  have hjlt : j < st.configs.length := by
    by_contra hcon
    rw [List.getElem?_eq_none (by omega)] at hj
    exact absurd hj (by simp)
  obtain ⟨configs, cur, croute⟩ := st
  simp only at hj hjlt
  cases croute with
  | none =>
    simp only [finish, pure, Except.pure, Except.ok.injEq] at h
    subst h
    exact ⟨c, hj, Or.inl rfl⟩
  | some route =>
    simp only [finish, closeLocation] at h
    cases cur with
    | none => simp [throw, throwThe, MonadExceptOf.throw] at h
    | some i =>
      simp only at h
      cases hg : configs[i]? with
      | none => simp [hg, throw, throwThe, MonadExceptOf.throw] at h
      | some config =>
        simp only [hg, pure, Except.pure, Except.ok.injEq] at h
        subst h
        by_cases hij : i = j
        · subst hij
          rw [hj] at hg
          simp only [Option.some.injEq] at hg
          subst hg
          exact ⟨c.addRoute route, by simp [hjlt], Or.inr ⟨rfl, route, rfl, rfl⟩⟩
        · exact ⟨c, by simp [List.getElem?_set_ne hij, hj], Or.inl rfl⟩

/-! ## Directives of server scope -/

/-- Two keywords neither of which is a prefix of the other cannot both begin
a line. -/
theorem find_exclusive (line k1 k2 : Str) (h : find line k1 = some 0)
    (h1 : ¬ k1 <+: k2) (h2 : ¬ k2 <+: k1) : find line k2 ≠ some 0 := by
  intro h'
  rw [find_eq_zero_iff] at h h'
  rcases List.prefix_or_prefix_of_prefix h h' with hp | hp
  · exact h1 hp
  · exact h2 hp

/-- A line that begins with a keyword is not blank, not a comment, and is
different from every text that the keyword is not a prefix of. -/
theorem keyword_not_skipped (line kw : Str) (h : find line kw = some 0)
    (hne : kw.head? ≠ none) (hc : kw.head? ≠ some '#') :
    (line.isEmpty || decide (line.head? = some '#')) = false ∧
      ∀ x : Str, ¬ kw <+: x → line ≠ x := by
  obtain ⟨t, rfl⟩ := (find_eq_zero_iff _ _).mp h
  constructor
  · cases kw with
    | nil => simp at hne
    | cons c kt =>
      simp only [List.head?_cons, ne_eq, Option.some.injEq] at hc
      simp [hc]
  · intro x hx hl
    exact hx ⟨t, hl⟩

theorem parseServerDirective_listen (env : Env) (config : Config) (file : List Str) (line : Str)
    (h : find line "listen".toList = some 0) :
    parseServerDirective env config file line =
      .ok (config.setPort (parseValueInt env line), file) := by
  simp only [parseServerDirective, h, if_true]
  rfl

/-- A directive changes only the field of its keyword. -/
theorem parseServerDirective_frame (env : Env) (config c1 : Config) (file rest : List Str)
    (line : Str) (hp : parseServerDirective env config file line = .ok (c1, rest)) :
    (find line "listen".toList ≠ some 0 → c1.port = config.port) ∧
    (find line "server_name".toList ≠ some 0 → c1.name = config.name) ∧
    (find line "root".toList ≠ some 0 → c1.rootDir = config.rootDir) ∧
    (find line "client_max_body_size".toList ≠ some 0 → c1.maxBodySize = config.maxBodySize) ∧
    (find line "index".toList ≠ some 0 → c1.defaultFile = config.defaultFile) ∧
    (find line "error_page".toList ≠ some 0 → c1.errorPages = config.errorPages) ∧
    (find line "allow_methods".toList ≠ some 0 → c1.allowedMethods = config.allowedMethods) ∧
    (find line "location".toList ≠ some 0 → c1.routes = config.routes) := by
  by_cases hl : find line "location".toList = some 0
  · have hx := fun k h1 h2 => find_exclusive line "location".toList k hl h1 h2
    rw [parseServerDirective_location _ _ _ _ hl] at hp
    simp only [parseLocation, parseLocationPath_ok _ hl, bind, Except.bind, pure, Except.pure,
      Except.ok.injEq, Prod.mk.injEq] at hp
    obtain ⟨rfl, _⟩ := hp
    exact ⟨fun _ => rfl, fun _ => rfl, fun _ => rfl, fun _ => rfl, fun _ => rfl, fun _ => rfl,
      fun _ => rfl, fun h => absurd hl h⟩
  · unfold parseServerDirective at hp
    simp only [hl, if_false] at hp
    split_ifs at hp <;>
      simp only [pure, Except.pure, Except.ok.injEq, Prod.mk.injEq] at hp <;>
      obtain ⟨rfl, _⟩ := hp <;>
      simp_all [Config.setPort, Config.setName, Config.setRootDirConfig, Config.setMaxBodySize,
        Config.setDefaultFile, Config.setErrorPage, Config.setAllowedMethods]

theorem run_wf (env : Env) (lines : List Str) (st st1 : PState) (hw : st.wf)
    (h : run env st lines = .ok st1) : st1.wf := by
  obtain ⟨s, hs, hws⟩ := run_ok env lines st hw
  rw [hs] at h
  simp only [Except.ok.injEq] at h
  exact h ▸ hws

theorem run_cons (env : Env) (st : PState) (raw : Str) (file : List Str) :
    run env st (raw :: file) = step env st raw >>= fun s => run env s file := rfl

theorem getElem?_lt_of_eq_some {α : Type} (l : List α) (i : Nat) (a : α) (h : l[i]? = some a) :
    i < l.length := by
  by_contra hcon
  rw [List.getElem?_eq_none (by omega)] at h
  exact absurd h (by simp)

theorem serverScopeAfter_iff (env : Env) (pre : List Str) (i : Nat) :
    serverScopeAfter env pre i = true ↔
      ∃ st, run env PState.init pre = .ok st ∧ st.inServer i := by
  obtain ⟨s, hs, hw⟩ := run_ok env pre PState.init wf_init
  simp only [serverScopeAfter, hs, Bool.and_eq_true, decide_eq_true_eq, Option.isNone_iff_eq_none,
    Except.ok.injEq, exists_eq_left', PState.inServer]
  exact ⟨fun h => ⟨h.1, h.2, hw.1 i h.1⟩, fun h => ⟨h.1, h.2.1⟩⟩

/-- A line that begins with a keyword other than `location`, read at server
scope, replaces the open configuration by what `parseServerDirective` makes of
it. -/
theorem step_keyword (env : Env) (st : PState) (raw kw : Str) (i : Nat)
    (hs : st.inServer i) (hfind : find (trim raw) kw = some 0)
    (hne : kw.head? ≠ none) (hc : kw.head? ≠ some '#')
    (h2 : ¬ kw <+: "server \x7b".toList) (h3 : ¬ kw <+: "\x7d".toList)
    (h4 : ¬ kw <+: "location".toList) (h5 : ¬ "location".toList <+: kw) :
    ∃ config c, st.configs[i]? = some config ∧
      (∀ file, parseServerDirective env config file (trim raw) = .ok (c, file)) ∧
      step env st raw = .ok { st with configs := st.configs.set i c } := by
  obtain ⟨hcur, hr, hlt⟩ := hs
  obtain ⟨hskip, hneq⟩ := keyword_not_skipped _ kw hfind hne hc
  have hg : st.configs[i]? = some st.configs[i] := by simp [hlt]
  obtain ⟨c, hcfg, hstep⟩ := step_server_directive env st raw i _ hr hcur hg hskip
    (hneq _ h2) (hneq _ h3) (find_exclusive _ _ _ hfind h4 h5)
  exact ⟨_, c, hg, hcfg, hstep⟩

/-- The field `f` of the configuration `i` keeps its value along lines none of
which, read at server scope of that configuration, begins with the keyword
`kw`, when the directives of the other keywords leave `f` as it is. -/
theorem run_field {α : Type} (f : Config → α) (kw : Str)
    (hdir : ∀ env c c1 line, find line kw ≠ some 0 →
      parseServerDirective env c [] line = .ok (c1, []) → f c1 = f c)
    (hadd : ∀ c r, f (Config.addRoute c r) = f c) (env : Env) (i : Nat) (v : α) :
    ∀ (post : List Str) (st : PState), st.wf →
      (∃ c, st.configs[i]? = some c ∧ f c = v) →
      (∀ k (hk : k < post.length) s, run env st (post.take k) = .ok s → s.inServer i →
        find (trim post[k]) kw ≠ some 0) →
      ∃ st1, run env st post = .ok st1 ∧ ∃ c, st1.configs[i]? = some c ∧ f c = v := by
  intro post
  induction post with
  | nil => intro st _ hc _; exact ⟨st, rfl, hc⟩
  | cons l post ih =>
    intro st hw ⟨c, hc, hv⟩ hno
    obtain ⟨s1, hs1, hw1⟩ := step_ok env st l hw
    obtain ⟨c1, hc1, hcases⟩ := step_config_cases env st s1 l hs1 i c hc
    have hv1 : f c1 = v := by
      rcases hcases with rfl | ⟨hcur, ⟨r, _, _, rfl⟩ | ⟨hroute, _, hd⟩⟩
      · exact hv
      · rw [hadd]; exact hv
      · have hnl := hno 0 (by simp) st rfl ⟨hcur, hroute, getElem?_lt_of_eq_some _ _ _ hc⟩
        rw [hdir env c c1 (trim l) hnl (hd [])]
        exact hv
    obtain ⟨s2, hs2, hres⟩ := ih s1 hw1 ⟨c1, hc1, hv1⟩ (by
      intro k hk s hrun hin
      refine hno (k + 1) (by simp; omega) s ?_ hin
      rw [List.take_succ_cons, run_cons, hs1]; exact hrun)
    exact ⟨s2, by rw [run_cons, hs1]; exact hs2, hres⟩

/-- The same for the lines `post` that follow the lines `pre` of a file. -/
theorem run_field_init {α : Type} (f : Config → α) (kw : Str)
    (hdir : ∀ env c c1 line, find line kw ≠ some 0 →
      parseServerDirective env c [] line = .ok (c1, []) → f c1 = f c)
    (hadd : ∀ c r, f (Config.addRoute c r) = f c) (env : Env) (i : Nat) (v : α)
    (pre post : List Str) (st : PState) (hrun : run env PState.init pre = .ok st)
    (hv : ∃ c, st.configs[i]? = some c ∧ f c = v)
    (hpost : ∀ k (hk : k < post.length), serverScopeAfter env (pre ++ post.take k) i = true →
      find (trim post[k]) kw ≠ some 0) :
    ∃ st1, run env PState.init (pre ++ post) = .ok st1 ∧
      ∃ c, st1.configs[i]? = some c ∧ f c = v := by
  have hw := run_wf env _ _ _ wf_init hrun
  obtain ⟨s3, hs3, hres⟩ := run_field f kw hdir hadd env i v post st hw hv (by
    intro k hk s hr hin
    apply hpost k hk
    rw [serverScopeAfter_iff]
    exact ⟨s, by rw [run_append, hrun]; exact hr, hin⟩)
  exact ⟨s3, by rw [run_append, hrun]; exact hs3, hres⟩

/-- The same at the end of the file: `parseConfigFile` returns a configuration
`i` whose field `f` has the value it had after the lines `pre`. -/
theorem parseConfigFile_field {α : Type} (f : Config → α) (kw : Str)
    (hdir : ∀ env c c1 line, find line kw ≠ some 0 →
      parseServerDirective env c [] line = .ok (c1, []) → f c1 = f c)
    (hadd : ∀ c r, f (Config.addRoute c r) = f c) (env : Env) (i : Nat) (v : α)
    (pre post : List Str) (st : PState) (hrun : run env PState.init pre = .ok st)
    (hv : ∃ c, st.configs[i]? = some c ∧ f c = v)
    (hpost : ∀ k (hk : k < post.length), serverScopeAfter env (pre ++ post.take k) i = true →
      find (trim post[k]) kw ≠ some 0) :
    ∃ configs c, parseConfigFile env (some (pre ++ post)) = .ok configs ∧
      configs[i]? = some c ∧ f c = v := by
  obtain ⟨s3, hs3, c3, hc3, hp3⟩ :=
    run_field_init f kw hdir hadd env i v pre post st hrun hv hpost
  obtain ⟨s4, hs4, _⟩ := finish_ok s3 (run_wf env _ _ _ wf_init hs3)
  obtain ⟨c4, hc4, hcases⟩ := finish_config_cases s3 s4 hs4 i c3 hc3
  refine ⟨s4.configs, c4, ?_, hc4, ?_⟩
  · rw [parseConfigFile_eq_run, hs3]
    simp only [bind, Except.bind, hs4, Except.map]
  · rcases hcases with rfl | ⟨_, r, _, rfl⟩
    · exact hp3
    · rw [hadd]; exact hp3

/-- A `listen` line with the valid value `b`, read at server scope, sets the
port of the open configuration to `b`. -/
theorem step_listen (env : Env) (st : PState) (raw : Str) (i : Nat) (b : Int)
    (hs : st.inServer i) (hl : listenLine raw b) :
    ∃ config, st.configs[i]? = some config ∧
      step env st raw = .ok { st with configs := st.configs.set i (config.setPort b) } := by
  obtain ⟨hfind, k, t, ts, htok, hdec, hfit⟩ := hl
  obtain ⟨config, c, hg, hcfg, hstep⟩ := step_keyword env st raw "listen".toList i hs hfind
    (by decide) (by decide) (by decide) (by decide) (by decide) (by decide)
  refine ⟨config, hg, ?_⟩
  rw [hstep]
  have := hcfg []
  rw [parseServerDirective_listen _ _ _ _ hfind,
    parseValueInt_valid env (trim raw) k t ts b (by rw [tokens_trim]; exact htok) hdec hfit] at this
  simp only [Except.ok.injEq, Prod.mk.injEq, and_true] at this
  rw [this]

/-! ## `error_page` -/

theorem parseServerDirective_error_page (env : Env) (config : Config) (file : List Str)
    (line k t p : Str) (ts : List Str) (c : Int)
    (h : find line "error_page".toList = some 0) (htok : tokens line = k :: t :: p :: ts)
    (hdec : decimalInt t = some c) (hfit : fitsInt c) :
    parseServerDirective env config file line = .ok (config.setErrorPage c p, file) := by
  have hx := fun kw h1 h2 => find_exclusive line "error_page".toList kw h h1 h2
  have e1 := hx "listen".toList (by decide) (by decide)
  have e2 := hx "server_name".toList (by decide) (by decide)
  have e3 := hx "root".toList (by decide) (by decide)
  have e4 := hx "client_max_body_size".toList (by decide) (by decide)
  have e5 := hx "index".toList (by decide) (by decide)
  obtain ⟨rest, h1, h2⟩ := extractString_tokens line [] k (t :: p :: ts) htok
  obtain ⟨rest1, h3, h4⟩ := extractInt_after rest (p :: ts) t env.indeterminate c h2 hdec hfit
  have h5 := extractString_after rest1 []
  rw [h4] at h5
  simp only [parseServerDirective, e1, e2, e3, e4, e5, h, false_and, if_false, if_true,
    IStringStream.new, h1, h3, h5, List.headD_cons]
  rfl

theorem step_error_page (env : Env) (st : PState) (raw : Str) (i : Nat) (c : Int) (p : Str)
    (hs : st.inServer i) (hl : errorPageLine raw c p) :
    ∃ config, st.configs[i]? = some config ∧
      step env st raw = .ok { st with configs := st.configs.set i (config.setErrorPage c p) } := by
  obtain ⟨hfind, k, t, ts, htok, hdec, hfit⟩ := hl
  obtain ⟨config, c1, hg, hcfg, hstep⟩ := step_keyword env st raw "error_page".toList i hs hfind
    (by decide) (by decide) (by decide) (by decide) (by decide) (by decide)
  refine ⟨config, hg, ?_⟩
  rw [hstep]
  have := hcfg []
  rw [parseServerDirective_error_page env config [] (trim raw) k t p ts c hfind
    (by rw [tokens_trim]; exact htok) hdec hfit] at this
  simp only [Except.ok.injEq, Prod.mk.injEq, and_true] at this
  rw [this]

theorem errorPage_setErrorPage_same (config : Config) (c : Int) (p : Str) :
    (config.setErrorPage c p).errorPage c = some p := by
  simp [Config.errorPage, Config.setErrorPage]

theorem find?_filter_ne (l : List (Int × Str)) (c k : Int) (h : k ≠ c) :
    (l.filter (fun e => e.1 ≠ c)).find? (fun e => e.1 = k) = l.find? (fun e => e.1 = k) := by
  induction l with
  | nil => rfl
  | cons e l ih =>
    by_cases he : e.1 = c
    · have hk : ¬ e.1 = k := fun hek => h (hek ▸ he)
      rw [List.filter_cons_of_neg (by simp [he]), List.find?_cons_of_neg _ (by simp [hk]), ih]
    · rw [List.filter_cons_of_pos (by simp [he])]
      by_cases hk : e.1 = k
      · rw [List.find?_cons_of_pos _ (by simp [hk]), List.find?_cons_of_pos _ (by simp [hk])]
      · rw [List.find?_cons_of_neg _ (by simp [hk]), List.find?_cons_of_neg _ (by simp [hk]), ih]

theorem errorPage_setErrorPage_other (config : Config) (c k : Int) (p : Str) (h : k ≠ c) :
    (config.setErrorPage c p).errorPage k = config.errorPage k := by
  have hck : ¬ c = k := fun e => h e.symm
  simp only [Config.errorPage, Config.setErrorPage, List.find?_cons, hck, decide_False]
  rw [find?_filter_ne _ _ _ h]

theorem count_setErrorPage (config : Config) (c : Int) (p : Str) :
    ((config.setErrorPage c p).errorPages.filter (fun e => e.1 = c)).length = 1 := by
  simp [Config.setErrorPage, List.filter_cons, List.filter_filter]


theorem run_snoc (env : Env) (pre : List Str) (l : Str) (st st1 : PState)
    (h : run env PState.init pre = .ok st) (hs : step env st l = .ok st1) :
    run env PState.init (pre ++ [l]) = .ok st1 := by
  rw [run_append, h]
  simp only [bind, Except.bind, run_cons, hs, run]
  rfl

theorem errorPages_frame (env : Env) (c c1 : Config) (line : Str)
    (h : find line "error_page".toList ≠ some 0)
    (hp : parseServerDirective env c [] line = .ok (c1, [])) : c1.errorPages = c.errorPages :=
  (parseServerDirective_frame env c c1 [] [] line hp).2.2.2.2.2.1 h

/-! ## Location blocks -/

/-- The loop of `parseLocation` ends only on a line that is `}` once trimmed. -/
theorem parseLocationLine_eq_none (env : Env) (r : Route) (raw : Str)
    (h : parseLocationLine env r raw = none) : trim raw = "\x7d".toList := by
  simp only [parseLocationLine] at h
  split_ifs at h with h1 h2 h3 h4 h5
  exact h5

/-- The directives of a location block leave the path of the route as it is. -/
theorem parseLocationLine_path (env : Env) (r r1 : Route) (raw : Str)
    (h : parseLocationLine env r raw = some r1) : r1.path = r.path := by
  simp only [parseLocationLine] at h
  split_ifs at h <;> simp only [Option.some.injEq] at h <;> subst h <;> rfl

theorem routeAfter_path (env : Env) (body : List Str) :
    ∀ route, (routeAfter env route body).path = route.path := by
  induction body with
  | nil => intro route; rfl
  | cons l body ih =>
    intro route
    simp only [routeAfter, List.foldl_cons]
    cases h : parseLocationLine env route l with
    | none => exact ih route
    | some r1 =>
      have := ih r1
      simp only [routeAfter] at this
      simp only [Option.getD_some, this]
      exact parseLocationLine_path env route r1 l h

theorem run_location_body (env : Env) (body : List Str) :
    ∀ (st : PState) (route : Route), st.currentRoute = some route →
      (∀ l ∈ body, trim l ≠ "\x7d".toList) →
      run env st body = .ok { st with currentRoute := some (routeAfter env route body) } := by
  induction body with
  | nil => intro st route h _; simp only [run, routeAfter, List.foldl_nil, ← h]; rfl
  | cons l body ih =>
    intro st route h hb
    cases hp : parseLocationLine env route l with
    | none => exact absurd (parseLocationLine_eq_none env route l hp) (hb l (by simp))
    | some r1 =>
      have hstep : step env st l = .ok { st with currentRoute := some r1 } := by
        simp only [step, h, hp]; rfl
      rw [run_cons, hstep]
      simp only [bind, Except.bind]
      rw [ih _ r1 rfl (fun x hx => hb x (by simp [hx]))]
      simp only [routeAfter, List.foldl_cons, hp, Option.getD_some]

theorem parseLocationLoop_body (env : Env) (body : List Str) :
    ∀ (route : Route), (∀ l ∈ body, trim l ≠ "\x7d".toList) →
      parseLocationLoop env route body = (routeAfter env route body, []) := by
  induction body with
  | nil => intro route _; rfl
  | cons l body ih =>
    intro route hb
    cases hp : parseLocationLine env route l with
    | none => exact absurd (parseLocationLine_eq_none env route l hp) (hb l (by simp))
    | some r1 =>
      simp only [parseLocationLoop, hp, routeAfter, List.foldl_cons, Option.getD_some]
      exact ih r1 (fun x hx => hb x (by simp [hx]))

/-- A `location` line read at server scope starts a route with the path of the
line. -/
theorem step_location (env : Env) (st : PState) (raw : Str) (i : Nat)
    (hs : st.inServer i) (hfind : find (trim raw) "location".toList = some 0) :
    ∃ path, parseLocationPath (trim raw) = .ok path ∧
      step env st raw = .ok { st with currentRoute := some (env.newRoute.setPath path) } := by
  obtain ⟨hcur, hr, hlt⟩ := hs
  obtain ⟨hskip, hneq⟩ := keyword_not_skipped _ _ hfind (by decide) (by decide)
  have hg : st.configs[i]? = some st.configs[i] := by simp [hlt]
  refine ⟨_, parseLocationPath_ok _ hfind, ?_⟩
  simp only [step, hr, hskip, hneq _ (show ¬ "location".toList <+: "server \x7b".toList by decide),
    hneq _ (show ¬ "location".toList <+: "\x7d".toList by decide), hcur, hg, hfind,
    parseLocationPath_ok _ hfind, Bool.false_eq_true, if_false, if_true, bind, Except.bind, pure,
    Except.pure]


theorem set_getElem?_self {α : Type} (l : List α) (i : Nat) (a : α) (h : l[i]? = some a) :
    l.set i a = l := by
  induction l generalizing i with
  | nil => rfl
  | cons x l ih =>
    cases i with
    | zero => simp at h; simp [h]
    | succ i => simp at h; simp [ih i h]

/-- A line that begins with none of the eight keywords leaves the
configuration and the file as they are. -/
theorem parseServerDirective_unrecognized (env : Env) (config : Config) (file : List Str)
    (line : Str) (h : ¬ isServerDirective line) :
    parseServerDirective env config file line = .ok (config, file) := by
  simp only [isServerDirective, not_or] at h
  obtain ⟨h1, h2, h3, h4, h5, h6, h7, h8⟩ := h
  simp only [parseServerDirective, h1, h2, h3, h4, h5, h6, h7, h8, false_and, if_false]
  rfl

/-! ## Blank lines and comments -/

theorem find_nil (pat : Str) (h : pat ≠ []) : find [] pat = none := by
  simp [find, h]

/-- Inside a location block a blank line or a comment leaves the route as it
is and does not end the block. -/
theorem parseLocationLine_blank (env : Env) (r : Route) (raw : Str) (h : isBlankOrComment raw) :
    parseLocationLine env r raw = some r := by
  rcases h with h | h
  · simp only [parseLocationLine, h]
    simp [find]
  · cases ht : trim raw with
    | nil => simp [ht] at h
    | cons c t =>
      simp only [ht, List.head?_cons, Option.some.injEq] at h
      subst h
      simp only [parseLocationLine, ht]
      simp [find_eq_zero_iff]

/-- A blank line or a comment leaves the state of the parser as it is,
whatever the scope in which it is read. -/
theorem step_blank (env : Env) (st : PState) (raw : Str) (h : isBlankOrComment raw) :
    step env st raw = .ok st := by
  obtain ⟨configs, cur, croute⟩ := st
  cases croute with
  | some route => simp only [step, parseLocationLine_blank env route raw h]; rfl
  | none =>
    have hskip : ((trim raw).isEmpty || decide ((trim raw).head? = some '#')) = true := by
      rcases h with h | h
      · simp [h]
      · simp [h]
    simp only [step, hskip, if_true]
    rfl

/-! ## `allow_methods` -/

theorem length_dropWhile_le {α : Type} (p : α → Bool) (l : List α) :
    (l.dropWhile p).length ≤ l.length := by
  induction l with
  | nil => simp
  | cons a l ih =>
    rw [List.dropWhile_cons]
    split_ifs
    · simp; omega
    · simp

/-- What is left after a token is shorter than the buffer. -/
theorem length_after_token (buf : Str) (h : buf.dropWhile isspace ≠ []) :
    ((buf.dropWhile isspace).dropWhile (fun c => !isspace c)).length < buf.length := by
  have h1 := length_dropWhile_le isspace buf
  have h2 := congrArg List.length
    (List.takeWhile_append_dropWhile (fun c => !isspace c) (buf.dropWhile isspace))
  have h3 := takeWhile_not_space_ne_nil buf h
  have h4 : 0 < ((buf.dropWhile isspace).takeWhile (fun c => !isspace c)).length :=
    List.length_pos.mpr h3
  rw [List.length_append] at h2
  omega

/-- With enough fuel the loop of `parseMethods` appends the tokens left in the
stream. -/
theorem parseMethodsLoop_eq (fuel : Nat) :
    ∀ (rest method : Str) (methods : List Str), rest.length < fuel →
      parseMethodsLoop fuel ⟨rest, rest.isEmpty, false⟩ method methods =
        methods ++ tokens rest := by
  induction fuel with
  | zero => intro rest _ _ h; omega
  | succ fuel ih =>
    intro rest method methods hlen
    cases rest with
    | nil =>
      simp only [parseMethodsLoop, List.isEmpty_nil,
        extractString_not_good ⟨[], true, false⟩ method rfl, if_true, tokens_nil,
        List.append_nil]
    | cons c r =>
      simp only [parseMethodsLoop, List.isEmpty_cons]
      rw [extractString_good, tokens_unfold (c :: r)]
      by_cases h : (c :: r).dropWhile isspace = []
      · simp only [h, if_true, List.append_nil]
      · simp only [h, if_false, Bool.false_eq_true]
        rw [ih _ _ _ (by have := length_after_token (c :: r) h; omega)]
        simp

/-- `parseMethods` returns the tokens of the line after the first one. -/
theorem parseMethods_eq (line : Str) : parseMethods line = (tokens line).tail := by
  simp only [parseMethods, IStringStream.new]
  rw [extractString_good, tokens_unfold line]
  by_cases h : line.dropWhile isspace = []
  · simp only [h, if_true, List.tail_nil]
    simp only [parseMethodsLoop, extractString_not_good ⟨[], true, true⟩ [] rfl, if_true]
  · simp only [h, if_false, List.tail_cons]
    rw [parseMethodsLoop_eq _ _ _ _ (by have := length_after_token line h; omega)]
    rfl

theorem parseServerDirective_allow_methods (env : Env) (config : Config) (file : List Str)
    (line : Str) (h : find line "allow_methods".toList = some 0) :
    parseServerDirective env config file line =
      .ok ({ config with allowedMethods := (tokens line).tail }, file) := by
  have hx := fun kw h1 h2 => find_exclusive line "allow_methods".toList kw h h1 h2
  have e1 := hx "listen".toList (by decide) (by decide)
  have e2 := hx "server_name".toList (by decide) (by decide)
  have e3 := hx "root".toList (by decide) (by decide)
  have e4 := hx "client_max_body_size".toList (by decide) (by decide)
  have e5 := hx "index".toList (by decide) (by decide)
  have e6 := hx "error_page".toList (by decide) (by decide)
  simp only [parseServerDirective, e1, e2, e3, e4, e5, e6, h, false_and, if_false, if_true,
    parseMethods_eq]
  rfl


/-! ## Directives of route scope -/

theorem parseLocationLine_root (env : Env) (route : Route) (raw : Str)
    (h : find (trim raw) "root".toList = some 0) :
    parseLocationLine env route raw =
      some { route with rootDir := (tokens raw).getD 1 [] } := by
  have hx := fun kw h1 h2 => find_exclusive (trim raw) "root".toList kw h h1 h2
  have e1 := hx "autoindex".toList (by decide) (by decide)
  have e2 := hx "return".toList (by decide) (by decide)
  simp only [parseLocationLine, e1, e2, h, if_false, and_self, if_true, parseValueString_eq,
    tokens_trim]
  rfl

theorem parseLocationLine_index (env : Env) (route : Route) (raw : Str)
    (h : find (trim raw) "index".toList = some 0) :
    parseLocationLine env route raw =
      some { route with indexFile := (tokens raw).getD 1 [] } := by
  have hx := fun kw h1 h2 => find_exclusive (trim raw) "index".toList kw h h1 h2
  have e1 := hx "autoindex".toList (by decide) (by decide)
  have e2 := hx "return".toList (by decide) (by decide)
  have e3 := hx "root".toList (by decide) (by decide)
  simp only [parseLocationLine, e1, e2, e3, h, if_false, and_self, false_and, if_true,
    parseValueString_eq, tokens_trim]
  rfl

/-- A line that does not end the location block changes the route under
construction and nothing else in the state of the parser. -/
theorem step_in_location (env : Env) (st : PState) (route r1 : Route) (raw : Str)
    (hr : st.currentRoute = some route) (h : parseLocationLine env route raw = some r1) :
    step env st raw = .ok { st with currentRoute := some r1 } := by
  simp only [step, hr, h]
  rfl

/-! ## Decimal notation -/

theorem digitsValue_cons_aux (ds : Str) : ∀ a : Nat,
    ds.foldl (fun a d => 10 * a + (d.toNat - 48)) a =
      a * 10 ^ ds.length + digitsValue ds := by
  induction ds with
  | nil => intro a; simp [digitsValue]
  | cons d ds ih =>
    intro a
    simp only [List.foldl_cons, digitsValue, List.length_cons]
    rw [ih, ih (10 * 0 + (d.toNat - 48))]
    ring

theorem digitsValue_cons (d : Char) (ds : Str) :
    digitsValue (d :: ds) = (d.toNat - 48) * 10 ^ ds.length + digitsValue ds := by
  simp only [digitsValue, List.foldl_cons]
  rw [digitsValue_cons_aux]
  simp [digitsValue]

theorem digitChar_isDigit (m : Nat) (h : m < 10) :
    (Nat.digitChar m).isDigit = true ∧ (Nat.digitChar m).toNat - 48 = m := by
  interval_cases m <;> exact ⟨by decide, by decide⟩

theorem toDigitsCore_value (fuel : Nat) : ∀ (n : Nat) (ds : Str), n < fuel →
    ds.all Char.isDigit = true →
    (Nat.toDigitsCore 10 fuel n ds).all Char.isDigit = true ∧
      Nat.toDigitsCore 10 fuel n ds ≠ [] ∧
      digitsValue (Nat.toDigitsCore 10 fuel n ds) = n * 10 ^ ds.length + digitsValue ds := by
  induction fuel with
  | zero => intro n _ h; omega
  | succ fuel ih =>
    intro n ds hn hds
    obtain ⟨hd1, hd2⟩ := digitChar_isDigit (n % 10) (Nat.mod_lt _ (by norm_num))
    simp only [Nat.toDigitsCore]
    split_ifs with h0
    · refine ⟨by simp [hd1, hds], by simp, ?_⟩
      rw [digitsValue_cons, hd2]
      have : n % 10 = n := by omega
      rw [this]
    · have hlt : n / 10 < fuel := by omega
      obtain ⟨h1, h2, h3⟩ := ih (n / 10) (Nat.digitChar (n % 10) :: ds) hlt (by simp [hd1, hds])
      refine ⟨h1, h2, ?_⟩
      rw [h3, digitsValue_cons, hd2, List.length_cons, pow_succ]
      have hn10 : n = 10 * (n / 10) + n % 10 := (Nat.div_add_mod n 10).symm
      generalize n / 10 = q at hn10 ⊢
      generalize n % 10 = r at hn10 ⊢
      subst hn10
      ring

/-- The decimal notation of a natural number denotes that number. -/
theorem decimalInt_repr (n : Nat) : decimalInt (Nat.repr n).toList = some (n : Int) := by
  obtain ⟨h1, h2, h3⟩ := toDigitsCore_value (n + 1) n [] (by omega) rfl
  have hl : (Nat.repr n).toList = Nat.toDigitsCore 10 (n + 1) n [] := rfl
  rw [hl]
  generalize Nat.toDigitsCore 10 (n + 1) n [] = ds at h1 h2 h3
  have hv : digitsValue ds = n := by simpa [digitsValue] using h3
  have hdig : isDigits ds = true := by
    simp only [isDigits, Bool.and_eq_true, Bool.not_eq_true']
    exact ⟨isEmpty_eq_false _ h2, h1⟩
  cases ds with
  | nil => exact absurd rfl h2
  | cons c t =>
    have hc : c.isDigit = true := by
      simp only [List.all_cons, Bool.and_eq_true] at h1; exact h1.1
    unfold decimalInt
    split
    · rename_i heq
      simp only [List.cons.injEq] at heq
      rw [heq.1] at hc; exact absurd hc (by decide)
    · rename_i heq
      simp only [List.cons.injEq] at heq
      rw [heq.1] at hc; exact absurd hc (by decide)
    · simp only [hdig, if_true, hv]


theorem digit_not_space (c : Char) (h : c.isDigit = true) : isspace c = false := by
  cases hs : isspace c with
  | false => rfl
  | true => rw [isspace_not_digit c hs] at h; exact absurd h (by decide)

theorem digit_not_blank (c : Char) (h : c.isDigit = true) : blank c = false := by
  cases hb : blank c with
  | false => rfl
  | true =>
    rw [isspace_not_digit c (blank_isspace c hb)] at h
    exact absurd h (by decide)

/-- The line `listen n`, for a port `n` within the range of `int`, is a
`listen` line with the value `n`. -/
theorem listenLine_repr (n : Nat) (h : (n : Int) ≤ intMax) :
    listenLine ("listen ".toList ++ (Nat.repr n).toList) n := by
  have hdec := decimalInt_repr n
  obtain ⟨h1, h2, _⟩ := toDigitsCore_value (n + 1) n [] (by omega) rfl
  have hl : (Nat.repr n).toList = Nat.toDigitsCore 10 (n + 1) n [] := rfl
  rw [hl] at hdec ⊢
  generalize Nat.toDigitsCore 10 (n + 1) n [] = ds at h1 h2 hdec
  have hall : ∀ x ∈ ds, x.isDigit = true := by simpa using h1
  have htrim : trim ("listen ".toList ++ ds) = "listen ".toList ++ ds := by
    have hlast := List.dropLast_append_getLast h2
    have hd : blank (ds.getLast h2) = false :=
      digit_not_blank _ (hall _ (List.getLast_mem h2))
    have := trim_decomp [] ("listen ".toList ++ ds.dropLast) [] ("isten ".toList ++ ds) 'l'
      (ds.getLast h2) (by simp) (by simp) (by decide) hd
      (by rw [List.append_assoc, hlast]; rfl)
    simpa using this
  refine ⟨?_, "listen".toList, ds, [], ?_, hdec, ?_, h⟩
  · rw [htrim, find_eq_zero_iff]
    exact ⟨' ' :: ds, rfl⟩
  · have e : "listen ".toList ++ ds = "listen".toList ++ ' ' :: ds := rfl
    rw [e, tokens_word _ _ (by decide) (by decide) (by simp; rfl), tokens_cons_space ' ' ds (by decide)]
    have := tokens_word ds [] h2 (fun x hx => digit_not_space x (hall x hx)) (by simp)
    rw [List.append_nil] at this
    rw [this]; rfl
  · simp only [intMin]
    have : (0 : Int) ≤ n := Int.natCast_nonneg n
    omega

/-! ## Lines ignored inside a location block -/

theorem parseLocationLine_other (env : Env) (route : Route) (raw : Str)
    (h : ¬ isRouteDirective (trim raw)) (hc : trim raw ≠ "\x7d".toList) :
    parseLocationLine env route raw = some route := by
  simp only [isRouteDirective, not_or] at h
  obtain ⟨h1, h2, h3, h4⟩ := h
  simp only [parseLocationLine, h1, h2, h3, h4, hc, false_and, if_false]

/-- A line that begins with `allow_methods` or with `location`, or that is
`server {`, begins with no directive of route scope and is not `}`. -/
theorem not_route_directive (line : Str)
    (h : find line "allow_methods".toList = some 0 ∨ find line "location".toList = some 0 ∨
      line = "server \x7b".toList) :
    ¬ isRouteDirective line ∧ line ≠ "\x7d".toList := by
  rcases h with h | h | h
  · have hx := fun kw h1 h2 => find_exclusive line "allow_methods".toList kw h h1 h2
    refine ⟨?_, (keyword_not_skipped _ _ h (by decide) (by decide)).2 _ (by decide)⟩
    simp only [isRouteDirective, not_or]
    exact ⟨hx _ (by decide) (by decide), hx _ (by decide) (by decide),
      hx _ (by decide) (by decide), hx _ (by decide) (by decide)⟩
  · have hx := fun kw h1 h2 => find_exclusive line "location".toList kw h h1 h2
    refine ⟨?_, (keyword_not_skipped _ _ h (by decide) (by decide)).2 _ (by decide)⟩
    simp only [isRouteDirective, not_or]
    exact ⟨hx _ (by decide) (by decide), hx _ (by decide) (by decide),
      hx _ (by decide) (by decide), hx _ (by decide) (by decide)⟩
  · subst h
    exact ⟨by decide, by decide⟩

/-! ## The characterisation of `trim` -/

theorem head?_dropWhile_blank (s : Str) : ∀ c ∈ (s.dropWhile blank).head?, blank c = false := by
  intro c hc
  induction s with
  | nil => simp at hc
  | cons a s ih =>
    by_cases h : blank a = true
    · rw [List.dropWhile_cons_of_pos h] at hc
      exact ih hc
    · rw [List.dropWhile_cons_of_neg h] at hc
      simp only [List.head?_cons, Option.mem_def, Option.some.injEq] at hc
      subst hc
      simpa using h

theorem getLast?_rdropWhile_blank (s : Str) :
    ∀ c ∈ (s.rdropWhile blank).getLast?, blank c = false := by
  intro c hc
  by_cases hne : s.rdropWhile blank = []
  · simp [hne] at hc
  · have := List.rdropWhile_last_not blank s hne
    rw [List.getLast?_eq_getLast _ hne] at hc
    simp only [Option.mem_def, Option.some.injEq] at hc
    subst hc
    simpa using this

theorem head?_eq_of_initial {α : Type} (a b : List α) (h : a <+: b) (hne : a ≠ []) :
    a.head? = b.head? := by
  obtain ⟨t, rfl⟩ := h
  cases a with
  | nil => exact absurd rfl hne
  | cons x a => rfl

/-- An untrimmed string with neither a leading nor a trailing blank is its own
trimming. -/
theorem trim_eq_self (s : Str) (hh : ∀ c ∈ s.head?, blank c = false)
    (hl : ∀ c ∈ s.getLast?, blank c = false) : trim s = s := by
  rw [trim_eq]
  have h1 : s.dropWhile blank = s := by
    cases s with
    | nil => rfl
    | cons a s =>
      have := hh a (by simp)
      rw [List.dropWhile_cons_of_neg (by simp [this])]
  rw [h1, List.rdropWhile_eq_self_iff]
  intro hne
  have := hl (s.getLast hne) (by rw [List.getLast?_eq_getLast _ hne]; simp)
  simp [this]

/-! ## The route checks of `parseServerDirective` -/

theorem parseServerDirective_root (env : Env) (config : Config) (file : List Str) (line : Str)
    (h : find line "root".toList = some 0) :
    parseServerDirective env config file line =
      .ok ({ config with rootDir := (tokens line).getD 1 [] }, file) := by
  have hx := fun kw h1 h2 => find_exclusive line "root".toList kw h h1 h2
  have e1 := hx "listen".toList (by decide) (by decide)
  have e2 := hx "server_name".toList (by decide) (by decide)
  simp only [parseServerDirective, e1, e2, h, if_false, Option.isNone_none, and_self, if_true,
    parseValueString_eq]
  rfl

theorem parseServerDirective_index (env : Env) (config : Config) (file : List Str) (line : Str)
    (h : find line "index".toList = some 0) :
    parseServerDirective env config file line =
      .ok ({ config with defaultFile := (tokens line).getD 1 [] }, file) := by
  have hx := fun kw h1 h2 => find_exclusive line "index".toList kw h h1 h2
  have e1 := hx "listen".toList (by decide) (by decide)
  have e2 := hx "server_name".toList (by decide) (by decide)
  have e3 := hx "root".toList (by decide) (by decide)
  have e4 := hx "client_max_body_size".toList (by decide) (by decide)
  simp only [parseServerDirective, e1, e2, e3, e4, h, if_false, Option.isNone_none, and_self,
    false_and, if_true, parseValueString_eq]
  rfl

/-! ## Dispatch -/

/-- When a line passes at most one test of a table, the order of the table
does not matter. -/
theorem dispatch_perm {α : Type} (t1 t2 : List ((Str → Bool) × α)) (dflt : α) (line : Str)
    (hp : t1.Perm t2)
    (hex : ∀ e1 ∈ t1, ∀ e2 ∈ t1, e1.1 line = true → e2.1 line = true → e1 = e2) :
    dispatch t1 dflt line = dispatch t2 dflt line := by
  simp only [dispatch]
  cases h1 : t1.find? (fun e => e.1 line) with
  | none =>
    cases h2 : t2.find? (fun e => e.1 line) with
    | none => rfl
    | some e2 =>
      have hm := hp.mem_iff.mpr (List.mem_of_find?_eq_some h2)
      have hpass := List.find?_some h2
      rw [List.find?_eq_none] at h1
      exact absurd hpass (h1 e2 hm)
  | some e1 =>
    cases h2 : t2.find? (fun e => e.1 line) with
    | none =>
      have hm := hp.mem_iff.mp (List.mem_of_find?_eq_some h1)
      have hpass := List.find?_some h1
      rw [List.find?_eq_none] at h2
      exact absurd hpass (h2 e1 hm)
    | some e2 =>
      have q1 := List.find?_some h1
      have q2 := List.find?_some h2
      have := hex e1 (List.mem_of_find?_eq_some h1) e2
        (hp.mem_iff.mpr (List.mem_of_find?_eq_some h2)) q1 q2
      rw [this]

theorem serverKeywords_exclusive (line k1 k2 : Str) (h1 : k1 ∈ serverKeywords)
    (h2 : k2 ∈ serverKeywords) (f1 : find line k1 = some 0) (f2 : find line k2 = some 0) :
    k1 = k2 := by
  simp only [serverKeywords, List.mem_cons, List.mem_singleton, List.not_mem_nil, or_false] at h1 h2
  rcases h1 with rfl | rfl | rfl | rfl | rfl | rfl | rfl | rfl <;>
    rcases h2 with rfl | rfl | rfl | rfl | rfl | rfl | rfl | rfl <;>
    first
    | rfl
    | exact absurd f2 (find_exclusive line _ _ f1 (by decide) (by decide))

theorem routeKeywords_exclusive (line k1 k2 : Str) (h1 : k1 ∈ routeKeywords)
    (h2 : k2 ∈ routeKeywords) (f1 : find line k1 = some 0) (f2 : find line k2 = some 0) :
    k1 = k2 := by
  simp only [routeKeywords, List.mem_cons, List.mem_singleton, List.not_mem_nil, or_false] at h1 h2
  rcases h1 with rfl | rfl | rfl | rfl <;>
    rcases h2 with rfl | rfl | rfl | rfl <;>
    first
    | rfl
    | exact absurd f2 (find_exclusive line _ _ f1 (by decide) (by decide))

theorem routeKeywords_not_close (k : Str) (h : k ∈ routeKeywords) :
    find "\x7d".toList k ≠ some 0 := by
  simp only [routeKeywords, List.mem_cons, List.mem_singleton, List.not_mem_nil, or_false] at h
  rcases h with rfl | rfl | rfl | rfl <;> decide

theorem serverTable_exclusive (env : Env) (config : Config) (file : List Str) (line : Str) :
    ∀ e1 ∈ serverTable env config file line, ∀ e2 ∈ serverTable env config file line,
      e1.1 line = true → e2.1 line = true → e1 = e2 := by
  intro e1 h1 e2 h2 p1 p2
  simp only [serverTable, List.mem_cons, List.mem_singleton, List.not_mem_nil, or_false] at h1 h2
  rcases h1 with rfl | rfl | rfl | rfl | rfl | rfl | rfl | rfl <;>
    rcases h2 with rfl | rfl | rfl | rfl | rfl | rfl | rfl | rfl <;>
    first
    | rfl
    | (simp only [beginsWith, decide_eq_true_eq] at p1 p2
       exact absurd p2 (find_exclusive line _ _ p1 (by decide) (by decide)))

theorem routeTable_exclusive (env : Env) (route : Route) (line : Str) :
    ∀ e1 ∈ routeTable env route line, ∀ e2 ∈ routeTable env route line,
      e1.1 line = true → e2.1 line = true → e1 = e2 := by
  intro e1 h1 e2 h2 p1 p2
  simp only [routeTable, List.mem_cons, List.mem_singleton, List.not_mem_nil, or_false] at h1 h2
  rcases h1 with rfl | rfl | rfl | rfl | rfl <;>
    rcases h2 with rfl | rfl | rfl | rfl | rfl <;>
    first
    | rfl
    | (simp only [beginsWith, decide_eq_true_eq] at p1 p2
       first
       | exact absurd p2 (find_exclusive line _ _ p1 (by decide) (by decide))
       | (subst p2; exact absurd p1 (by decide))
       | (subst p1; exact absurd p2 (by decide)))

theorem parseServerDirective_eq_dispatch (env : Env) (config : Config) (file : List Str)
    (line : Str) :
    parseServerDirective env config file line =
      dispatch (serverTable env config file line) (pure (config, file)) line := by
  simp only [parseServerDirective, dispatch, serverTable, List.find?_cons, beginsWith,
    Option.isNone_none, and_true, List.find?_nil]
  split_ifs <;> simp_all

theorem parseLocationLine_eq_dispatch (env : Env) (route : Route) (raw : Str) :
    parseLocationLine env route raw =
      dispatch (routeTable env route (trim raw)) (some route) (trim raw) := by
  simp only [parseLocationLine, dispatch, routeTable, List.find?_cons, beginsWith, and_true,
    List.find?_nil]
  split_ifs <;> simp_all

/-! ## The path of a location -/

/-- Where `find` finds a text, the text is. -/
theorem find_spec (s pat : Str) (e : Nat) (h : find s pat = some e) :
    pat <+: s.drop e ∧ e ≤ s.length := by
  induction s generalizing e with
  | nil =>
    simp only [find] at h
    split_ifs at h with hp
    simp only [Option.some.injEq] at h
    subst h hp
    exact ⟨List.prefix_refl _, le_refl _⟩
  | cons c s ih =>
    simp only [find] at h
    split_ifs at h with hp
    · simp only [Option.some.injEq] at h
      subst h
      exact ⟨List.isPrefixOf_iff_prefix.mp hp, Nat.zero_le _⟩
    · cases hf : find s pat with
      | none => simp [hf] at h
      | some j =>
        simp only [hf, Option.map_some', Option.some.injEq] at h
        subst h
        obtain ⟨h1, h2⟩ := ih j hf
        exact ⟨by simpa using h1, by simp; omega⟩

/-- The first occurrence of a character. -/
theorem find_char_append (a r : Str) (c : Char) (h : c ∉ a) :
    find (a ++ c :: r) [c] = some a.length := by
  induction a with
  | nil => simp [find, List.isPrefixOf]
  | cons x a ih =>
    have hx : ¬ c = x := fun e => h (by simp [e])
    have ha : c ∉ a := fun e => h (by simp [e])
    rw [List.cons_append]
    simp only [find, List.isPrefixOf, ih ha, List.length_cons]
    simp [hx]

theorem find_char_none (s : Str) (c : Char) (h : c ∉ s) : find s [c] = none := by
  induction s with
  | nil => simp [find]
  | cons x s ih =>
    have hx : ¬ c = x := fun e => h (by simp [e])
    have hs : c ∉ s := fun e => h (by simp [e])
    simp only [find, List.isPrefixOf, ih hs]
    simp [hx]

/-- The route directives leave the path of the route as it is, up to the end
of the location block. -/
theorem parseLocationLoop_path (env : Env) (file : List Str) :
    ∀ route, (parseLocationLoop env route file).1.path = route.path := by
  induction file with
  | nil => intro route; rfl
  | cons l file ih =>
    intro route
    simp only [parseLocationLoop]
    cases h : parseLocationLine env route l with
    | none => rfl
    | some r1 =>
      simp only []
      rw [ih r1, parseLocationLine_path env route r1 l h]

/-- On a line that begins with `location`, an opening brace is found after the
keyword. -/
theorem find_brace_ge (line : Str) (e : Nat) (h : find line "location".toList = some 0)
    (he : find line "\x7b".toList = some e) : 8 ≤ e ∧ e < line.length := by
  obtain ⟨t, rfl⟩ := (find_eq_zero_iff _ _).mp h
  obtain ⟨⟨u, hu⟩, hle⟩ := find_spec _ _ _ he
  have hlt : e < ("location".toList ++ t).length := by
    by_contra hcon
    rw [List.drop_of_length_le (by omega)] at hu
    simp at hu
  refine ⟨?_, hlt⟩
  by_contra hcon
  have h8 : e < 8 := by omega
  have hget : ("location".toList ++ t)[e]? = some '\x7b' := by
    have := congrArg (fun l => l[0]?) hu
    simp only [List.getElem?_drop] at this
    simpa using this.symm
  have hloc : ("location".toList ++ t)[e]? = "location".toList[e]? := by
    rw [List.getElem?_append_left (by simpa using h8)]
  rw [hloc] at hget
  interval_cases e <;> simp at hget

/-! ## Extraction of an integer from any token -/

theorem readSign_append (t rest : Str) (ht : t ≠ []) :
    readSign (t ++ rest) = ((readSign t).1, (readSign t).2 ++ rest) := by
  cases t with
  | nil => exact absurd rfl ht
  | cons c t =>
    by_cases h1 : c = '-'
    · subst h1; rfl
    · by_cases h2 : c = '+'
      · subst h2; rfl
      · have e1 : ∀ l : Str, readSign (c :: l) = (false, c :: l) := by
          intro l
          unfold readSign
          split
          · rename_i heq; simp only [List.cons.injEq] at heq; exact absurd heq.1 h1
          · rename_i heq; simp only [List.cons.injEq] at heq; exact absurd heq.1 h2
          · rfl
        rw [List.cons_append, e1, e1]
        rfl

theorem readSign_subset (t : Str) : ∀ c ∈ (readSign t).2, c ∈ t := by
  intro c hc
  unfold readSign at hc
  split at hc
  · exact List.mem_cons_of_mem _ hc
  · exact List.mem_cons_of_mem _ hc
  · exact hc

theorem takeWhile_append_stop {α : Type} (p : α → Bool) (body rest : List α)
    (h : ∀ c ∈ rest.head?, p c = false) :
    (body ++ rest).takeWhile p = body.takeWhile p ∧
      (body ++ rest).dropWhile p = body.dropWhile p ++ rest := by
  induction body with
  | nil =>
    cases rest with
    | nil => exact ⟨rfl, rfl⟩
    | cons c r =>
      have := h c (by simp)
      simp [List.takeWhile_cons, List.dropWhile_cons, this]
  | cons x body ih =>
    by_cases hx : p x = true
    · simp [List.takeWhile_cons, List.dropWhile_cons, hx, ih.1, ih.2]
    · simp [List.takeWhile_cons, List.dropWhile_cons, hx]

/-- `operator>>` for an `int` on a stream whose first token is `t`. -/
theorem extractInt_token (buf t : Str) (ts : List Str) (value : Int)
    (h : tokens buf = t :: ts) :
    ∃ rest, tokens rest = ts ∧ (∀ c ∈ rest.head?, isspace c = true) ∧
      (∀ c ∈ t, isspace c = false) ∧
      extractInt ⟨buf, false, false⟩ value =
        (if (intDigits t).isEmpty then
          (⟨intTail t ++ rest, (intTail t ++ rest).isEmpty, true⟩, 0)
        else if intValue t < intMin then
          (⟨intTail t ++ rest, (intTail t ++ rest).isEmpty, true⟩, intMin)
        else if intValue t > intMax then
          (⟨intTail t ++ rest, (intTail t ++ rest).isEmpty, true⟩, intMax)
        else (⟨intTail t ++ rest, (intTail t ++ rest).isEmpty, false⟩, intValue t)) := by
  obtain ⟨h1, h2, h3⟩ := tokens_cons_inv buf t ts h
  have hs := (List.takeWhile_append_dropWhile (fun c => !isspace c) (buf.dropWhile isspace)).symm
  have hrest := head_dropWhile_not_space (buf.dropWhile isspace)
  have hne := takeWhile_not_space_ne_nil buf h1
  have hns : ∀ c ∈ (buf.dropWhile isspace).takeWhile (fun c => !isspace c),
      isspace c = false := by
    intro c hc
    have := List.mem_takeWhile_imp hc
    simpa using this
  rw [h2] at hs hne hns
  refine ⟨_, h3, hrest, hns, ?_⟩
  generalize (buf.dropWhile isspace).dropWhile (fun c => !isspace c) = rest at hs hrest
  have hr : ∀ c ∈ rest.head?, c.isDigit = false := fun c hc => isspace_not_digit c (hrest c hc)
  obtain ⟨htk, hdr⟩ := takeWhile_append_stop Char.isDigit (readSign t).2 rest hr
  have hne2 : (t ++ rest).isEmpty = false := isEmpty_eq_false _ (by simp [hne])
  simp only [extractInt, sentry, good, Bool.not_false, Bool.and_self, if_true, hs, hne2,
    Bool.false_eq_true, if_false, Bool.false_or, readSign_append t rest hne, htk, hdr,
    intDigits, intTail, intValue]


theorem intTail_no_space (t : Str) (h : ∀ c ∈ t, isspace c = false) :
    ∀ c ∈ intTail t, isspace c = false := by
  intro c hc
  exact h c (readSign_subset t c ((List.dropWhile_suffix _).subset hc))

/-- What `iss >> key >> number >> text` stores on a line with at least two
tokens. -/
theorem extract_key_int_string (line k t : Str) (ts : List Str) (value : Int)
    (h : tokens line = k :: t :: ts) :
    ((extractInt (extractString (IStringStream.new line) []).1 value).2,
      (extractString
        (extractInt (extractString (IStringStream.new line) []).1 value).1 []).2) =
      intThenString t (ts.headD []) := by
  obtain ⟨rest, h1, h2⟩ := extractString_tokens line [] k (t :: ts) h
  have hrne : rest ≠ [] := by
    intro e; rw [e, tokens_nil] at h2; exact absurd h2 (by simp)
  simp only [IStringStream.new, h1, isEmpty_eq_false _ hrne]
  obtain ⟨rest1, h3, h4, h5, h6⟩ := extractInt_token rest t ts value h2
  rw [h6]
  simp only [intThenString]
  split_ifs with c1 c2 c3 c4
  · rw [extractString_not_good _ _ (by simp [good])]
  · rw [extractString_not_good _ _ (by simp [good])]
  · rw [extractString_not_good _ _ (by simp [good])]
  · have ht : intTail t = [] := List.isEmpty_iff.mp c4
    simp only [Prod.mk.injEq, true_and]
    rw [extractString_after, ht, List.nil_append, h3]
  · have ht : intTail t ≠ [] := fun e => c4 (by simp [e])
    simp only [Prod.mk.injEq, true_and]
    rw [extractString_after, tokens_word _ _ ht (intTail_no_space t h5) h4]
    rfl

/-- A token that is a decimal integer within the range of `int` is read whole,
and the text stored is the next token. -/
theorem intThenString_valid (t next : Str) (v : Int) (hdec : decimalInt t = some v)
    (hfit : fitsInt v) : intThenString t next = (v, next) := by
  obtain ⟨hlo, hhi⟩ := hfit
  have key : ∀ (neg : Bool) (ds : Str), readSign t = (neg, ds) → isDigits ds = true →
      v = (if neg then -(digitsValue ds : Int) else (digitsValue ds : Int)) →
      intThenString t next = (v, next) := by
    intro neg ds hr hd hv
    simp only [isDigits, Bool.and_eq_true, Bool.not_eq_true'] at hd
    obtain ⟨htk, hdr⟩ := takeWhile_digits_append ds [] hd.2 (by simp)
    rw [List.append_nil] at htk hdr
    have h1 : intDigits t = ds := by simp only [intDigits, hr, htk]
    have h2 : intTail t = [] := by simp only [intTail, hr, hdr]
    have h3 : intValue t = v := by simp only [intValue, hr, h1, hv]
    simp only [intThenString, h1, h2, h3, hd.1, Bool.false_eq_true, if_false, not_lt.mpr hlo,
      not_lt.mpr hhi, List.isEmpty_nil, if_true]
  unfold decimalInt at hdec
  split at hdec
  · rename_i ds
    split_ifs at hdec with hd
    simp only [Option.some.injEq] at hdec
    exact key true ds rfl hd (by simp [← hdec])
  · rename_i ds
    split_ifs at hdec with hd
    simp only [Option.some.injEq] at hdec
    exact key false ds rfl hd (by simp [← hdec])
  · rename_i hm hp
    split_ifs at hdec with hd
    simp only [Option.some.injEq] at hdec
    refine key false t ?_ hd (by simp [← hdec])
    unfold readSign
    split
    · exact absurd rfl (hm _)
    · exact absurd rfl (hp _)
    · rfl

/-! ## Server blocks -/

/-- One line adds a configuration exactly when it is `server {` read by the
loop of `parseConfigFile`, and then `currentConfig` points to the new
configuration; otherwise `currentConfig` stays or becomes null. -/
theorem step_shape (env : Env) (st st1 : PState) (raw : Str) (h : step env st raw = .ok st1) :
    st1.configs.length = st.configs.length +
      (if st.currentRoute = none ∧ trim raw = "server \x7b".toList then 1 else 0) ∧
    (st1.currentConfig = st.currentConfig ∨ st1.currentConfig = none ∨
      (st1.currentConfig = some st.configs.length ∧ st.currentRoute = none ∧
        trim raw = "server \x7b".toList ∧ st1.configs = st.configs ++ [env.newConfig] ∧
        st1.currentRoute = none)) := by
  obtain ⟨configs, cur, croute⟩ := st
  cases croute with
  | some route =>
    simp only [step] at h
    cases hp : parseLocationLine env route raw with
    | some r1 =>
      simp only [hp, pure, Except.pure, Except.ok.injEq] at h
      subst h
      simp
    | none =>
      simp only [hp, closeLocation] at h
      cases cur with
      | none => simp [throw, throwThe, MonadExceptOf.throw] at h
      | some i =>
        simp only at h
        cases hg : configs[i]? with
        | none => simp [hg, throw, throwThe, MonadExceptOf.throw] at h
        | some config =>
          simp only [hg, pure, Except.pure, Except.ok.injEq] at h
          subst h
          simp
  | none =>
    simp only [step] at h
    by_cases h1 : ((trim raw).isEmpty || decide ((trim raw).head? = some '#')) = true
    · have hne : trim raw ≠ "server \x7b".toList := by
        intro e; rw [e] at h1; exact absurd h1 (by decide)
      simp only [h1, if_true, pure, Except.pure, Except.ok.injEq] at h
      subst h
      exact ⟨by rw [if_neg (fun hh => hne hh.2)]; rfl, Or.inl rfl⟩
    simp only [h1, Bool.false_eq_true, if_false] at h
    by_cases h2 : trim raw = "server \x7b".toList
    · simp only [h2, if_true, pure, Except.pure, Except.ok.injEq] at h
      subst h
      exact ⟨by rw [if_pos ⟨rfl, h2⟩, List.length_append]; rfl,
        Or.inr (Or.inr ⟨rfl, rfl, h2, rfl, rfl⟩)⟩
    simp only [h2, if_false] at h
    by_cases h3 : trim raw = "\x7d".toList
    · simp only [h3, if_true, pure, Except.pure, Except.ok.injEq] at h
      subst h
      exact ⟨by rw [if_neg (fun hh => h2 hh.2)]; rfl, Or.inr (Or.inl rfl)⟩
    simp only [h3, if_false] at h
    cases cur with
    | none =>
      simp only [pure, Except.pure, Except.ok.injEq] at h
      subst h
      exact ⟨by rw [if_neg (fun hh => h2 hh.2)]; rfl, Or.inl rfl⟩
    | some i =>
      simp only at h
      cases hg : configs[i]? with
      | none => simp [hg, throw, throwThe, MonadExceptOf.throw] at h
      | some config =>
        simp only [hg] at h
        by_cases hl : find (trim raw) "location".toList = some 0
        · simp only [hl, if_true, parseLocationPath_ok _ hl, bind, Except.bind, pure,
            Except.pure, Except.ok.injEq] at h
          subst h
          exact ⟨by rw [if_neg (fun hh => h2 hh.2)]; rfl, Or.inl rfl⟩
        · obtain ⟨c1, hcfg⟩ := parseServerDirective_other env config (trim raw) hl
          simp only [hl, if_false, hcfg [], bind, Except.bind, pure, Except.pure,
            Except.ok.injEq] at h
          subst h
          exact ⟨by rw [if_neg (fun hh => h2 hh.2), List.length_set]; rfl, Or.inl rfl⟩

theorem finish_shape (st st1 : PState) (h : finish st = .ok st1) :
    st1.configs.length = st.configs.length ∧ st1.currentConfig = st.currentConfig := by
  obtain ⟨configs, cur, croute⟩ := st
  cases croute with
  | none =>
    simp only [finish, pure, Except.pure, Except.ok.injEq] at h
    subst h
    exact ⟨rfl, rfl⟩
  | some route =>
    simp only [finish, closeLocation] at h
    cases cur with
    | none => simp [throw, throwThe, MonadExceptOf.throw] at h
    | some i =>
      simp only at h
      cases hg : configs[i]? with
      | none => simp [hg, throw, throwThe, MonadExceptOf.throw] at h
      | some config =>
        simp only [hg, pure, Except.pure, Except.ok.injEq] at h
        subst h
        simp

theorem run_length (env : Env) (lines : List Str) :
    ∀ st st1, run env st lines = .ok st1 →
      st1.configs.length = st.configs.length + serverLinesRead env st lines := by
  induction lines with
  | nil =>
    intro st st1 h
    simp only [run, pure, Except.pure, Except.ok.injEq] at h
    subst h
    rfl
  | cons l lines ih =>
    intro st st1 h
    rw [run_cons] at h
    cases hs : step env st l with
    | error e => simp [hs, bind, Except.bind] at h
    | ok s =>
      simp only [hs, bind, Except.bind] at h
      have h1 := (step_shape env st s l hs).1
      have h2 := ih s st1 h
      simp only [serverLinesRead, hs]
      omega

theorem step_closedBlock (env : Env) (st st1 : PState) (raw : Str) (i : Nat)
    (h : step env st raw = .ok st1) (hc : closedBlock i st) :
    closedBlock i st1 ∧ st1.configs[i]? = st.configs[i]? := by
  obtain ⟨hlt, hcur⟩ := hc
  obtain ⟨hlen, hshape⟩ := step_shape env st st1 raw h
  have hg : st.configs[i]? = some st.configs[i] := by simp [hlt]
  obtain ⟨c1, hc1, hcases⟩ := step_config_cases env st st1 raw h i _ hg
  refine ⟨⟨by omega, fun j hj => ?_⟩, ?_⟩
  · rcases hshape with e | e | ⟨e, _⟩
    · exact hcur j (e ▸ hj)
    · rw [e] at hj; exact absurd hj (by simp)
    · rw [e] at hj
      simp only [Option.some.injEq] at hj
      omega
  · rcases hcases with rfl | ⟨hci, _⟩
    · rw [hc1, hg]
    · exact absurd (hcur i hci) (lt_irrefl i)

theorem run_closedBlock (env : Env) (lines : List Str) (i : Nat) :
    ∀ st st1, run env st lines = .ok st1 → closedBlock i st →
      closedBlock i st1 ∧ st1.configs[i]? = st.configs[i]? := by
  induction lines with
  | nil =>
    intro st st1 h hc
    simp only [run, pure, Except.pure, Except.ok.injEq] at h
    subst h
    exact ⟨hc, rfl⟩
  | cons l lines ih =>
    intro st st1 h hc
    rw [run_cons] at h
    cases hs : step env st l with
    | error e => simp [hs, bind, Except.bind] at h
    | ok s =>
      simp only [hs, bind, Except.bind] at h
      obtain ⟨hc1, he1⟩ := step_closedBlock env st s l i hs hc
      obtain ⟨hc2, he2⟩ := ih s st1 h hc1
      exact ⟨hc2, he2.trans he1⟩

theorem finish_closedBlock (st st1 : PState) (i : Nat) (h : finish st = .ok st1)
    (hc : closedBlock i st) : st1.configs[i]? = st.configs[i]? := by
  obtain ⟨hlt, hcur⟩ := hc
  have hg : st.configs[i]? = some st.configs[i] := by simp [hlt]
  obtain ⟨c1, hc1, hcases⟩ := finish_config_cases st st1 h i _ hg
  rcases hcases with rfl | ⟨hci, _⟩
  · rw [hc1, hg]
  · exact absurd (hcur i hci) (lt_irrefl i)


theorem step_server_line (env : Env) (st : PState) (raw : Str) (hr : st.currentRoute = none)
    (h : trim raw = "server \x7b".toList) :
    step env st raw = .ok ⟨st.configs ++ [env.newConfig], some st.configs.length, none⟩ := by
  simp only [step, hr, h]
  rfl

/-! ## Configurations before the ones being parsed -/

theorem getElem?_append_add {α : Type} (cs l : List α) (i : Nat) :
    (cs ++ l)[i + cs.length]? = l[i]? := by
  rw [List.getElem?_append_right (by omega)]
  simp

theorem set_append_add {α : Type} (cs l : List α) (i : Nat) (x : α) :
    (cs ++ l).set (i + cs.length) x = cs ++ l.set i x := by
  induction cs with
  | nil => simp
  | cons c cs ih =>
    simp only [List.cons_append, List.length_cons]
    rw [show i + (cs.length + 1) = (i + cs.length) + 1 by omega, List.set_cons_succ, ih]

theorem closeLocation_shift (cs : List Config) (st : PState) (route : Route) :
    closeLocation (st.shift cs) route = (closeLocation st route).map (PState.shift cs) := by
  obtain ⟨configs, cur, croute⟩ := st
  cases cur with
  | none => rfl
  | some i =>
    simp only [closeLocation, PState.shift, Option.map_some', getElem?_append_add]
    cases hg : configs[i]? with
    | none => rfl
    | some config =>
      simp only [set_append_add, pure, Except.pure, Except.map]
      rfl

theorem step_shift (env : Env) (cs : List Config) (st : PState) (raw : Str) :
    step env (st.shift cs) raw = (step env st raw).map (PState.shift cs) := by
  obtain ⟨configs, cur, croute⟩ := st
  cases croute with
  | some route =>
    cases hp : parseLocationLine env route raw with
    | some r1 => simp only [step, PState.shift, hp]; rfl
    | none =>
      have := closeLocation_shift cs ⟨configs, cur, some route⟩ route
      simp only [step, PState.shift, hp] at this ⊢
      exact this
  | none =>
    simp only [step, PState.shift]
    by_cases h1 : ((trim raw).isEmpty || decide ((trim raw).head? = some '#')) = true
    · simp only [h1, if_true]; rfl
    simp only [h1, Bool.false_eq_true, if_false]
    by_cases h2 : trim raw = "server \x7b".toList
    · simp only [h2, if_true, pure, Except.pure, Except.map, PState.shift, Option.map_some',
        List.append_assoc, List.length_append, Nat.add_comm]
    simp only [h2, if_false]
    by_cases h3 : trim raw = "\x7d".toList
    · simp only [h3, if_true]; rfl
    simp only [h3, if_false]
    cases cur with
    | none => rfl
    | some i =>
      simp only [Option.map_some', getElem?_append_add]
      cases hg : configs[i]? with
      | none => rfl
      | some config =>
        simp only []
        by_cases hl : find (trim raw) "location".toList = some 0
        · simp only [hl, if_true, parseLocationPath_ok _ hl, bind, Except.bind, pure,
            Except.pure, Except.map, Option.map_some']
          rfl
        · obtain ⟨c1, hcfg⟩ := parseServerDirective_other env config (trim raw) hl
          simp only [hl, if_false, hcfg [], bind, Except.bind, pure, Except.pure, Except.map,
            set_append_add, Option.map_some']
          rfl

theorem run_shift (env : Env) (cs : List Config) (lines : List Str) :
    ∀ st, run env (PState.shift cs st) lines = (run env st lines).map (PState.shift cs) := by
  induction lines with
  | nil => intro st; rfl
  | cons l lines ih =>
    intro st
    rw [run_cons, run_cons, step_shift]
    cases step env st l with
    | error e => rfl
    | ok s => simpa [bind, Except.bind, Except.map] using ih s

theorem finish_shift (cs : List Config) (st : PState) :
    finish (st.shift cs) = (finish st).map (PState.shift cs) := by
  obtain ⟨configs, cur, croute⟩ := st
  cases croute with
  | none => rfl
  | some route =>
    have := closeLocation_shift cs ⟨configs, cur, some route⟩ route
    simp only [finish, PState.shift] at this ⊢
    exact this

/-! ## The routes of a server block -/

theorem parseLocationLine_close (env : Env) (route : Route) (raw : Str)
    (h : trim raw = "\x7d".toList) : parseLocationLine env route raw = none := by
  simp only [parseLocationLine, h]
  rfl

/-- A line of server scope that is neither `server {` nor `}` and does not
begin with `location` leaves the routes of the open configuration as they
are, and the parser at server scope. -/
theorem step_plain_line (env : Env) (configs : List Config) (raw : Str) (i : Nat) (c : Config)
    (hg : configs[i]? = some c)
    (h2 : trim raw ≠ "server \x7b".toList) (h3 : trim raw ≠ "\x7d".toList)
    (hl : find (trim raw) "location".toList ≠ some 0) :
    ∃ c1, step env ⟨configs, some i, none⟩ raw = .ok ⟨configs.set i c1, some i, none⟩ ∧
      c1.routes = c.routes := by
  by_cases h1 : ((trim raw).isEmpty || decide ((trim raw).head? = some '#')) = true
  · refine ⟨c, ?_, rfl⟩
    rw [set_getElem?_self _ _ _ hg]
    simp only [step, h1, if_true]
    rfl
  · rw [Bool.not_eq_true] at h1
    obtain ⟨c1, hcfg, hstep⟩ := step_server_directive env ⟨configs, some i, none⟩ raw i c rfl rfl
      hg h1 h2 h3 hl
    exact ⟨c1, hstep, (parseServerDirective_frame env c c1 [] [] _ (hcfg [])).2.2.2.2.2.2.2 hl⟩

/-- The lines of an item bring the parser back to server scope of the same
configuration, whose routes gain the route of the item, if it is a location
block. -/
theorem run_item (env : Env) (item : BlockItem) (configs : List Config) (i : Nat) (c : Config)
    (hg : configs[i]? = some c) (hw : item.wellFormed) :
    ∃ c1, run env ⟨configs, some i, none⟩ item.lines = .ok ⟨configs.set i c1, some i, none⟩ ∧
      c1.routes.map Route.path = c.routes.map Route.path ++ item.paths := by
  have hlt : i < configs.length := getElem?_lt_of_eq_some _ _ _ hg
  cases item with
  | line l =>
    obtain ⟨h2, h3, hl⟩ := hw
    obtain ⟨c1, hstep, hroutes⟩ := step_plain_line env configs l i c hg h2 h3 hl
    refine ⟨c1, ?_, ?_⟩
    · simp only [BlockItem.lines, run_cons, hstep, bind, Except.bind, run]
      rfl
    · simp [hroutes, BlockItem.paths]
  | location loc body close =>
    obtain ⟨hloc, hbody, hclose⟩ := hw
    obtain ⟨path, hpath, hstep⟩ := step_location env ⟨configs, some i, none⟩ loc i
      ⟨rfl, rfl, hlt⟩ hloc
    have hbodyrun := run_location_body env body
      ⟨configs, some i, some (env.newRoute.setPath path)⟩ _ rfl hbody
    have hcl : step env ⟨configs, some i, some (routeAfter env (env.newRoute.setPath path) body)⟩
        close = .ok ⟨configs.set i
          (c.addRoute (routeAfter env (env.newRoute.setPath path) body)), some i, none⟩ := by
      simp only [step, parseLocationLine_close env _ close hclose, closeLocation, hg,
        pure, Except.pure]
    refine ⟨c.addRoute (routeAfter env (env.newRoute.setPath path) body), ?_, ?_⟩
    · dsimp only at hstep hbodyrun
      show run env _ (loc :: (body ++ [close])) = _
      rw [run_cons, hstep]
      simp only [bind, Except.bind]
      rw [run_append, hbodyrun]
      simp only [bind, Except.bind, run_cons, hcl, run]
      rfl
    · simp [Config.addRoute, BlockItem.paths, hpath, routeAfter_path, Route.setPath]

theorem run_items (env : Env) (items : List BlockItem) (i : Nat) :
    ∀ (configs : List Config) (c : Config), configs[i]? = some c →
      (∀ item ∈ items, item.wellFormed) →
      ∃ configs1 c1, run env ⟨configs, some i, none⟩ (blockLines items) =
          .ok ⟨configs1, some i, none⟩ ∧
        configs1[i]? = some c1 ∧ configs1.length = configs.length ∧
        c1.routes.map Route.path = c.routes.map Route.path ++ blockPaths items := by
  induction items with
  | nil =>
    intro configs c hg _
    exact ⟨configs, c, rfl, hg, rfl, by simp [blockPaths]⟩
  | cons item items ih =>
    intro configs c hg hw
    have hlt : i < configs.length := getElem?_lt_of_eq_some _ _ _ hg
    obtain ⟨c1, hr1, hp1⟩ := run_item env item configs i c hg (hw item (by simp))
    obtain ⟨configs2, c2, hr2, hg2, hlen2, hp2⟩ := ih (configs.set i c1) c1 (by simp [hlt])
      (fun it hit => hw it (by simp [hit]))
    refine ⟨configs2, c2, ?_, hg2, by simpa using hlen2, ?_⟩
    · simp only [blockLines, List.map_cons, List.flatten_cons] at hr2 ⊢
      rw [run_append, hr1]
      exact hr2
    · rw [hp2, hp1]
      simp [blockPaths]


theorem step_close_line (env : Env) (configs : List Config) (cur : Option Nat) (raw : Str)
    (h : trim raw = "\x7d".toList) :
    step env ⟨configs, cur, none⟩ raw = .ok ⟨configs, none, none⟩ := by
  simp only [step, h]
  rfl

/-- The result of the file once the parser has left the server block `i`. -/
theorem parse_after_close (env : Env) (pre rest : List Str) (configs : List Config) (i : Nat)
    (c : Config) (hrun : run env PState.init pre = .ok ⟨configs, none, none⟩)
    (hg : configs[i]? = some c) :
    ∃ configs1, parseConfigFile env (some (pre ++ rest)) = .ok configs1 ∧
      configs1[i]? = some c := by
  have hclosed : closedBlock i ⟨configs, none, none⟩ :=
    ⟨getElem?_lt_of_eq_some _ _ _ hg, fun j hj => by simp at hj⟩
  obtain ⟨s2, hs2, hw2⟩ := run_ok env rest _ (run_wf env _ _ _ wf_init hrun)
  obtain ⟨s3, hs3, _⟩ := finish_ok s2 hw2
  obtain ⟨hc2, he2⟩ := run_closedBlock env rest i _ s2 hs2 hclosed
  have he3 := finish_closedBlock s2 s3 i hs3 hc2
  refine ⟨s3.configs, ?_, ?_⟩
  · rw [parseConfigFile_eq_run, run_append, hrun]
    simp only [bind, Except.bind, hs2, hs3, Except.map]
  · rw [he3, he2]
    exact hg

/-! ## Independence of the value of an unwritten `int` -/

/-- On a line with at least two tokens `iss >> key >> number >> text` stores
the same values whatever `number` held before. -/
theorem extract_value_indep (line : Str) (v w : Int) (h : 2 ≤ (tokens line).length) :
    (extractInt (extractString (IStringStream.new line) []).1 v).2 =
        (extractInt (extractString (IStringStream.new line) []).1 w).2 ∧
      (extractString (extractInt (extractString (IStringStream.new line) []).1 v).1 []).2 =
        (extractString (extractInt (extractString (IStringStream.new line) []).1 w).1 []).2 := by
  match ht : tokens line, h with
  | k :: t :: ts, _ =>
    have h1 := extract_key_int_string line k t ts v ht
    have h2 := extract_key_int_string line k t ts w ht
    rw [← h2] at h1
    simpa only [Prod.mk.injEq] using h1

theorem two_tokens_of_value (raw kw : Str) (h : numericWithoutValue raw = false)
    (hk : kw = "listen".toList ∨ kw = "client_max_body_size".toList ∨
      kw = "error_page".toList ∨ kw = "return".toList)
    (hf : find (trim raw) kw = some 0) : 2 ≤ (tokens (trim raw)).length := by
  rw [tokens_trim]
  simp only [numericWithoutValue, beginsWith, Bool.and_eq_false_imp, Bool.or_eq_true,
    decide_eq_true_eq, decide_eq_false_iff_not, not_lt] at h
  apply h
  rcases hk with rfl | rfl | rfl | rfl
  · exact Or.inl (Or.inl (Or.inl hf))
  · exact Or.inl (Or.inl (Or.inr hf))
  · exact Or.inl (Or.inr hf)
  · exact Or.inr hf

/-- The loop body of `parseLocation` does not depend on the indeterminate
value on a line that is not a numeric directive without a value. -/
theorem parseLocationLine_env (e1 e2 : Env) (route : Route) (raw : Str)
    (h : numericWithoutValue raw = false) :
    parseLocationLine e1 route raw = parseLocationLine e2 route raw := by
  by_cases hr : find (trim raw) "return".toList = some 0
  · have h2 := two_tokens_of_value raw _ h (Or.inr (Or.inr (Or.inr rfl))) hr
    obtain ⟨ha, hb⟩ := extract_value_indep (trim raw) e1.indeterminate e2.indeterminate h2
    simp only [parseLocationLine, hr, if_true, ha, hb]
  · simp only [parseLocationLine, hr, if_false]

/-- The same for `parseServerDirective` on a line that opens no location
block. -/
theorem parseServerDirective_env (e1 e2 : Env) (config : Config) (file : List Str) (raw : Str)
    (h : numericWithoutValue raw = false)
    (hl : find (trim raw) "location".toList ≠ some 0) :
    parseServerDirective e1 config file (trim raw) =
      parseServerDirective e2 config file (trim raw) := by
  by_cases h1 : find (trim raw) "listen".toList = some 0
  · have h2 := two_tokens_of_value raw _ h (Or.inl rfl) h1
    obtain ⟨ha, _⟩ := extract_value_indep (trim raw) e1.indeterminate e2.indeterminate h2
    simp only [parseServerDirective, h1, if_true, parseValueInt, ha]
  by_cases h3 : find (trim raw) "client_max_body_size".toList = some 0
  · have h2 := two_tokens_of_value raw _ h (Or.inr (Or.inl rfl)) h3
    obtain ⟨ha, _⟩ := extract_value_indep (trim raw) e1.indeterminate e2.indeterminate h2
    simp only [parseServerDirective, h3, if_true, parseValueInt, ha]
  by_cases h4 : find (trim raw) "error_page".toList = some 0
  · have h2 := two_tokens_of_value raw _ h (Or.inr (Or.inr (Or.inl rfl))) h4
    obtain ⟨ha, hb⟩ := extract_value_indep (trim raw) e1.indeterminate e2.indeterminate h2
    simp only [parseServerDirective, h1, h3, h4, if_true, if_false, ha, hb]
  simp only [parseServerDirective, h1, h3, h4, hl, if_false]

/-- One line read in two environments with the same defaults. -/
theorem step_env (e1 e2 : Env) (hd : e1.sameDefaults e2) (st : PState) (raw : Str)
    (h : numericWithoutValue raw = false) : step e1 st raw = step e2 st raw := by
  obtain ⟨configs, cur, croute⟩ := st
  cases croute with
  | some route => simp only [step, parseLocationLine_env e1 e2 route raw h]
  | none =>
    simp only [step, hd.1, hd.2]
    by_cases hl : find (trim raw) "location".toList = some 0
    · simp only [hl, if_true]
    · simp only [hl, if_false, parseServerDirective_env e1 e2 _ [] raw h hl]

theorem run_env (e1 e2 : Env) (hd : e1.sameDefaults e2) (lines : List Str) :
    ∀ st, (∀ l ∈ lines, numericWithoutValue l = false) → run e1 st lines = run e2 st lines := by
  induction lines with
  | nil => intro st _; rfl
  | cons l lines ih =>
    intro st h
    rw [run_cons, run_cons, step_env e1 e2 hd st l (h l (List.mem_cons_self _ _))]
    cases step e2 st l with
    | error e => rfl
    | ok s =>
      simp only [bind, Except.bind]
      exact ih s (fun x hx => h x (List.mem_cons_of_mem _ hx))

/-- A file without a numeric directive that lacks its value parses to the
same configurations in two environments with the same defaults. -/
theorem parseConfigFile_env (e1 e2 : Env) (hd : e1.sameDefaults e2) (lines : List Str)
    (h : ∀ l ∈ lines, numericWithoutValue l = false) :
    parseConfigFile e1 (some lines) = parseConfigFile e2 (some lines) := by
  rw [parseConfigFile_eq_run, parseConfigFile_eq_run, run_env e1 e2 hd lines _ h]

/-- After lines that leave the parser outside every block, the configurations
read so far stay as they are at the beginning of the vector. -/
theorem run_after_outside (env : Env) (s1 : PState) (hc : s1.currentConfig = none)
    (hr : s1.currentRoute = none) (lines : List Str) (s : PState)
    (h : run env PState.init lines = .ok s) :
    run env s1 lines = .ok (PState.shift s1.configs s) := by
  have hshift : s1 = PState.shift s1.configs PState.init := by
    obtain ⟨configs, cur, croute⟩ := s1
    simp only at hc hr
    simp [PState.shift, PState.init, hc, hr]
  have := run_shift env s1.configs lines PState.init
  rw [← hshift, h] at this
  exact this

/-! ## Error pages of the other codes -/

theorem filter_setErrorPage_other (config : Config) (c k : Int) (p : Str) (h : k ≠ c) :
    (config.setErrorPage c p).errorPages.filter (fun e => e.1 = k) =
      config.errorPages.filter (fun e => e.1 = k) := by
  have hck : ¬ c = k := fun e => h e.symm
  simp only [Config.setErrorPage, List.filter_cons, hck, decide_False, Bool.false_eq_true,
    if_false, List.filter_filter]
  apply List.filter_congr
  intro e _
  by_cases he : e.1 = k
  · simp [he, h]
  · simp [he]

/-- An `error_page` line with at least two tokens: the code and the path that
`parseServerDirective` passes to `setErrorPage`. -/
theorem parseServerDirective_error_page_any (env : Env) (config : Config) (file : List Str)
    (line k t : Str) (ts : List Str)
    (h : find line "error_page".toList = some 0) (htok : tokens line = k :: t :: ts) :
    parseServerDirective env config file line =
      .ok (config.setErrorPage (intThenString t (ts.headD [])).1
        (intThenString t (ts.headD [])).2, file) := by
  have hex := extract_key_int_string line k t ts env.indeterminate htok
  simp only [Prod.ext_iff] at hex
  have hx := fun kw h1 h2 => find_exclusive line "error_page".toList kw h h1 h2
  have e1 := hx "listen".toList (by decide) (by decide)
  have e2 := hx "server_name".toList (by decide) (by decide)
  have e3 := hx "root".toList (by decide) (by decide)
  have e4 := hx "client_max_body_size".toList (by decide) (by decide)
  have e5 := hx "index".toList (by decide) (by decide)
  simp only [parseServerDirective, e1, e2, e3, e4, e5, h, false_and, if_false, if_true,
    hex.1, hex.2]
  rfl

/-- A directive of server scope on a line that does not set the error page of
the code `k` leaves the entries of `k` as they are. -/
theorem errorPages_kept (env : Env) (c c1 : Config) (raw : Str) (k : Int)
    (hno : ¬ setsErrorCode raw k)
    (hp : parseServerDirective env c [] (trim raw) = .ok (c1, [])) :
    c1.errorPages.filter (fun e => e.1 = k) = c.errorPages.filter (fun e => e.1 = k) := by
  by_cases he : find (trim raw) "error_page".toList = some 0
  · match ht : tokens raw with
    | [] => exact absurd ⟨he, by simp only [ht]⟩ hno
    | [_] => exact absurd ⟨he, by simp only [ht]⟩ hno
    | k0 :: t :: ts =>
      have hne : (intThenString t (ts.headD [])).1 ≠ k := by
        intro hk
        exact hno ⟨he, by simp only [ht]; exact hk⟩
      rw [parseServerDirective_error_page_any env c [] (trim raw) k0 t ts he
        (by rw [tokens_trim]; exact ht)] at hp
      simp only [Except.ok.injEq, Prod.mk.injEq, and_true] at hp
      rw [← hp]
      exact filter_setErrorPage_other c _ k _ (fun e => hne e.symm)
  · rw [errorPages_frame env c c1 (trim raw) he hp]

theorem errorPage_eq_filter (c : Config) (k : Int) :
    c.errorPage k = ((c.errorPages.filter (fun e => e.1 = k)).head?).map Prod.snd := by
  simp only [Config.errorPage]
  congr 1
  induction c.errorPages with
  | nil => rfl
  | cons e l ih =>
    by_cases he : e.1 = k
    · rw [List.find?_cons_of_pos _ (by simpa using he),
        List.filter_cons_of_pos (by simpa using he)]
      rfl
    · rw [List.find?_cons_of_neg _ (by simpa using he),
        List.filter_cons_of_neg (by simpa using he)]
      exact ih

/-- A property of the configuration `i` that the directives of the lines
satisfying `good` and the appending of a route preserve holds after the lines
`post` when it holds before them and every line of `post` read at server scope
of that configuration satisfies `good`. -/
theorem run_kept (P : Config → Prop) (good : Str → Prop)
    (hdir : ∀ env c c1 raw, good raw →
      parseServerDirective env c [] (trim raw) = .ok (c1, []) → P c → P c1)
    (hadd : ∀ c r, P c → P (Config.addRoute c r)) (env : Env) (i : Nat) :
    ∀ (post : List Str) (st : PState), st.wf →
      (∃ c, st.configs[i]? = some c ∧ P c) →
      (∀ k (hk : k < post.length) s, run env st (post.take k) = .ok s → s.inServer i →
        good post[k]) →
      ∃ st1, run env st post = .ok st1 ∧ ∃ c, st1.configs[i]? = some c ∧ P c := by
  intro post
  induction post with
  | nil => intro st _ hc _; exact ⟨st, rfl, hc⟩
  | cons l post ih =>
    intro st hw ⟨c, hc, hv⟩ hno
    obtain ⟨s1, hs1, hw1⟩ := step_ok env st l hw
    obtain ⟨c1, hc1, hcases⟩ := step_config_cases env st s1 l hs1 i c hc
    have hv1 : P c1 := by
      rcases hcases with rfl | ⟨hcur, ⟨r, _, _, rfl⟩ | ⟨hroute, _, hd⟩⟩
      · exact hv
      · exact hadd _ _ hv
      · have hnl := hno 0 (by simp) st rfl ⟨hcur, hroute, getElem?_lt_of_eq_some _ _ _ hc⟩
        exact hdir env c c1 l hnl (hd []) hv
    obtain ⟨s2, hs2, hres⟩ := ih s1 hw1 ⟨c1, hc1, hv1⟩ (by
      intro k hk s hrun hin
      refine hno (k + 1) (by simp; omega) s ?_ hin
      rw [List.take_succ_cons, run_cons, hs1]; exact hrun)
    exact ⟨s2, by rw [run_cons, hs1]; exact hs2, hres⟩

/-- The same for the lines `post` that follow the lines `pre` of a file. -/
theorem run_kept_init (P : Config → Prop) (good : Str → Prop)
    (hdir : ∀ env c c1 raw, good raw →
      parseServerDirective env c [] (trim raw) = .ok (c1, []) → P c → P c1)
    (hadd : ∀ c r, P c → P (Config.addRoute c r)) (env : Env) (i : Nat)
    (pre post : List Str) (st : PState) (hrun : run env PState.init pre = .ok st)
    (hv : ∃ c, st.configs[i]? = some c ∧ P c)
    (hpost : ∀ k (hk : k < post.length), serverScopeAfter env (pre ++ post.take k) i = true →
      good post[k]) :
    ∃ st1, run env PState.init (pre ++ post) = .ok st1 ∧
      ∃ c, st1.configs[i]? = some c ∧ P c := by
  have hw := run_wf env _ _ _ wf_init hrun
  obtain ⟨s3, hs3, hres⟩ := run_kept P good hdir hadd env i post st hw hv (by
    intro k hk s hr hin
    apply hpost k hk
    rw [serverScopeAfter_iff]
    exact ⟨s, by rw [run_append, hrun]; exact hr, hin⟩)
  exact ⟨s3, by rw [run_append, hrun]; exact hs3, hres⟩

/-- The same at the end of the file. -/
theorem parseConfigFile_kept (P : Config → Prop) (good : Str → Prop)
    (hdir : ∀ env c c1 raw, good raw →
      parseServerDirective env c [] (trim raw) = .ok (c1, []) → P c → P c1)
    (hadd : ∀ c r, P c → P (Config.addRoute c r)) (env : Env) (i : Nat)
    (pre post : List Str) (st : PState) (hrun : run env PState.init pre = .ok st)
    (hv : ∃ c, st.configs[i]? = some c ∧ P c)
    (hpost : ∀ k (hk : k < post.length), serverScopeAfter env (pre ++ post.take k) i = true →
      good post[k]) :
    ∃ configs c, parseConfigFile env (some (pre ++ post)) = .ok configs ∧
      configs[i]? = some c ∧ P c := by
  obtain ⟨s3, hs3, c3, hc3, hp3⟩ :=
    run_kept_init P good hdir hadd env i pre post st hrun hv hpost
  obtain ⟨s4, hs4, _⟩ := finish_ok s3 (run_wf env _ _ _ wf_init hs3)
  obtain ⟨c4, hc4, hcases⟩ := finish_config_cases s3 s4 hs4 i c3 hc3
  refine ⟨s4.configs, c4, ?_, hc4, ?_⟩
  · rw [parseConfigFile_eq_run, hs3]
    simp only [bind, Except.bind, hs4, Except.map]
  · rcases hcases with rfl | ⟨_, r, _, rfl⟩
    · exact hp3
    · exact hadd _ _ hp3

/-! ## Tokens that are decimal integers -/

theorem tokens_ne_nil (s t : Str) (h : t ∈ tokens s) : t ≠ [] := by
  simp only [tokens, List.mem_filter, Bool.not_eq_true', List.isEmpty_eq_false] at h
  exact h.2

theorem isDigits_iff (ds : Str) :
    isDigits ds = true ↔ ds.takeWhile Char.isDigit ≠ [] ∧ ds.dropWhile Char.isDigit = [] := by
  simp only [isDigits, Bool.and_eq_true, Bool.not_eq_true', List.isEmpty_eq_false,
    List.all_eq_true, List.dropWhile_eq_nil_iff]
  constructor
  · rintro ⟨hne, hall⟩
    refine ⟨?_, hall⟩
    rw [List.takeWhile_eq_self_iff.mpr hall]
    exact hne
  · rintro ⟨hne, hall⟩
    refine ⟨?_, hall⟩
    intro e
    rw [e] at hne
    exact hne rfl

theorem readSign_other (c : Char) (l : Str) (h1 : c ≠ '-') (h2 : c ≠ '+') :
    readSign (c :: l) = (false, c :: l) := by
  unfold readSign
  split
  · rename_i heq; simp only [List.cons.injEq] at heq; exact absurd heq.1 h1
  · rename_i heq; simp only [List.cons.injEq] at heq; exact absurd heq.1 h2
  · rfl

/-- `decimalInt` in terms of the sign and the characters that `operator>>`
reads. -/
theorem decimalInt_eq (t : Str) :
    decimalInt t =
      if isDigits (readSign t).2 then
        some (if (readSign t).1 then -(digitsValue (readSign t).2 : Int)
          else (digitsValue (readSign t).2 : Int))
      else none := by
  cases t with
  | nil => rfl
  | cons c l =>
    by_cases h1 : c = '-'
    · subst h1
      simp only [decimalInt, readSign, if_true]
    · by_cases h2 : c = '+'
      · subst h2
        simp only [decimalInt, readSign, Bool.false_eq_true, if_false]
      · rw [readSign_other c l h1 h2]
        unfold decimalInt
        split
        · rename_i heq; simp only [List.cons.injEq] at heq; exact absurd heq.1 h1
        · rename_i heq; simp only [List.cons.injEq] at heq; exact absurd heq.1 h2
        · simp only [Bool.false_eq_true, if_false]

/-- A token is a decimal integer exactly when the integer that `operator>>`
reads at its beginning is the whole token. -/
theorem decimalInt_iff (t : Str) (v : Int) :
    decimalInt t = some v ↔ intDigits t ≠ [] ∧ intTail t = [] ∧ intValue t = v := by
  rw [decimalInt_eq]
  by_cases hd : isDigits (readSign t).2 = true
  · have hd' := (isDigits_iff _).mp hd
    have htk : (readSign t).2.takeWhile Char.isDigit = (readSign t).2 :=
      List.takeWhile_eq_self_iff.mpr (List.dropWhile_eq_nil_iff.mp hd'.2)
    simp only [hd, if_true, Option.some.injEq, intDigits, intTail, intValue, htk]
    constructor
    · intro h
      exact ⟨by rw [← htk]; exact hd'.1, hd'.2, h⟩
    · intro h
      exact h.2.2
  · simp only [hd, Bool.false_eq_true, if_false]
    constructor
    · intro h; cases h
    · rintro ⟨h1, h2, _⟩
      exact absurd ((isDigits_iff _).mpr ⟨h1, h2⟩) hd

/-! ## The properties of the specification -/

/-- C1: on the eight-line example of section 8 the parser returns one
configuration with port 8080, name `example.com` and root `/var/www`, whose
route sequence gains one route with path `/static` and index file
`static.html`; the line `allow_methods GET HEAD`, read inside the location
block, is ignored: the route and the configuration keep the allowed methods
they were constructed with. -/
theorem exampleInput_result (env : Env) :
    parseConfigFile env (some exampleInput) =
      .ok [ { env.newConfig with
              port := 8080
              name := "example.com".toList
              rootDir := "/var/www".toList
              routes := env.newConfig.routes ++
                [ { env.newRoute with
                    path := "/static".toList
                    indexFile := "static.html".toList
                    allowedMethods := env.newRoute.allowedMethods } ] } ] := by
  rfl

/-- C2: `parseConfigFile` raises `OpenError` when the file cannot be opened,
and for every sequence of lines of an opened file it terminates and returns a
sequence of configurations, without any error: it raises an error if and only
if the file cannot be opened. (The `substr` call of `trim` is within range on
every line, and the fuel of the model is never exhausted.) -/
theorem parseConfigFile_error_iff_not_opened (env : Env) :
    parseConfigFile env none = .error .openError ∧
    (∀ lines : List Str, ∃ configs, parseConfigFile env (some lines) = .ok configs) ∧
    (∀ file, (∃ e, parseConfigFile env file = .error e) ↔ file = none) ∧
    ∀ line, trimChecked line = .ok (trim line) := by
  have hok : ∀ lines : List Str, ∃ configs, parseConfigFile env (some lines) = .ok configs := by
    intro lines
    obtain ⟨s1, hs1, hw1⟩ := run_ok env lines PState.init wf_init
    obtain ⟨s2, hs2, _⟩ := finish_ok s1 hw1
    exact ⟨s2.configs,
      by simp [parseConfigFile_eq_run, hs1, hs2, bind, Except.bind, Except.map]⟩
  refine ⟨rfl, hok, fun file => ?_, trimChecked_eq⟩
  cases file with
  | none => exact ⟨fun _ => rfl, fun _ => ⟨_, rfl⟩⟩
  | some lines =>
    obtain ⟨configs, hc⟩ := hok lines
    constructor
    · rintro ⟨e, he⟩
      rw [hc] at he
      exact absurd he (by simp)
    · intro h
      exact absurd h (by simp)

theorem step_outside (env : Env) (raw : Str) (h : trim raw ≠ "server \x7b".toList) :
    step env PState.init raw = .ok PState.init := by
  simp only [step, PState.init, h, if_false]
  split_ifs <;> rfl

theorem run_outside (env : Env) (lines : List Str)
    (h : ∀ l ∈ lines, trim l ≠ "server \x7b".toList) :
    run env PState.init lines = .ok PState.init := by
  induction lines with
  | nil => rfl
  | cons raw file ih =>
    simp only [run, step_outside env raw (h raw (by simp)), bind, Except.bind]
    exact ih (fun l hl => h l (by simp [hl]))

/-- C3: an empty file yields no server block, and so does every input none of
whose lines is `server {` once spaces and tabs are trimmed. -/
theorem parseConfigFile_no_server (env : Env) :
    parseConfigFile env (some []) = .ok [] ∧
    ∀ lines : List Str, (∀ l ∈ lines, trim l ≠ "server \x7b".toList) →
      parseConfigFile env (some lines) = .ok [] := by
  refine ⟨rfl, fun lines h => ?_⟩
  rw [parseConfigFile_eq_run, run_outside env lines h]
  rfl

theorem parseConfigFile_no_server_witness :
    (∀ l ∈ ["listen 80".toList, "\x7d".toList, "  # server \x7b".toList, "server".toList],
        trim l ≠ "server \x7b".toList) ∧
      parseConfigFile Env.zero
        (some ["listen 80".toList, "\x7d".toList, "  # server \x7b".toList, "server".toList]) = .ok [] :=
  ⟨by decide, (parseConfigFile_no_server Env.zero).2 _ (by decide)⟩

/-- C4: last-write-wins for `listen`. In a file `pre ++ la :: mid ++ lb :: post`
where `la` and `lb` are `listen` lines with the valid values `a` and `b`, both
read at server scope of the server block `i`, and where no line of `post` read
at server scope of that block begins with `listen`, the parser returns a
configuration `i` whose port is `b`. -/
theorem listen_last_write_wins (env : Env) (pre mid post : List Str) (la lb : Str)
    (a b : Int) (i : Nat)
    (_hsa : serverScopeAfter env pre i = true) (_hla : listenLine la a)
    (hsb : serverScopeAfter env (pre ++ la :: mid) i = true) (hlb : listenLine lb b)
    (hpost : ∀ k (hk : k < post.length),
      serverScopeAfter env (pre ++ la :: mid ++ lb :: post.take k) i = true →
        find (trim post[k]) "listen".toList ≠ some 0) :
    ∃ configs c, parseConfigFile env (some (pre ++ la :: mid ++ lb :: post)) = .ok configs ∧
      configs[i]? = some c ∧ c.port = b := by
  obtain ⟨s1, hs1, hin1⟩ := (serverScopeAfter_iff env _ i).mp hsb
  obtain ⟨config, hcfg, hstep⟩ := step_listen env s1 lb i b hin1 hlb
  have hl : ∀ l, pre ++ la :: mid ++ lb :: l = (pre ++ la :: mid ++ [lb]) ++ l := by simp
  have hrun2 : run env PState.init (pre ++ la :: mid ++ [lb]) =
      .ok { s1 with configs := s1.configs.set i (config.setPort b) } := by
    have : pre ++ la :: mid ++ [lb] = (pre ++ la :: mid) ++ [lb] := by simp
    rw [this, run_append, hs1]
    simp only [bind, Except.bind, run_cons, hstep, run]
    rfl
  rw [hl]
  refine parseConfigFile_field Config.port "listen".toList
    (fun env c c1 line h hp => (parseServerDirective_frame env c c1 [] [] line hp).1 h)
    (fun _ _ => rfl) env i b _ post _ hrun2 ⟨config.setPort b, by simp [hin1.2.2], rfl⟩ ?_
  intro k hk
  rw [← hl]
  exact hpost k hk

theorem listen_last_write_wins_witness :
    ∃ configs c,
      parseConfigFile Env.zero
        (some (["# two servers".toList, "server \x7b".toList, "\x7d".toList, "server \x7b".toList] ++
          " listen 80".toList :: ["root /srv".toList, "location / \x7b".toList,
            "listen 1".toList, "\x7d".toList] ++
          "listen\t8080 default".toList :: ["location /a \x7b".toList, "listen 2".toList])) =
        .ok configs ∧ configs[1]? = some c ∧ c.port = 8080 :=
  listen_last_write_wins Env.zero
    ["# two servers".toList, "server \x7b".toList, "\x7d".toList, "server \x7b".toList]
    ["root /srv".toList, "location / \x7b".toList, "listen 1".toList, "\x7d".toList]
    ["location /a \x7b".toList, "listen 2".toList]
    " listen 80".toList "listen\t8080 default".toList 80 8080 1
    (by decide)
    ⟨by decide, "listen".toList, "80".toList, [], by decide, by decide, by decide, by decide⟩
    (by decide)
    ⟨by decide, "listen".toList, "8080".toList, ["default".toList], by decide, by decide,
      by decide, by decide⟩
    (by decide)

/-- C6: a location block left unclosed at the end of the file. When the
`location` line `loc` is read at server scope of the server block `i` and no
line of `body`, the rest of the file, is `}` once trimmed, the parser returns,
without error, the configurations as they were before `loc`, except that the
configuration `i` has one more route, its last one: the route with the path of
`loc` and the fields set by the route directives of `body`. -/
theorem unclosed_location_at_eof (env : Env) (pre body : List Str) (loc : Str) (i : Nat)
    (hs : serverScopeAfter env pre i = true)
    (hloc : find (trim loc) "location".toList = some 0)
    (hbody : ∀ l ∈ body, trim l ≠ "\x7d".toList) :
    ∃ st0 c0 path route,
      run env PState.init pre = .ok st0 ∧ st0.configs[i]? = some c0 ∧
      parseLocationPath (trim loc) = .ok path ∧
      route = routeAfter env (env.newRoute.setPath path) body ∧ route.path = path ∧
      parseLocation env c0 body (trim loc) = .ok (c0.addRoute route, []) ∧
      parseConfigFile env (some (pre ++ loc :: body)) =
        .ok (st0.configs.set i (c0.addRoute route)) ∧
      (c0.addRoute route).routes = c0.routes ++ [route] := by
  obtain ⟨s0, hs0, hin0⟩ := (serverScopeAfter_iff env _ i).mp hs
  obtain ⟨path, hpath, hstep⟩ := step_location env s0 loc i hin0 hloc
  have hlt : i < s0.configs.length := hin0.2.2
  have hg : s0.configs[i]? = some s0.configs[i] := by simp [hlt]
  refine ⟨s0, s0.configs[i], path, _, hs0, hg, hpath, rfl, routeAfter_path env body _, ?_, ?_,
    rfl⟩
  · simp only [parseLocation, hpath, bind, Except.bind, pure, Except.pure,
      parseLocationLoop_body env body _ hbody]
  · rw [parseConfigFile_eq_run, run_append, hs0]
    simp only [bind, Except.bind, run_cons, hstep]
    rw [run_location_body env body _ _ rfl hbody]
    simp only [finish, closeLocation, hin0.1, hg, pure, Except.pure, Except.map]

theorem unclosed_location_at_eof_witness :
    ∃ st0 c0 path route,
      run Env.zero PState.init ["server \x7b".toList, "listen 80".toList] = .ok st0 ∧
      st0.configs[0]? = some c0 ∧
      parseLocationPath (trim "  location /img \x7b".toList) = .ok path ∧
      route = routeAfter Env.zero (Env.zero.newRoute.setPath path)
        ["autoindex on".toList, "\x7d \x7d".toList, "return 301 /x".toList] ∧
      route.path = path ∧
      parseLocation Env.zero c0
        ["autoindex on".toList, "\x7d \x7d".toList, "return 301 /x".toList]
        (trim "  location /img \x7b".toList) = .ok (c0.addRoute route, []) ∧
      parseConfigFile Env.zero
        (some (["server \x7b".toList, "listen 80".toList] ++ "  location /img \x7b".toList ::
          ["autoindex on".toList, "\x7d \x7d".toList, "return 301 /x".toList])) =
        .ok (st0.configs.set 0 (c0.addRoute route)) ∧
      (c0.addRoute route).routes = c0.routes ++ [route] :=
  unclosed_location_at_eof Env.zero ["server \x7b".toList, "listen 80".toList]
    ["autoindex on".toList, "\x7d \x7d".toList, "return 301 /x".toList]
    "  location /img \x7b".toList 0 (by decide) (by decide) (by decide)

/-- C7: an unrecognized directive at server scope is a no-op. A line `l` read
at server scope of the server block `i` that, once trimmed, is not empty, not
a comment, neither `server {` nor `}`, and begins with none of the eight
keywords, is passed to `parseServerDirective`, which returns the configuration
and the file as they are, without error; the state of the parser after the
line is the state before it, and the file parses to what it parses to without
the line. -/
theorem unrecognized_directive_noop (env : Env) (pre post : List Str) (l : Str) (i : Nat)
    (hs : serverScopeAfter env pre i = true)
    (_h1 : trim l ≠ []) (_h2 : (trim l).head? ≠ some '#')
    (h3 : trim l ≠ "server \x7b".toList) (h4 : trim l ≠ "\x7d".toList)
    (h5 : ¬ isServerDirective (trim l)) :
    (∀ config file, parseServerDirective env config file (trim l) = .ok (config, file)) ∧
    (∃ st, run env PState.init pre = .ok st ∧ run env PState.init (pre ++ [l]) = .ok st) ∧
    parseConfigFile env (some (pre ++ l :: post)) = parseConfigFile env (some (pre ++ post)) := by
  obtain ⟨s0, hs0, hcur, hroute, hlt⟩ := (serverScopeAfter_iff env _ i).mp hs
  have hdir := fun config file => parseServerDirective_unrecognized env config file (trim l) h5
  have hg : s0.configs[i]? = some s0.configs[i] := by simp [hlt]
  have hloc : find (trim l) "location".toList ≠ some 0 := by
    simp only [isServerDirective, not_or] at h5
    exact h5.2.2.2.2.2.2.2
  have hstep : step env s0 l = .ok s0 := by
    obtain ⟨configs, cur, croute⟩ := s0
    simp only at hcur hroute hlt hg
    subst hcur hroute
    simp only [step, h3, h4, hg, hloc, hdir, if_false, bind, Except.bind, pure, Except.pure,
      set_getElem?_self _ _ _ hg]
    split_ifs <;> rfl
  refine ⟨hdir, ⟨s0, hs0, run_snoc env pre l _ _ hs0 hstep⟩, ?_⟩
  rw [parseConfigFile_eq_run, parseConfigFile_eq_run, run_append, run_append, hs0]
  simp only [bind, Except.bind, run_cons, hstep]

theorem unrecognized_directive_noop_witness :
    (∀ config file,
      parseServerDirective Env.zero config file (trim "\tfoo bar".toList) = .ok (config, file)) ∧
    (∃ st, run Env.zero PState.init ["server \x7b".toList, "listen 80".toList] = .ok st ∧
      run Env.zero PState.init (["server \x7b".toList, "listen 80".toList] ++
        ["\tfoo bar".toList]) = .ok st) ∧
    parseConfigFile Env.zero (some (["server \x7b".toList, "listen 80".toList] ++
        "\tfoo bar".toList :: ["root /srv".toList, "\x7d".toList])) =
      parseConfigFile Env.zero (some (["server \x7b".toList, "listen 80".toList] ++
        ["root /srv".toList, "\x7d".toList])) :=
  unrecognized_directive_noop Env.zero ["server \x7b".toList, "listen 80".toList]
    ["root /srv".toList, "\x7d".toList] "\tfoo bar".toList 0
    (by decide) (by decide) (by decide) (by decide) (by decide) (by decide)

/-- C9: `allow_methods` at server scope. On a line that begins with
`allow_methods` once trimmed, `parseServerDirective` returns, without error,
the configuration with its allowed methods replaced by the tokens of the line
after the first one, in order (none when the line has a single token), every
other field and the file being as they were; read at server scope of the
server block `i`, the line changes the configuration `i` in this way and
nothing else in the state of the parser. -/
theorem allow_methods_server_scope (env : Env) (raw : Str)
    (h : find (trim raw) "allow_methods".toList = some 0) :
    (∀ config file, parseServerDirective env config file (trim raw) =
      .ok ({ config with allowedMethods := (tokens raw).tail }, file)) ∧
    ∀ st i, st.inServer i →
      ∃ config, st.configs[i]? = some config ∧
        step env st raw = .ok { st with
          configs := st.configs.set i { config with allowedMethods := (tokens raw).tail } } := by
  have hdir : ∀ config file, parseServerDirective env config file (trim raw) =
      .ok ({ config with allowedMethods := (tokens raw).tail }, file) := by
    intro config file
    rw [parseServerDirective_allow_methods env config file _ h, tokens_trim]
  refine ⟨hdir, fun st i hs => ?_⟩
  obtain ⟨config, c, hg, hcfg, hstep⟩ := step_keyword env st raw "allow_methods".toList i hs h
    (by decide) (by decide) (by decide) (by decide) (by decide) (by decide)
  refine ⟨config, hg, ?_⟩
  have := hcfg []
  rw [hdir] at this
  simp only [Except.ok.injEq, Prod.mk.injEq, and_true] at this
  rw [hstep, ← this]

theorem allow_methods_server_scope_witness :
    (tokens " allow_methods GET  POST\tDELETE ".toList).tail =
        ["GET".toList, "POST".toList, "DELETE".toList] ∧
    (tokens "allow_methods".toList).tail = [] ∧
    ((∀ config file,
        parseServerDirective Env.zero config file (trim " allow_methods GET  POST\tDELETE ".toList) =
          .ok ({ config with
            allowedMethods := (tokens " allow_methods GET  POST\tDELETE ".toList).tail }, file)) ∧
      ∀ st i, st.inServer i →
        ∃ config, st.configs[i]? = some config ∧
          step Env.zero st " allow_methods GET  POST\tDELETE ".toList = .ok { st with
            configs := st.configs.set i { config with
              allowedMethods := (tokens " allow_methods GET  POST\tDELETE ".toList).tail } }) :=
  ⟨by decide, by decide,
    allow_methods_server_scope Env.zero " allow_methods GET  POST\tDELETE ".toList (by decide)⟩

/-- C10: `root` and `index` at route scope override only the route. A line
read inside a location block that begins with `root` (with `index`) once
trimmed sets the root directory (the index file) of the route under
construction to the second token of the line, the empty string when the line
has a single token, and changes nothing else in the state of the parser: the
configurations are as they were. When `parseLocation` returns, the
configuration differs from the one it was given by the appended route only. -/
theorem route_root_index_override_route_only (env : Env) (raw : Str) :
    (find (trim raw) "root".toList = some 0 →
      (∀ route, parseLocationLine env route raw =
        some { route with rootDir := (tokens raw).getD 1 [] }) ∧
      ∀ st route, st.currentRoute = some route →
        step env st raw =
          .ok { st with currentRoute := some { route with rootDir := (tokens raw).getD 1 [] } }) ∧
    (find (trim raw) "index".toList = some 0 →
      (∀ route, parseLocationLine env route raw =
        some { route with indexFile := (tokens raw).getD 1 [] }) ∧
      ∀ st route, st.currentRoute = some route →
        step env st raw =
          .ok { st with
            currentRoute := some { route with indexFile := (tokens raw).getD 1 [] } }) ∧
    ∀ config file oldLine c1 rest, parseLocation env config file oldLine = .ok (c1, rest) →
      ∃ route, c1 = { config with routes := config.routes ++ [route] } := by
  refine ⟨fun h => ⟨fun route => parseLocationLine_root env route raw h, fun st route hr =>
      step_in_location env st route _ raw hr (parseLocationLine_root env route raw h)⟩,
    fun h => ⟨fun route => parseLocationLine_index env route raw h, fun st route hr =>
      step_in_location env st route _ raw hr (parseLocationLine_index env route raw h)⟩,
    fun config file oldLine c1 rest hp => ?_⟩
  simp only [parseLocation, bind, Except.bind, pure, Except.pure] at hp
  cases hpath : parseLocationPath oldLine with
  | error e => simp [hpath] at hp
  | ok path =>
    simp only [hpath, Except.ok.injEq, Prod.mk.injEq] at hp
    exact ⟨_, hp.1.symm⟩

theorem route_root_index_override_route_only_witness :
    (tokens "\troot /var/www/img".toList).getD 1 [] = "/var/www/img".toList ∧
    (∀ route, parseLocationLine Env.zero route "\troot /var/www/img".toList =
      some { route with rootDir := (tokens "\troot /var/www/img".toList).getD 1 [] }) ∧
    (tokens "index  a.html b.html".toList).getD 1 [] = "a.html".toList ∧
    (∀ route, parseLocationLine Env.zero route "index  a.html b.html".toList =
      some { route with indexFile := (tokens "index  a.html b.html".toList).getD 1 [] }) :=
  ⟨by decide,
    ((route_root_index_override_route_only Env.zero "\troot /var/www/img".toList).1
      (by decide)).1,
    by decide,
    ((route_root_index_override_route_only Env.zero "index  a.html b.html".toList).2.1
      (by decide)).1⟩

/-- C14: inside a location block, a line that once trimmed begins with none of
`autoindex`, `return`, `root`, `index` and is not `}` is ignored: the route
under construction and the whole state of the parser, hence the enclosing
configuration with its allowed methods and its routes, are as they were, and
the loop of `parseLocation` goes on with the next line. Lines that begin with
`allow_methods` or `location`, and the line `server {`, are such lines. -/
theorem location_other_lines_ignored (env : Env) (raw : Str) :
    (¬ isRouteDirective (trim raw) → trim raw ≠ "\x7d".toList →
      (∀ route, parseLocationLine env route raw = some route) ∧
      (∀ route file,
        parseLocationLoop env route (raw :: file) = parseLocationLoop env route file) ∧
      ∀ st route, st.currentRoute = some route → step env st raw = .ok st) ∧
    ((find (trim raw) "allow_methods".toList = some 0 ∨
        find (trim raw) "location".toList = some 0 ∨ trim raw = "server \x7b".toList) →
      ¬ isRouteDirective (trim raw) ∧ trim raw ≠ "\x7d".toList) := by
  refine ⟨fun h hc => ?_, not_route_directive (trim raw)⟩
  have hl := fun route => parseLocationLine_other env route raw h hc
  refine ⟨hl, fun route file => by simp only [parseLocationLoop, hl], fun st route hr => ?_⟩
  rw [step_in_location env st route route raw hr (hl route), ← hr]

theorem location_other_lines_ignored_witness :
    ((∀ route, parseLocationLine Env.zero route "  allow_methods GET HEAD".toList = some route) ∧
      (∀ route file,
        parseLocationLoop Env.zero route ("  allow_methods GET HEAD".toList :: file) =
          parseLocationLoop Env.zero route file) ∧
      ∀ st route, st.currentRoute = some route →
        step Env.zero st "  allow_methods GET HEAD".toList = .ok st) ∧
    (¬ isRouteDirective (trim "server \x7b ".toList) ∧ trim "server \x7b ".toList ≠ "\x7d".toList) :=
  ⟨(location_other_lines_ignored Env.zero "  allow_methods GET HEAD".toList).1
      (by decide) (by decide),
    (location_other_lines_ignored Env.zero "server \x7b ".toList).2 (Or.inr (Or.inr (by decide)))⟩

/-- C15: `trim` removes exactly the longest run of spaces and tabs at each end.
Every string is its longest prefix of spaces and tabs, then its trimming, then
the longest suffix of spaces and tabs of what follows the prefix; the trimming
neither begins nor ends with a space or a tab, is empty exactly when the
string has no other character, and trimming twice is trimming once. -/
theorem trim_spec (s : Str) :
    s = s.takeWhile blank ++ trim s ++ (s.dropWhile blank).rtakeWhile blank ∧
    (∀ c ∈ s.takeWhile blank, c = ' ' ∨ c = '\t') ∧
    (∀ c ∈ (s.dropWhile blank).rtakeWhile blank, c = ' ' ∨ c = '\t') ∧
    (∀ c ∈ (trim s).head?, c ≠ ' ' ∧ c ≠ '\t') ∧
    (∀ c ∈ (trim s).getLast?, c ≠ ' ' ∧ c ≠ '\t') ∧
    (trim s = [] ↔ ∀ c ∈ s, c = ' ' ∨ c = '\t') ∧
    trim (trim s) = trim s := by
  have hb : ∀ c : Char, blank c = true ↔ (c = ' ' ∨ c = '\t') := by
    intro c
    rw [blank, show " \t".toList = [' ', '\t'] from rfl]
    simp only [List.contains_cons, List.contains_nil, Bool.or_false, Bool.or_eq_true,
      beq_iff_eq]
  have hnb : ∀ c : Char, blank c = false → c ≠ ' ' ∧ c ≠ '\t' := by
    intro c h
    have := (hb c).not
    simp only [h, Bool.false_eq_true, not_false_eq_true, not_or, true_iff] at this
    exact this
  have hhead : ∀ c ∈ (trim s).head?, blank c = false := by
    intro c hc
    rw [trim_eq] at hc
    by_cases hne : (s.dropWhile blank).rdropWhile blank = []
    · simp [hne] at hc
    · rw [head?_eq_of_initial _ _ (List.rdropWhile_prefix blank _) hne] at hc
      exact head?_dropWhile_blank s c hc
  have hlast : ∀ c ∈ (trim s).getLast?, blank c = false := by
    intro c hc
    rw [trim_eq] at hc
    exact getLast?_rdropWhile_blank _ c hc
  refine ⟨?_, fun c hc => (hb c).mp (List.mem_takeWhile_imp hc),
    fun c hc => (hb c).mp (List.mem_rtakeWhile_imp hc),
    fun c hc => hnb c (hhead c hc), fun c hc => hnb c (hlast c hc), ?_,
    trim_eq_self _ hhead hlast⟩
  · rw [trim_eq, List.append_assoc, rdropWhile_append_rtakeWhile,
      List.takeWhile_append_dropWhile]
  · rw [trim_eq, List.rdropWhile_eq_nil_iff]
    constructor
    · intro h c hc
      rw [← hb]
      rw [← List.takeWhile_append_dropWhile blank s] at hc
      rcases List.mem_append.mp hc with h1 | h1
      · exact List.mem_takeWhile_imp h1
      · exact h c h1
    · intro h c hc
      exact (hb c).mpr (h c ((List.dropWhile_suffix blank).subset hc))

/-- C17: the route checks of `parseServerDirective` are dead. `currentRoute` is
empty on every call, so the function equals, for every configuration, file
and line, the function without the conditions `!currentRoute` and without the
branch `if (currentRoute)`; a line that begins with `root`, `index` or
`allow_methods` sets the root directory, the default file or the allowed
methods of the configuration, and leaves its routes and the file as they
were. -/
theorem parseServerDirective_route_checks_dead (env : Env) (config : Config)
    (file : List Str) (line : Str) :
    parseServerDirective env config file line =
      parseServerDirectiveNoRoute env config file line ∧
    (find line "root".toList = some 0 →
      parseServerDirective env config file line =
        .ok ({ config with rootDir := (tokens line).getD 1 [] }, file)) ∧
    (find line "index".toList = some 0 →
      parseServerDirective env config file line =
        .ok ({ config with defaultFile := (tokens line).getD 1 [] }, file)) ∧
    (find line "allow_methods".toList = some 0 →
      parseServerDirective env config file line =
        .ok ({ config with allowedMethods := (tokens line).tail }, file)) := by
  refine ⟨?_, parseServerDirective_root env config file line,
    parseServerDirective_index env config file line,
    parseServerDirective_allow_methods env config file line⟩
  simp only [parseServerDirective, parseServerDirectiveNoRoute, Option.isNone_none, and_true]

theorem parseServerDirective_route_checks_dead_witness :
    (tokens "root /var/www".toList).getD 1 [] = "/var/www".toList ∧
    parseServerDirective Env.zero Env.zero.newConfig [] "root /var/www".toList =
      .ok ({ Env.zero.newConfig with rootDir := (tokens "root /var/www".toList).getD 1 [] }, []) ∧
    parseServerDirective Env.zero Env.zero.newConfig [] "index i.html".toList =
      .ok ({ Env.zero.newConfig with
        defaultFile := (tokens "index i.html".toList).getD 1 [] }, []) ∧
    parseServerDirective Env.zero Env.zero.newConfig [] "allow_methods GET".toList =
      .ok ({ Env.zero.newConfig with
        allowedMethods := (tokens "allow_methods GET".toList).tail }, []) :=
  ⟨by decide,
    (parseServerDirective_route_checks_dead Env.zero Env.zero.newConfig []
      "root /var/www".toList).2.1 (by decide),
    (parseServerDirective_route_checks_dead Env.zero Env.zero.newConfig []
      "index i.html".toList).2.2.1 (by decide),
    (parseServerDirective_route_checks_dead Env.zero Env.zero.newConfig []
      "allow_methods GET".toList).2.2.2 (by decide)⟩

/-- C16: the directive prefixes are mutually exclusive. A line begins with at
most one of the eight keywords of server scope, and passes at most one of the
tests of route scope (to begin with one of the four keywords, to be `}`);
hence `parseServerDirective` and the body of the loop of `parseLocation`
return what first-match dispatch returns on their tests in any order. -/
theorem directive_prefixes_exclusive (env : Env) (line : Str) :
    (∀ k1 ∈ serverKeywords, ∀ k2 ∈ serverKeywords,
      find line k1 = some 0 → find line k2 = some 0 → k1 = k2) ∧
    (∀ k1 ∈ routeKeywords, ∀ k2 ∈ routeKeywords,
      find line k1 = some 0 → find line k2 = some 0 → k1 = k2) ∧
    (line = "\x7d".toList → ∀ k ∈ routeKeywords, find line k ≠ some 0) ∧
    (∀ config file table, List.Perm table (serverTable env config file line) →
      parseServerDirective env config file line = dispatch table (pure (config, file)) line) ∧
    (∀ route raw table, trim raw = line → List.Perm table (routeTable env route line) →
      parseLocationLine env route raw = dispatch table (some route) line) := by
  refine ⟨fun k1 h1 k2 h2 f1 f2 => serverKeywords_exclusive line k1 k2 h1 h2 f1 f2,
    fun k1 h1 k2 h2 f1 f2 => routeKeywords_exclusive line k1 k2 h1 h2 f1 f2,
    fun hl k hk => hl ▸ routeKeywords_not_close k hk,
    fun config file table hp => ?_, fun route raw table ht hp => ?_⟩
  · rw [parseServerDirective_eq_dispatch]
    exact dispatch_perm _ _ _ _ hp.symm (serverTable_exclusive env config file line)
  · subst ht
    rw [parseLocationLine_eq_dispatch]
    exact dispatch_perm _ _ _ _ hp.symm (routeTable_exclusive env route (trim raw))

theorem directive_prefixes_exclusive_witness :
    parseServerDirective Env.zero Env.zero.newConfig [] "index i.html".toList =
        dispatch (serverTable Env.zero Env.zero.newConfig [] "index i.html".toList).reverse
          (pure (Env.zero.newConfig, [])) "index i.html".toList ∧
    parseLocationLine Env.zero Env.zero.newRoute " \x7d".toList =
        dispatch (routeTable Env.zero Env.zero.newRoute "\x7d".toList).reverse
          (some Env.zero.newRoute) "\x7d".toList :=
  ⟨(directive_prefixes_exclusive Env.zero "index i.html".toList).2.2.2.1 _ _ _
      (List.reverse_perm _),
    (directive_prefixes_exclusive Env.zero "\x7d".toList).2.2.2.2 _ " \x7d".toList _
      (by decide) (List.reverse_perm _)⟩

/-- C13: the path of a location. On a line made of the keyword `location`, a
text `mid` without opening brace, an opening brace and anything after it,
`parseLocationPath` returns `mid` with its leading and trailing spaces and
tabs removed, and `parseLocation` appends a route with that path. -/
theorem location_path_extraction (env : Env) (mid rest : Str) (hmid : '\x7b' ∉ mid)
    (hlen : ("location".toList ++ mid ++ '\x7b' :: rest).length < 2 ^ 64) :
    parseLocationPath ("location".toList ++ mid ++ '\x7b' :: rest) = .ok (trim mid) ∧
    trim mid = (mid.dropWhile blank).rdropWhile blank ∧
    ∀ config file, ∃ route remaining,
      parseLocation env config file ("location".toList ++ mid ++ '\x7b' :: rest) =
        .ok (config.addRoute route, remaining) ∧ route.path = trim mid := by
  have hfind : find ("location".toList ++ mid ++ '\x7b' :: rest) "location".toList = some 0 := by
    rw [find_eq_zero_iff, List.append_assoc]
    exact List.prefix_append _ _
  have hbrace : find ("location".toList ++ mid ++ '\x7b' :: rest) "\x7b".toList =
      some (8 + mid.length) := by
    have hnot : '\x7b' ∉ "location".toList ++ mid := by
      intro hm
      rcases List.mem_append.mp hm with h1 | h1
      · exact absurd h1 (by decide)
      · exact hmid h1
    have := find_char_append ("location".toList ++ mid) rest '\x7b' hnot
    rw [List.length_append] at this
    exact this
  have hpath : parseLocationPath ("location".toList ++ mid ++ '\x7b' :: rest) =
      .ok (trim mid) := by
    rw [parseLocationPath_ok _ hfind, hbrace]
    simp only [sizeT, substr]
    have hm : mid.length < 2 ^ 64 := by
      simp only [List.length_append, List.length_cons] at hlen
      omega
    have hn : (8 + mid.length + 2 ^ 64 - 8) % 2 ^ 64 = mid.length := by
      have : 8 + mid.length + 2 ^ 64 - 8 = mid.length + 2 ^ 64 := by omega
      rw [this, Nat.add_mod_right, Nat.mod_eq_of_lt hm]
    rw [hn, List.append_assoc]
    have hd : ("location".toList ++ (mid ++ '\x7b' :: rest)).drop 8 = mid ++ '\x7b' :: rest :=
      List.drop_left' rfl
    rw [hd, List.take_left]
  refine ⟨hpath, trim_eq mid, fun config file => ?_⟩
  simp only [parseLocation, hpath, bind, Except.bind, pure, Except.pure]
  exact ⟨_, _, rfl, parseLocationLoop_path env file _⟩

theorem location_path_extraction_witness :
    ("location".toList ++ " /static ".toList ++ '\x7b' :: [] = "location /static \x7b".toList ∧
      trim " /static ".toList = "/static".toList) ∧
    parseLocationPath ("location".toList ++ " /static ".toList ++ '\x7b' :: []) =
        .ok (trim " /static ".toList) ∧
    trim " /static ".toList = (" /static ".toList.dropWhile blank).rdropWhile blank ∧
    ∀ config file, ∃ route remaining,
      parseLocation Env.zero config file
          ("location".toList ++ " /static ".toList ++ '\x7b' :: []) =
        .ok (config.addRoute route, remaining) ∧ route.path = trim " /static ".toList :=
  ⟨by decide, location_path_extraction Env.zero " /static ".toList [] (by decide) (by decide)⟩

/-- C20: `parseLocationPath` is safe on every line that begins with
`location`. The start index 8 is within the line, an opening brace is found at
an index of at least 8, `substr` is within range whatever the length asked,
and the function returns a path; on a line without opening brace it returns
what follows the keyword, trimmed. -/
theorem parseLocationPath_safe (line : Str) (h : find line "location".toList = some 0) :
    8 ≤ line.length ∧
    (∀ e, find line "\x7b".toList = some e → 8 ≤ e ∧ e < line.length) ∧
    (∀ n, substrChecked line 8 n = .ok (substr line 8 n)) ∧
    (∃ path, parseLocationPath line = .ok path) ∧
    ('\x7b' ∉ line → line.length < 2 ^ 64 →
      parseLocationPath line = .ok (trim (line.drop 8))) := by
  have hlen : 8 ≤ line.length := by
    rw [find_eq_zero_append line _ h]; simp
  refine ⟨hlen, fun e he => find_brace_ge line e h he, fun n => ?_,
    ⟨_, parseLocationPath_ok line h⟩, fun hb hl => ?_⟩
  · simp only [substrChecked]
    rw [if_neg (by omega)]
  · have hnone : find line "\x7b".toList = none := find_char_none line '\x7b' hb
    rw [parseLocationPath_ok line h, hnone]
    simp only [sizeT, npos, substr]
    have hn : (2 ^ 64 - 1 + 2 ^ 64 - 8) % 2 ^ 64 = 2 ^ 64 - 9 := by norm_num
    rw [hn, List.take_of_length_le (by simp only [List.length_drop]; omega)]

theorem parseLocationPath_safe_witness :
    trim ("location /static".toList.drop 8) = "/static".toList ∧
    (8 ≤ "location /static".toList.length ∧
    (∀ e, find "location /static".toList "\x7b".toList = some e →
      8 ≤ e ∧ e < "location /static".toList.length) ∧
    (∀ n, substrChecked "location /static".toList 8 n =
      .ok (substr "location /static".toList 8 n)) ∧
    (∃ path, parseLocationPath "location /static".toList = .ok path) ∧
    ('\x7b' ∉ "location /static".toList → "location /static".toList.length < 2 ^ 64 →
      parseLocationPath "location /static".toList =
        .ok (trim ("location /static".toList.drop 8)))) :=
  ⟨by decide, parseLocationPath_safe "location /static".toList (by decide)⟩

/-- C18, as stated, fails: on `return abc /x`, read inside a location block,
the redirect URL stored is empty and not the third token `/x`; on
`error_page 4o4 /e.html` the code stored is 4 and the path stored is `o4`,
not the third token `/e.html`. -/
theorem third_token_not_stored :
    tokens "return abc /x".toList = ["return".toList, "abc".toList, "/x".toList] ∧
    decimalInt "abc".toList = none ∧
    (parseLocationLine Env.zero Env.zero.newRoute "return abc /x".toList).map
      (fun r => (r.redirectStatus, r.redirectUrl)) = some (0, []) ∧
    (parseLocationLine Env.zero Env.zero.newRoute "return abc /x".toList).map
      (fun r => r.redirectUrl) ≠ (tokens "return abc /x".toList)[2]? ∧
    tokens "error_page 4o4 /e.html".toList =
      ["error_page".toList, "4o4".toList, "/e.html".toList] ∧
    decimalInt "4o4".toList = none ∧
    parseServerDirective Env.zero Env.zero.newConfig [] "error_page 4o4 /e.html".toList =
      .ok (Env.zero.newConfig.setErrorPage 4 "o4".toList, []) ∧
    (Env.zero.newConfig.setErrorPage 4 "o4".toList).errorPages.map Prod.snd ≠
      ["/e.html".toList] :=
  ⟨by decide, by decide, by decide, by decide, by decide, by decide, rfl, by decide⟩

/-- C19: one configuration per `server {` line read by the loop of
`parseConfigFile`, whether a server block is open or not. The parser returns
as many configurations as it reads such lines outside location blocks; a
`server {` line read at server scope of the block `i` appends a new
configuration, to which `currentConfig` points from then on, and the
configuration `i` is in the result as it was before the line, whatever
follows. -/
theorem one_block_per_server_line (env : Env) :
    (∀ lines : List Str, ∃ configs, parseConfigFile env (some lines) = .ok configs ∧
      configs.length = serverLinesRead env PState.init lines) ∧
    ∀ (pre rest : List Str) (l : Str) (i : Nat), serverScopeAfter env pre i = true →
      trim l = "server \x7b".toList →
      ∃ st0 c0 configs, run env PState.init pre = .ok st0 ∧ st0.configs[i]? = some c0 ∧
        run env PState.init (pre ++ [l]) = .ok ⟨st0.configs ++ [env.newConfig], some st0.configs.length, none⟩ ∧
        i < st0.configs.length ∧
        serverScopeAfter env (pre ++ [l]) st0.configs.length = true ∧
        parseConfigFile env (some (pre ++ l :: rest)) = .ok configs ∧
        configs[i]? = some c0 := by
  constructor
  · intro lines
    obtain ⟨s1, hs1, hw1⟩ := run_ok env lines PState.init wf_init
    obtain ⟨s2, hs2, _⟩ := finish_ok s1 hw1
    refine ⟨s2.configs, ?_, ?_⟩
    · simp [parseConfigFile_eq_run, hs1, hs2, bind, Except.bind, Except.map]
    · rw [(finish_shape s1 s2 hs2).1, run_length env lines _ _ hs1]
      simp [PState.init]
  · intro pre rest l i hs hl
    obtain ⟨s0, hs0, hcur, hroute, hlt⟩ := (serverScopeAfter_iff env _ i).mp hs
    have hg : s0.configs[i]? = some s0.configs[i] := by simp [hlt]
    have hstep := step_server_line env s0 l hroute hl
    have hrun1 := run_snoc env pre l _ _ hs0 hstep
    have hclosed : closedBlock i ⟨s0.configs ++ [env.newConfig], some s0.configs.length,
        none⟩ := by
      refine ⟨by simp; omega, fun j hj => ?_⟩
      simp only [Option.some.injEq] at hj
      omega
    obtain ⟨s2, hs2, hw2⟩ := run_ok env rest _ (run_wf env _ _ _ wf_init hrun1)
    obtain ⟨s3, hs3, _⟩ := finish_ok s2 hw2
    obtain ⟨hc2, he2⟩ := run_closedBlock env rest i _ s2 hs2 hclosed
    have he3 := finish_closedBlock s2 s3 i hs3 hc2
    refine ⟨s0, _, s3.configs, hs0, hg, hrun1, hlt, ?_, ?_, ?_⟩
    · rw [serverScopeAfter_iff]
      exact ⟨_, hrun1, rfl, rfl, by simp⟩
    · have hsplit : pre ++ l :: rest = (pre ++ [l]) ++ rest := by simp
      rw [parseConfigFile_eq_run, hsplit, run_append, hrun1]
      simp only [bind, Except.bind, hs2, hs3, Except.map]
    · rw [he3, he2]
      simp only [List.getElem?_append_left hlt, hg]

theorem one_block_per_server_line_witness :
    serverLinesRead Env.zero PState.init
      ["server \x7b".toList, "location / \x7b".toList, "server \x7b".toList, "\x7d".toList,
        "server \x7b".toList] = 2 ∧
    ∃ st0 c0 configs,
      run Env.zero PState.init ["server \x7b".toList, "listen 80".toList] = .ok st0 ∧
      st0.configs[0]? = some c0 ∧
      run Env.zero PState.init (["server \x7b".toList, "listen 80".toList] ++
          [" server \x7b".toList]) =
        .ok ⟨st0.configs ++ [Env.zero.newConfig], some st0.configs.length, none⟩ ∧
      0 < st0.configs.length ∧
      serverScopeAfter Env.zero (["server \x7b".toList, "listen 80".toList] ++
        [" server \x7b".toList]) st0.configs.length = true ∧
      parseConfigFile Env.zero (some (["server \x7b".toList, "listen 80".toList] ++
        " server \x7b".toList :: ["listen 81".toList, "\x7d".toList])) = .ok configs ∧
      configs[0]? = some c0 :=
  ⟨by decide, (one_block_per_server_line Env.zero).2 ["server \x7b".toList, "listen 80".toList]
    ["listen 81".toList, "\x7d".toList] " server \x7b".toList 0 (by decide) (by decide)⟩

/-- C11: routes keep file order. Let the parser be at server scope of the
server block `i` after the lines `pre`, and let the lines that follow be those
of `items`: lines of server scope and closed location blocks, in any order.
After them the parser is at server scope of the block `i` again. If the file
ends there, or goes on with the `}` that closes the server block and anything
after it, the paths of the routes of the configuration `i` in the result are
those it had before, followed by the paths of the location blocks of `items`
in file order; if the file goes on with a last location block that is not
closed, the path of that block follows them. -/
theorem routes_keep_file_order (env : Env) (pre : List Str) (items : List BlockItem) (i : Nat)
    (hs : serverScopeAfter env pre i = true) (hitems : ∀ item ∈ items, item.wellFormed) :
    ∃ st0 c0, run env PState.init pre = .ok st0 ∧ st0.configs[i]? = some c0 ∧
      serverScopeAfter env (pre ++ blockLines items) i = true ∧
      (∃ configs c, parseConfigFile env (some (pre ++ blockLines items)) = .ok configs ∧
        configs[i]? = some c ∧
        c.routes.map Route.path = c0.routes.map Route.path ++ blockPaths items) ∧
      (∀ close rest, trim close = "\x7d".toList →
        ∃ configs c,
          parseConfigFile env (some (pre ++ blockLines items ++ close :: rest)) = .ok configs ∧
          configs[i]? = some c ∧
          c.routes.map Route.path = c0.routes.map Route.path ++ blockPaths items) ∧
      (∀ loc body, find (trim loc) "location".toList = some 0 →
        (∀ l ∈ body, trim l ≠ "\x7d".toList) →
        ∃ configs c path, parseLocationPath (trim loc) = .ok path ∧
          parseConfigFile env (some (pre ++ blockLines items ++ loc :: body)) = .ok configs ∧
          configs[i]? = some c ∧
          c.routes.map Route.path =
            c0.routes.map Route.path ++ blockPaths items ++ [path]) ∧
      ∀ loc body close, BlockItem.location loc body close ∈ items →
        ∃ path, parseLocationPath (trim loc) = .ok path ∧
          (BlockItem.location loc body close).paths = [path] := by
  obtain ⟨s0, hs0, hcur, hroute, hlt⟩ := (serverScopeAfter_iff env _ i).mp hs
  obtain ⟨configs0, cur0, route0⟩ := s0
  simp only at hcur hroute hlt
  subst hcur hroute
  have hg0 : configs0[i]? = some configs0[i] := by simp [hlt]
  obtain ⟨configs1, c1, hr1, hg1, hlen1, hp1⟩ := run_items env items i configs0 _ hg0 hitems
  have hlt1 : i < configs1.length := by omega
  have hrun1 : run env PState.init (pre ++ blockLines items) = .ok ⟨configs1, some i, none⟩ := by
    rw [run_append, hs0]; exact hr1
  refine ⟨_, _, hs0, hg0, ?_, ⟨configs1, c1, ?_, hg1, hp1⟩, fun close rest hclose => ?_,
    fun loc body hloc hbody => ?_, fun loc body close hmem => ?_⟩
  · rw [serverScopeAfter_iff]
    exact ⟨_, hrun1, rfl, rfl, hlt1⟩
  · rw [parseConfigFile_eq_run, hrun1]
    rfl
  · have hrun2 := run_snoc env _ close _ _ hrun1 (step_close_line env configs1 (some i) close hclose)
    obtain ⟨configs2, hparse, hg2⟩ := parse_after_close env _ rest configs1 i c1 hrun2 hg1
    refine ⟨configs2, c1, ?_, hg2, hp1⟩
    rw [← hparse]
    simp
  · obtain ⟨path, hpath, hstep⟩ := step_location env ⟨configs1, some i, none⟩ loc i
      ⟨rfl, rfl, hlt1⟩ hloc
    dsimp only at hstep
    refine ⟨configs1.set i (c1.addRoute (routeAfter env (env.newRoute.setPath path) body)),
      c1.addRoute (routeAfter env (env.newRoute.setPath path) body), path, hpath, ?_, ?_, ?_⟩
    · rw [parseConfigFile_eq_run, run_append, hrun1]
      simp only [bind, Except.bind, run_cons, hstep]
      rw [run_location_body env body _ _ rfl hbody]
      simp only [finish, closeLocation, hg1, pure, Except.pure, Except.map]
    · simp [hlt1]
    · simp [Config.addRoute, hp1, routeAfter_path, Route.setPath]
  · obtain ⟨hloc, _, _⟩ := hitems _ hmem
    exact ⟨_, parseLocationPath_ok _ hloc, by simp [BlockItem.paths, parseLocationPath_ok _ hloc]⟩

theorem routes_keep_file_order_witness :
    blockPaths [BlockItem.location "location /a \x7b".toList ["index a.html".toList] "\x7d".toList,
        BlockItem.line "listen 80".toList,
        BlockItem.location "location /b \x7b".toList [] " \x7d".toList,
        BlockItem.line "root /srv".toList] = ["/a".toList, "/b".toList] ∧
    ∃ configs c,
      parseConfigFile Env.zero
        (some (["server \x7b".toList] ++
          blockLines [BlockItem.location "location /a \x7b".toList ["index a.html".toList]
              "\x7d".toList,
            BlockItem.line "listen 80".toList,
            BlockItem.location "location /b \x7b".toList [] " \x7d".toList,
            BlockItem.line "root /srv".toList] ++
          "location /c".toList :: ["autoindex on".toList])) = .ok configs ∧
      configs[0]? = some c ∧
      c.routes.map Route.path = ["/a".toList, "/b".toList, "/c".toList] := by
  obtain ⟨st0, c0, h0, hc0, _, _, _, h3, _⟩ := routes_keep_file_order Env.zero
    ["server \x7b".toList]
    [BlockItem.location "location /a \x7b".toList ["index a.html".toList] "\x7d".toList,
      BlockItem.line "listen 80".toList,
      BlockItem.location "location /b \x7b".toList [] " \x7d".toList,
      BlockItem.line "root /srv".toList] 0 (by decide) (by decide)
  obtain ⟨configs, c, path, hpath, hparse, hc, hroutes⟩ :=
    h3 "location /c".toList ["autoindex on".toList] (by decide) (by decide)
  have e0 : run Env.zero PState.init ["server \x7b".toList] =
      .ok ⟨[Env.zero.newConfig], some 0, none⟩ := rfl
  rw [e0] at h0
  simp only [Except.ok.injEq] at h0
  subst h0
  simp only [List.getElem?_cons_zero, Option.some.injEq] at hc0
  subst hc0
  have e1 : parseLocationPath (trim "location /c".toList) = .ok "/c".toList := rfl
  rw [e1] at hpath
  simp only [Except.ok.injEq] at hpath
  subst hpath
  exact ⟨by decide, configs, c, hparse, hc, hroutes⟩

/-- C8: comments and blank lines are ignored anywhere. A line `c` that is empty
once spaces and tabs are trimmed, or whose first character that is neither a
space nor a tab is `#`, leaves the state of the parser as it is in every
scope: the loop of `parseLocation` and the loop of `parseConfigFile` go on with
the next line. For all line sequences `L1` and `L2` none of whose lines is a
numeric directive without a value (on such a line the parser reads an `int`
that was never written), the file `L1 ++ c :: L2` parses to what the file
`L1 ++ L2` parses to, in any two runs: each run has its own environment, the
two having the same default-constructed `Config` and `Route`. -/
theorem blank_or_comment_ignored (env : Env) (c : Str) (h : isBlankOrComment c) :
    (∀ route file, parseLocationLoop env route (c :: file) = parseLocationLoop env route file) ∧
    (∀ fuel configs cur file, parseConfigLoop env (fuel + 1) configs cur (c :: file) =
      parseConfigLoop env fuel configs cur file) ∧
    (∀ st, step env st c = .ok st) ∧
    ∀ (env1 : Env) (L1 L2 : List Str), env.sameDefaults env1 →
      (∀ l ∈ L1 ++ L2, numericWithoutValue l = false) →
      parseConfigFile env (some (L1 ++ c :: L2)) = parseConfigFile env1 (some (L1 ++ L2)) := by
  refine ⟨fun route file => ?_, fun fuel configs cur file => ?_, fun st => step_blank env st c h,
    fun env1 L1 L2 hd hno => ?_⟩
  · simp only [parseLocationLoop, parseLocationLine_blank env route c h]
  · have hskip : ((trim c).isEmpty || decide ((trim c).head? = some '#')) = true := by
      rcases h with h | h
      · simp [h]
      · simp [h]
    simp only [parseConfigLoop, hskip, if_true]
  · rw [← parseConfigFile_env env env1 hd _ hno, parseConfigFile_eq_run, parseConfigFile_eq_run,
      run_append, run_append]
    cases run env PState.init L1 with
    | error e => rfl
    | ok s => simp only [bind, Except.bind, run_cons, step_blank env s c h]

theorem blank_or_comment_ignored_witness :
    (∀ route file, parseLocationLoop Env.zero route (" \t# listen 80".toList :: file) =
      parseLocationLoop Env.zero route file) ∧
    (∀ fuel configs cur file,
      parseConfigLoop Env.zero (fuel + 1) configs cur (" \t# listen 80".toList :: file) =
        parseConfigLoop Env.zero fuel configs cur file) ∧
    (∀ st, step Env.zero st " \t# listen 80".toList = .ok st) ∧
    parseConfigFile Env.zero
        (some (["server \x7b".toList, "listen 80".toList, "location / \x7b".toList] ++
          " \t# listen 80".toList :: ["return 301 /new".toList, "\x7d".toList, "listen 81".toList])) =
      parseConfigFile ⟨Env.zero.newConfig, Env.zero.newRoute, 7⟩
        (some (["server \x7b".toList, "listen 80".toList, "location / \x7b".toList] ++
          ["return 301 /new".toList, "\x7d".toList, "listen 81".toList])) :=
  have w := blank_or_comment_ignored Env.zero " \t# listen 80".toList (Or.inr (by decide))
  ⟨w.1, w.2.1, w.2.2.1,
    w.2.2.2 ⟨Env.zero.newConfig, Env.zero.newRoute, 7⟩
      ["server \x7b".toList, "listen 80".toList, "location / \x7b".toList]
      ["return 301 /new".toList, "\x7d".toList, "listen 81".toList] (by decide) (by decide)⟩

/-- C12: a closed server block is never mutated again. Let the parser be
outside every block after the lines `L1`. In a run on the file `L1 ++ L2` the
configurations built when `L1` has been read are the first configurations of
the vector, unchanged, after every further line and in the result. When no
line of the file is a numeric directive without a value (on such a line the
parser reads an `int` that was never written), the file parses to the
configurations that `L1` parses to followed by those that `L2` parses to, in
any three runs: each run has its own environment, all with the same
default-constructed `Config` and `Route`; in particular the configurations of
`L1` are a prefix of the result. -/
theorem closed_blocks_never_mutated (env : Env) (L1 L2 : List Str)
    (h : outsideAfter env L1 = true) :
    (∃ s1 configs, run env PState.init L1 = .ok s1 ∧
      (∀ k, ∃ s, run env PState.init (L1 ++ L2.take k) = .ok s ∧ s1.configs <+: s.configs) ∧
      parseConfigFile env (some (L1 ++ L2)) = .ok configs ∧ s1.configs <+: configs) ∧
    ∀ env1 env2 : Env, env.sameDefaults env1 → env.sameDefaults env2 →
      (∀ l ∈ L1 ++ L2, numericWithoutValue l = false) →
      ∃ a b, parseConfigFile env1 (some L1) = .ok a ∧ parseConfigFile env2 (some L2) = .ok b ∧
        parseConfigFile env (some (L1 ++ L2)) = .ok (a ++ b) ∧ a <+: a ++ b := by
  obtain ⟨s1, hs1, _⟩ := run_ok env L1 PState.init wf_init
  simp only [outsideAfter, hs1, Bool.and_eq_true, Option.isNone_iff_eq_none] at h
  obtain ⟨s2, hs2, hw2⟩ := run_ok env L2 PState.init wf_init
  obtain ⟨s3, hs3, _⟩ := finish_ok s2 hw2
  have hfin1 : finish s1 = .ok s1 := by
    simp only [finish, h.2]; rfl
  have hall : parseConfigFile env (some (L1 ++ L2)) = .ok (s1.configs ++ s3.configs) := by
    rw [parseConfigFile_eq_run, run_append, hs1]
    simp only [bind, Except.bind]
    have hf := finish_shift s1.configs s2
    rw [hs3] at hf
    simp only [run_after_outside env s1 h.1 h.2 L2 s2 hs2, Except.map, hf]
    rfl
  refine ⟨⟨s1, _, hs1, fun k => ?_, hall, List.prefix_append _ _⟩, fun env1 env2 hd1 hd2 hno => ?_⟩
  · obtain ⟨s, hs, _⟩ := run_ok env (L2.take k) PState.init wf_init
    refine ⟨PState.shift s1.configs s, ?_, List.prefix_append _ _⟩
    rw [run_append, hs1]
    simp only [bind, Except.bind]
    exact run_after_outside env s1 h.1 h.2 _ s hs
  · refine ⟨s1.configs, s3.configs, ?_, ?_, hall, List.prefix_append _ _⟩
    · rw [← parseConfigFile_env env env1 hd1 L1 (fun l hl => hno l (List.mem_append_left _ hl)),
        parseConfigFile_eq_run, hs1]
      simp only [bind, Except.bind, hfin1, Except.map]
    · rw [← parseConfigFile_env env env2 hd2 L2 (fun l hl => hno l (List.mem_append_right _ hl)),
        parseConfigFile_eq_run, hs2]
      simp only [bind, Except.bind, hs3, Except.map]

theorem closed_blocks_never_mutated_witness :
    ∃ a b,
      parseConfigFile ⟨Env.zero.newConfig, Env.zero.newRoute, 1⟩
        (some ["server \x7b".toList, "listen 80".toList, "location / \x7b".toList,
          "\x7d".toList, "\x7d".toList, "listen 1".toList]) = .ok a ∧
      parseConfigFile ⟨Env.zero.newConfig, Env.zero.newRoute, 2⟩
        (some ["listen 2".toList, "server \x7b".toList, "listen 81".toList]) = .ok b ∧
      parseConfigFile Env.zero
        (some (["server \x7b".toList, "listen 80".toList, "location / \x7b".toList,
            "\x7d".toList, "\x7d".toList, "listen 1".toList] ++
          ["listen 2".toList, "server \x7b".toList, "listen 81".toList])) = .ok (a ++ b) ∧
      a <+: a ++ b :=
  (closed_blocks_never_mutated Env.zero
    ["server \x7b".toList, "listen 80".toList, "location / \x7b".toList, "\x7d".toList,
      "\x7d".toList, "listen 1".toList]
    ["listen 2".toList, "server \x7b".toList, "listen 81".toList] (by decide)).2
    ⟨Env.zero.newConfig, Env.zero.newRoute, 1⟩ ⟨Env.zero.newConfig, Env.zero.newRoute, 2⟩
    (by decide) (by decide) (by decide)

/-- C5: `error_page` overwrites per status code. Let `l1` be an `error_page`
line for the code `c` and the path `p`, and `l2`, later in the file, one for
the same code and the path `q`, both read at server scope of the server block
`i`, with any lines `mid` between them and any lines `post` after them.
Processing `l1` sets the entry of `c` to `p`; processing `l2` replaces the
configuration by the one in which `c` is mapped to `q`, with a single entry
for `c` and every other code mapped as it was before `l2`. A code that no line
of `mid` sets is mapped before `l2` as it was after `l1`, and in the result of
the parser a code that no line of `post` sets has the entries it had after
`l2`: when this is so of `c`, the result maps `c` to `q` with a single entry. -/
theorem error_page_overwrites (env : Env) (pre mid post : List Str) (l1 l2 : Str)
    (c : Int) (p q : Str) (i : Nat)
    (hs1 : serverScopeAfter env pre i = true) (hl1 : errorPageLine l1 c p)
    (hs2 : serverScopeAfter env (pre ++ l1 :: mid) i = true) (hl2 : errorPageLine l2 c q) :
    ∃ s0 c0 s1 c1 c2 configs cz,
      run env PState.init pre = .ok s0 ∧ s0.configs[i]? = some c0 ∧
      run env PState.init (pre ++ [l1]) =
        .ok { s0 with configs := s0.configs.set i (c0.setErrorPage c p) } ∧
      (c0.setErrorPage c p).errorPage c = some p ∧
      run env PState.init (pre ++ l1 :: mid) = .ok s1 ∧ s1.configs[i]? = some c1 ∧
      (∀ k, errorCodeKept env (pre ++ [l1]) mid i k →
        c1.errorPage k = (c0.setErrorPage c p).errorPage k) ∧
      c2 = c1.setErrorPage c q ∧
      run env PState.init (pre ++ l1 :: mid ++ [l2]) =
        .ok { s1 with configs := s1.configs.set i c2 } ∧
      c2.errorPage c = some q ∧
      (c2.errorPages.filter (fun e => e.1 = c)).length = 1 ∧
      (∀ k, k ≠ c → c2.errorPage k = c1.errorPage k) ∧
      parseConfigFile env (some (pre ++ l1 :: mid ++ l2 :: post)) = .ok configs ∧
      configs[i]? = some cz ∧
      (∀ k, errorCodeKept env (pre ++ l1 :: mid ++ [l2]) post i k →
        cz.errorPage k = c2.errorPage k ∧
        cz.errorPages.filter (fun e => e.1 = k) = c2.errorPages.filter (fun e => e.1 = k)) ∧
      (errorCodeKept env (pre ++ l1 :: mid ++ [l2]) post i c →
        cz.errorPage c = some q ∧ (cz.errorPages.filter (fun e => e.1 = c)).length = 1) := by
  obtain ⟨s0, hs0, hin0⟩ := (serverScopeAfter_iff env _ i).mp hs1
  obtain ⟨c0, hc0, hstep1⟩ := step_error_page env s0 l1 i c p hin0 hl1
  have hrun1 := run_snoc env pre l1 _ _ hs0 hstep1
  obtain ⟨s1, hs1', hin1⟩ := (serverScopeAfter_iff env _ i).mp hs2
  obtain ⟨c1, hc1, hstep2⟩ := step_error_page env s1 l2 i c q hin1 hl2
  have hrun2 := run_snoc env (pre ++ l1 :: mid) l2 _ _ hs1' hstep2
  have hl : ∀ x : List Str, pre ++ l1 :: mid ++ x = (pre ++ l1 :: mid) ++ x := by
    intro x; simp
  have hdir : ∀ k (env : Env) (a b : Config) (raw : Str), ¬ setsErrorCode raw k →
      parseServerDirective env a [] (trim raw) = .ok (b, []) →
      ∀ v, a.errorPages.filter (fun e => e.1 = k) = v →
        b.errorPages.filter (fun e => e.1 = k) = v := by
    intro k env a b raw hno hp v hv
    rw [errorPages_kept env a b raw k hno hp, hv]
  -- the lines between `l1` and `l2`
  have hmid : ∀ k, errorCodeKept env (pre ++ [l1]) mid i k →
      c1.errorPage k = (c0.setErrorPage c p).errorPage k := by
    intro k hk
    obtain ⟨s, hs, c', hc', hP⟩ := run_kept_init
      (fun a => a.errorPages.filter (fun e => e.1 = k) =
        (c0.setErrorPage c p).errorPages.filter (fun e => e.1 = k))
      (fun raw => ¬ setsErrorCode raw k)
      (fun env a b raw hno hp hv => hdir k env a b raw hno hp _ hv) (fun _ _ hv => hv)
      env i (pre ++ [l1]) mid _ hrun1 ⟨c0.setErrorPage c p, by simp [hin0.2.2], rfl⟩ hk
    have e : pre ++ [l1] ++ mid = pre ++ l1 :: mid := by simp
    rw [e, hs1'] at hs
    simp only [Except.ok.injEq] at hs
    subst hs
    rw [hc1] at hc'
    simp only [Option.some.injEq] at hc'
    subst hc'
    rw [errorPage_eq_filter, errorPage_eq_filter, hP]
  -- the lines after `l2`
  have hsome : ({ s1 with configs := s1.configs.set i (c1.setErrorPage c q) } : PState).configs[i]? =
      some (c1.setErrorPage c q) := by simp [hin1.2.2]
  obtain ⟨configs, cz, hparse, hcz, _⟩ := parseConfigFile_kept (fun _ => True) (fun _ => True)
    (fun _ _ _ _ _ _ _ => trivial) (fun _ _ _ => trivial) env i ((pre ++ l1 :: mid) ++ [l2]) post
    _ hrun2 ⟨_, hsome, trivial⟩ (fun _ _ _ => trivial)
  have hpost : ∀ k, errorCodeKept env (pre ++ l1 :: mid ++ [l2]) post i k →
      cz.errorPages.filter (fun e => e.1 = k) =
        (c1.setErrorPage c q).errorPages.filter (fun e => e.1 = k) := by
    intro k hk
    rw [hl] at hk
    obtain ⟨configs', cz', hparse', hcz', hP⟩ := parseConfigFile_kept
      (fun a => a.errorPages.filter (fun e => e.1 = k) =
        (c1.setErrorPage c q).errorPages.filter (fun e => e.1 = k))
      (fun raw => ¬ setsErrorCode raw k)
      (fun env a b raw hno hp hv => hdir k env a b raw hno hp _ hv) (fun _ _ hv => hv)
      env i ((pre ++ l1 :: mid) ++ [l2]) post _ hrun2 ⟨_, hsome, rfl⟩ hk
    rw [hparse] at hparse'
    simp only [Except.ok.injEq] at hparse'
    subst hparse'
    rw [hcz] at hcz'
    simp only [Option.some.injEq] at hcz'
    subst hcz'
    exact hP
  have hfile : (pre ++ l1 :: mid) ++ [l2] ++ post = pre ++ l1 :: mid ++ l2 :: post := by simp
  rw [hfile] at hparse
  refine ⟨s0, c0, s1, c1, c1.setErrorPage c q, configs, cz, hs0, hc0, hrun1,
    errorPage_setErrorPage_same _ _ _, hs1', hc1, hmid, rfl, by rw [hl]; exact hrun2,
    errorPage_setErrorPage_same _ _ _, count_setErrorPage _ _ _,
    fun k hk => errorPage_setErrorPage_other _ _ _ _ hk, hparse, hcz, fun k hk => ?_, fun hk => ?_⟩
  · have := hpost k hk
    exact ⟨by rw [errorPage_eq_filter, errorPage_eq_filter, this], this⟩
  · have := hpost c hk
    refine ⟨?_, ?_⟩
    · rw [errorPage_eq_filter, this, ← errorPage_eq_filter, errorPage_setErrorPage_same]
    · rw [this]; exact count_setErrorPage _ _ _

theorem error_page_overwrites_witness :
    ∃ configs cz,
      parseConfigFile Env.zero
        (some (["server \x7b".toList, "error_page 500 /50x.html".toList] ++
          "error_page 404 /404.html".toList :: ["error_page 500 /500.html".toList] ++
          "error_page 404 /other.html".toList ::
            ["error_page 403 /403.html".toList, "\x7d".toList])) = .ok configs ∧
      configs[0]? = some cz ∧ cz.errorPage 404 = some "/other.html".toList ∧
      (cz.errorPages.filter (fun e => e.1 = 404)).length = 1 := by
  obtain ⟨_, _, _, _, _, configs, cz, _, _, _, _, _, _, _, _, _, _, _, _, hparse, hcz, _, hlast⟩ :=
    error_page_overwrites Env.zero ["server \x7b".toList, "error_page 500 /50x.html".toList]
      ["error_page 500 /500.html".toList] ["error_page 403 /403.html".toList, "\x7d".toList]
      "error_page 404 /404.html".toList "error_page 404 /other.html".toList 404
      "/404.html".toList "/other.html".toList 0
      (by decide)
      ⟨by decide, "error_page".toList, "404".toList, [], by decide, by decide, by decide,
        by decide⟩
      (by decide)
      ⟨by decide, "error_page".toList, "404".toList, [], by decide, by decide, by decide,
        by decide⟩
  exact ⟨configs, cz, hparse, hcz, hlast (by decide)⟩

/-- C18, amended: on a `return` line (route scope) or an `error_page` line
(server scope) with at least three tokens no error is raised, and the numeric
field and the string stored are those of `intThenString` on the second token
`t` and the third token `u`, which depend on the integer that begins `t` (an
optional sign and at least one digit). When `t` is a decimal integer within
the range of `int`, they are that integer and `u`. When `t` does not begin
with an integer, they are 0 and the empty string. When `t` begins with an
integer outside the range of `int`, they are `INT_MIN` or `INT_MAX` and the
empty string. When `t` begins with an integer within range followed by other
characters, they are that integer and the rest of `t`. A token is a decimal
integer exactly when the integer that begins it is the whole token, so these
cases are all the cases; hence the string stored is `u` exactly when `t` is a
decimal integer within range, or begins with one and the rest of `t` is equal
to `u`. -/
theorem positional_extraction (env : Env) (raw k t u : Str) (ts : List Str)
    (htok : tokens raw = k :: t :: u :: ts) :
    (find (trim raw) "return".toList = some 0 →
      ∀ route, parseLocationLine env route raw =
        some { route with
          redirectStatus := (intThenString t u).1, redirectUrl := (intThenString t u).2 }) ∧
    (find (trim raw) "error_page".toList = some 0 →
      ∀ config file, parseServerDirective env config file (trim raw) =
        .ok (config.setErrorPage (intThenString t u).1 (intThenString t u).2, file)) ∧
    (∀ v, decimalInt t = some v → fitsInt v → intThenString t u = (v, u)) ∧
    (intDigits t = [] → intThenString t u = (0, [])) ∧
    (intDigits t ≠ [] → intValue t < intMin → intThenString t u = (intMin, [])) ∧
    (intDigits t ≠ [] → intValue t > intMax → intThenString t u = (intMax, [])) ∧
    (intDigits t ≠ [] → fitsInt (intValue t) → intTail t ≠ [] →
      intThenString t u = (intValue t, intTail t)) ∧
    (∀ v, decimalInt t = some v ↔ intDigits t ≠ [] ∧ intTail t = [] ∧ intValue t = v) ∧
    ((intThenString t u).2 = u ↔
      (∃ v, decimalInt t = some v ∧ fitsInt v) ∨
        (intDigits t ≠ [] ∧ fitsInt (intValue t) ∧ intTail t = u)) := by
  have hex := extract_key_int_string (trim raw) k t (u :: ts) env.indeterminate
    (by rw [tokens_trim]; exact htok)
  simp only [List.headD_cons, Prod.ext_iff] at hex
  have hu : u ≠ [] := tokens_ne_nil raw u (by rw [htok]; simp)
  refine ⟨fun h route => ?_, fun h config file => ?_,
    fun v hdec hfit => intThenString_valid t u v hdec hfit, fun h0 => ?_, fun h0 hlt => ?_,
    fun h0 hgt => ?_, fun h0 hfit htail => ?_, decimalInt_iff t, ?_⟩
  · have e1 := find_exclusive (trim raw) "return".toList "autoindex".toList h
      (by decide) (by decide)
    simp only [parseLocationLine, e1, h, if_false, if_true, hex.1, hex.2]
    rfl
  · have hx := fun kw h1 h2 => find_exclusive (trim raw) "error_page".toList kw h h1 h2
    have e1 := hx "listen".toList (by decide) (by decide)
    have e2 := hx "server_name".toList (by decide) (by decide)
    have e3 := hx "root".toList (by decide) (by decide)
    have e4 := hx "client_max_body_size".toList (by decide) (by decide)
    have e5 := hx "index".toList (by decide) (by decide)
    simp only [parseServerDirective, e1, e2, e3, e4, e5, h, false_and, if_false, if_true,
      hex.1, hex.2]
    rfl
  · simp only [intThenString, h0, List.isEmpty_nil, if_true]
  · have h0' : (intDigits t).isEmpty = false := isEmpty_eq_false _ h0
    simp only [intThenString, h0', Bool.false_eq_true, if_false, hlt, if_true]
  · have h0' : (intDigits t).isEmpty = false := isEmpty_eq_false _ h0
    have hlo : ¬ intValue t < intMin := by
      have : intMin ≤ intMax := by decide
      omega
    simp only [intThenString, h0', Bool.false_eq_true, if_false, hlo, hgt, if_true]
  · have h0' : (intDigits t).isEmpty = false := isEmpty_eq_false _ h0
    have ht' : (intTail t).isEmpty = false := isEmpty_eq_false _ htail
    simp only [intThenString, h0', ht', Bool.false_eq_true, if_false, not_lt.mpr hfit.1,
      not_lt.mpr hfit.2]
  · by_cases h0 : intDigits t = []
    · simp only [intThenString, h0, List.isEmpty_nil, if_true]
      constructor
      · intro e; exact absurd e.symm hu
      · rintro (⟨v, hv, _⟩ | ⟨h1, _⟩)
        · exact absurd h0 ((decimalInt_iff t v).mp hv).1
        · exact absurd rfl h1
    have h0' : (intDigits t).isEmpty = false := isEmpty_eq_false _ h0
    by_cases hlt : intValue t < intMin
    · simp only [intThenString, h0', Bool.false_eq_true, if_false, hlt, if_true]
      constructor
      · intro e; exact absurd e.symm hu
      · rintro (⟨v, hv, hfit⟩ | ⟨_, hfit, _⟩)
        · rw [← ((decimalInt_iff t v).mp hv).2.2] at hfit
          exact absurd hlt (not_lt.mpr hfit.1)
        · exact absurd hlt (not_lt.mpr hfit.1)
    by_cases hgt : intValue t > intMax
    · simp only [intThenString, h0', Bool.false_eq_true, if_false, hlt, hgt, if_true]
      constructor
      · intro e; exact absurd e.symm hu
      · rintro (⟨v, hv, hfit⟩ | ⟨_, hfit, _⟩)
        · rw [← ((decimalInt_iff t v).mp hv).2.2] at hfit
          exact absurd hgt (not_lt.mpr hfit.2)
        · exact absurd hgt (not_lt.mpr hfit.2)
    have hfit : fitsInt (intValue t) := ⟨not_lt.mp hlt, not_lt.mp hgt⟩
    by_cases htail : intTail t = []
    · simp only [intThenString, h0', Bool.false_eq_true, if_false, hlt, hgt, htail,
        List.isEmpty_nil, if_true, true_iff]
      exact Or.inl ⟨intValue t, (decimalInt_iff t _).mpr ⟨h0, htail, rfl⟩, hfit⟩
    · have ht' : (intTail t).isEmpty = false := isEmpty_eq_false _ htail
      simp only [intThenString, h0', ht', Bool.false_eq_true, if_false, hlt, hgt]
      constructor
      · intro e; exact Or.inr ⟨h0, hfit, e⟩
      · rintro (⟨v, hv, _⟩ | ⟨_, _, e⟩)
        · exact absurd ((decimalInt_iff t v).mp hv).2.1 htail
        · exact e

theorem positional_extraction_witness :
    (intThenString "301".toList "/new".toList = (301, "/new".toList) ∧
      intThenString "x".toList "/new".toList = (0, []) ∧
      intThenString "99999999999".toList "/new".toList = (2147483647, []) ∧
      intThenString "30x".toList "/new".toList = (30, "x".toList)) ∧
    (∀ route, parseLocationLine Env.zero route " return x /new".toList =
      some { route with
        redirectStatus := (intThenString "x".toList "/new".toList).1,
        redirectUrl := (intThenString "x".toList "/new".toList).2 }) ∧
    (∀ config file,
      parseServerDirective Env.zero config file (trim "error_page 30x /new".toList) =
        .ok (config.setErrorPage (intThenString "30x".toList "/new".toList).1
          (intThenString "30x".toList "/new".toList).2, file)) ∧
    (intThenString "30x".toList "x".toList).2 = "x".toList ∧
    (intThenString "30x".toList "/new".toList).2 ≠ "/new".toList :=
  ⟨⟨by decide, by decide, by decide, by decide⟩,
    (positional_extraction Env.zero " return x /new".toList "return".toList "x".toList
      "/new".toList [] (by decide)).1 (by decide),
    (positional_extraction Env.zero "error_page 30x /new".toList "error_page".toList
      "30x".toList "/new".toList [] (by decide)).2.1 (by decide),
    (positional_extraction Env.zero "return 30x x".toList "return".toList "30x".toList
      "x".toList [] (by decide)).2.2.2.2.2.2.2.2.mpr (Or.inr ⟨by decide, ⟨by decide, by decide⟩, by decide⟩),
    by decide⟩

end Webserv
